import Mathlib

/-! # Veil DNS seeder: the datagram responder of `dns.cpp`

A shallow embedding of the wire codec (`parse_name`, `write_name`, the five
record writers) and of the responder (`set_error`, `dnshandle`), followed by
theorems about them.

Conventions of the embedding.

* A byte is a `Nat` below 256. A C string is the list of its bytes without the
  terminating NUL.
* The request is the list of the `insize` bytes of the datagram; positions in
  it are indices into that list.
* The response buffer is a memory `Mem`, a map from the offset relative to
  `outbuf` to the byte stored there. The write cursor `*outpos` is an offset;
  `outend` is an offset too, kept as an `Int` because the code computes
  `outend - max_auth_size` and signed pointer differences `outend - *outpos`.
* `time(NULL)` is a parameter `time`, indexed by the call site.
* A dereference of a null `mbox` is an explicit outcome of the responder.
-/

namespace DNS

/-! ## Memory -/

/-- The response buffer: the byte stored at each offset from `outbuf`. -/
abbrev Mem := Nat → Nat

/-- Store one byte: `m[i] = v`. -/
def poke (m : Mem) (i v : Nat) : Mem := fun j => if j = i then v else m j

/-- Store a run of bytes at consecutive offsets, as `memcpy` and the chains of
`*((*outpos)++) = b` do. -/
def put_bytes (m : Mem) (dst : Nat) : List Nat → Mem
  | [] => m
  | b :: bs => put_bytes (poke m dst b) (dst + 1) bs

/-- The first `n` bytes of a memory. -/
def bytes_of (m : Mem) (n : Nat) : List Nat := (List.range n).map m

/-! ## Constants and configuration -/

def BUFLEN : Nat := 512

def CLASS_IN : Nat := 1
def QCLASS_ANY : Nat := 255

def TYPE_A : Nat := 1
def TYPE_NS : Nat := 2
def TYPE_SOA : Nat := 6
def TYPE_AAAA : Nat := 28
def QTYPE_ANY : Nat := 255

/-- An address as the callback returns it: the family tag `v` and the bytes of
the union `data` (`data.v4[i]` and `data.v6[i]` are both byte `i`). -/
structure addr_t where
  v : Int
  data : List Nat
deriving DecidableEq, Repr

/-- Byte `i` of the address union. -/
def addr_t.byte (ip : addr_t) (i : Nat) : Nat := ip.data.getD i 0

/-- The zone configuration `dns_opt_t`, without the transport fields. `mbox` is
`none` for a null pointer. The callback `cb` receives the queried name and the
two family flags and returns the addresses it filled in, in order. -/
structure dns_opt_t where
  datattl : Int
  nsttl : Int
  host : List Nat
  ns : List Nat
  mbox : Option (List Nat)
  cb : List Nat → Bool → Bool → List addr_t

/-! ## parse_name -/

/-- What `parse_name` leaves behind: its return value, the read cursor, and the
bytes it stored in `buf`, in order. -/
structure ParseRes where
  ret : Int
  inpos : Nat
  buf : List Nat
deriving DecidableEq, Repr

/-- The label copy loop `while (octet) { ... }` of `parse_name`. The result has
`ret = 0` when the loop ran to its end. -/
def copy_label (inbuf : List Nat) (inend bufsize : Nat) :
    Nat → Nat → List Nat → ParseRes
  | 0, inpos, buf => ⟨0, inpos, buf⟩
  | octet + 1, inpos, buf =>
    if inpos = inend then ⟨-1, inpos, buf⟩
    else if buf.length + 1 = bufsize then ⟨-2, inpos, buf⟩
    else
      let c := inbuf.getD inpos 0
      if c = 46 then ⟨-1, inpos + 1, buf⟩
      else copy_label inbuf inend bufsize octet (inpos + 1) (buf ++ [c])

/-- The body of `parse_name`: one unit of fuel per turn of the `do` loop and per
recursive call. `buf` holds the bytes stored so far (`bufused` is its length)
and `init` is the flag of the same name. `none` means the fuel ran out. -/
def parse_name_fuel (inbuf : List Nat) :
    Nat → Nat → Nat → Nat → List Nat → Bool → Option ParseRes
  | 0, _, _, _, _, _ => none
  | fuel + 1, inpos, inend, bufsize, buf, init =>
    if inpos = inend then some ⟨-1, inpos, buf⟩
    else
      let octet := inbuf.getD inpos 0
      let inpos := inpos + 1
      if octet = 0 then some ⟨0, inpos, buf ++ [0]⟩
      else if init = false ∧ buf.length + 1 = bufsize then some ⟨-2, inpos, buf⟩
      else
        let buf := if init = false then buf ++ [46] else buf
        if octet &&& 0xC0 = 0xC0 then
          if inpos = inend then some ⟨-1, inpos, buf⟩
          else
            let ref := ((octet - 0xC0) <<< 8) + inbuf.getD inpos 0
            let inpos := inpos + 1
            if ref ≥ inpos - 2 then some ⟨-1, inpos, buf⟩
            else
              match parse_name_fuel inbuf fuel ref (inpos - 2)
                  (bufsize - buf.length) [] true with
              | none => none
              | some r => some ⟨r.ret, inpos, buf ++ r.buf⟩
        else if octet > 63 then some ⟨-1, inpos, buf⟩
        else
          let r := copy_label inbuf inend bufsize octet inpos buf
          if r.ret ≠ 0 then some r
          else parse_name_fuel inbuf fuel r.inpos inend bufsize r.buf false

/-- Fuel that always suffices for a parse ending at `inend`. -/
def parse_fuel (inend : Nat) : Nat := inend * inend + inend + 1

/-- The function `parse_name(&inpos, inend, inbuf, buf, bufsize)`. -/
def parse_name (inbuf : List Nat) (inpos inend bufsize : Nat) : Option ParseRes :=
  parse_name_fuel inbuf (parse_fuel inend) inpos inend bufsize [] true

/-- The C string held by a buffer: its bytes up to the first NUL. -/
def cstr (buf : List Nat) : List Nat := buf.takeWhile (fun b => b != 0)

/-! ## strcasecmp -/

def tolower (c : Nat) : Nat := if 65 ≤ c ∧ c ≤ 90 then c + 32 else c

/-- The function `strcasecmp` on two C strings. -/
def strcasecmp : List Nat → List Nat → Int
  | [], [] => 0
  | [], b :: _ => 0 - (tolower b : Int)
  | a :: _, [] => (tolower a : Int)
  | a :: as, b :: bs =>
    if tolower a = tolower b then strcasecmp as bs
    else (tolower a : Int) - (tolower b : Int)

/-! ## write_name and the record writers -/

/-- What a writer leaves behind: its return value, the write cursor `*outpos`,
and the response buffer. -/
structure Wr where
  ret : Int
  outpos : Nat
  out : Mem

/-- The label loop `while (*name != 0) { ... }` of `write_name`. Every turn
consumes at least one character of `name`, so `name.length` units of fuel
suffice; the result has `ret = 0` when the loop was left normally. -/
def write_name_labels : Nat → Mem → Nat → Int → List Nat → Wr
  | 0, m, outpos, _, _ => ⟨0, outpos, m⟩
  | fuel + 1, m, outpos, outend, name =>
    if name = [] then ⟨0, outpos, m⟩
    else
      let label := name.takeWhile (fun c => c != 46)
      let dot := name.dropWhile (fun c => c != 46)
      if label.length > 63 then ⟨-1, outpos, m⟩
      else if label.length = 0 then ⟨-3, outpos, m⟩
      else if outend - (outpos : Int) < (label.length : Int) + 2 then ⟨-2, outpos, m⟩
      else
        let m := put_bytes (poke m outpos label.length) (outpos + 1) label
        let outpos := outpos + 1 + label.length
        match dot with
        | [] => ⟨0, outpos, m⟩
        | _ :: rest => write_name_labels fuel m outpos outend rest

/-- The function `write_name(outpos, outend, name, offset)`. -/
def write_name (m : Mem) (outpos : Nat) (outend : Int) (name : List Nat)
    (offset : Int) : Wr :=
  let r := write_name_labels name.length m outpos outend name
  if r.ret ≠ 0 then r
  else if offset < 0 then
    if outend = (r.outpos : Int) then ⟨-2, r.outpos, r.out⟩
    else ⟨0, r.outpos + 1, poke r.out r.outpos 0⟩
  else
    if outend - (r.outpos : Int) < 2 then ⟨-2, r.outpos, r.out⟩
    else ⟨0, r.outpos + 2,
      put_bytes r.out r.outpos
        [((offset.toNat >>> 8) ||| 0xC0) % 256, offset.toNat &&& 0xFF]⟩

/-- Byte of a signed 32-bit value: `(x >> shift) & 0xFF`. -/
def int_byte (x : Int) (shift : Nat) : Nat := ((x >>> shift) % 256).toNat

/-- The four bytes `(x >> 24) & 0xFF, ..., x & 0xFF` of an `int`. -/
def int_be32 (x : Int) : List Nat :=
  [int_byte x 24, int_byte x 16, int_byte x 8, int_byte x 0]

/-- The four bytes `(x >> 24) & 0xFF, ..., x & 0xFF` of a `uint32_t`. -/
def be32 (x : Nat) : List Nat :=
  [((x % 2 ^ 32) >>> 24) &&& 0xFF, ((x % 2 ^ 32) >>> 16) &&& 0xFF,
   ((x % 2 ^ 32) >>> 8) &&& 0xFF, (x % 2 ^ 32) &&& 0xFF]

/-- The function `write_record`: owner name, type, class and TTL. -/
def write_record (m : Mem) (outpos : Nat) (outend : Int) (name : List Nat)
    (offset : Int) (typ cls : Nat) (ttl : Int) : Wr :=
  let oldpos := outpos
  let r := write_name m outpos outend name offset
  if r.ret ≠ 0 then ⟨r.ret, oldpos, r.out⟩
  else if outend - (r.outpos : Int) < 8 then ⟨-4, oldpos, r.out⟩
  else ⟨0, r.outpos + 8,
    put_bytes r.out r.outpos
      ([typ >>> 8, typ &&& 0xFF, cls >>> 8, cls &&& 0xFF] ++ int_be32 ttl)⟩

/-- The function `write_record_a`. -/
def write_record_a (m : Mem) (outpos : Nat) (outend : Int) (name : List Nat)
    (offset : Int) (cls : Nat) (ttl : Int) (ip : addr_t) : Wr :=
  if ip.v ≠ 4 then ⟨-6, outpos, m⟩
  else
    let oldpos := outpos
    let r := write_record m outpos outend name offset TYPE_A cls ttl
    if r.ret ≠ 0 then r
    else if outend - (r.outpos : Int) < 6 then ⟨-5, oldpos, r.out⟩
    else ⟨0, r.outpos + 6,
      put_bytes r.out r.outpos ([0, 4] ++ (List.range 4).map ip.byte)⟩

/-- The function `write_record_aaaa`. The space test asks for 6 bytes, as the
source does, although 18 are stored. -/
def write_record_aaaa (m : Mem) (outpos : Nat) (outend : Int) (name : List Nat)
    (offset : Int) (cls : Nat) (ttl : Int) (ip : addr_t) : Wr :=
  if ip.v ≠ 6 then ⟨-6, outpos, m⟩
  else
    let oldpos := outpos
    let r := write_record m outpos outend name offset TYPE_AAAA cls ttl
    if r.ret ≠ 0 then r
    else if outend - (r.outpos : Int) < 6 then ⟨-5, oldpos, r.out⟩
    else ⟨0, r.outpos + 18,
      put_bytes r.out r.outpos ([0, 16] ++ (List.range 16).map ip.byte)⟩

/-- Back-patch of RDLENGTH: `curpos[-2] = len >> 8; curpos[-1] = len & 0xFF`. -/
def patch_rdlength (m : Mem) (curpos len : Nat) : Mem :=
  poke (poke m (curpos - 2) ((len >>> 8) % 256)) (curpos - 1) (len &&& 0xFF)

/-- The function `write_record_ns`. -/
def write_record_ns (m : Mem) (outpos : Nat) (outend : Int) (name : List Nat)
    (offset : Int) (cls : Nat) (ttl : Int) (ns : List Nat) : Wr :=
  let oldpos := outpos
  let r := write_record m outpos outend name offset TYPE_NS cls ttl
  if r.ret ≠ 0 then r
  else if outend - (r.outpos : Int) < 2 then ⟨-5, oldpos, r.out⟩
  else
    let curpos := r.outpos + 2
    let w := write_name r.out curpos outend ns (-1)
    if w.ret ≠ 0 then ⟨w.ret, oldpos, w.out⟩
    else ⟨0, w.outpos, patch_rdlength w.out curpos (w.outpos - curpos)⟩

/-- The function `write_record_soa`. `rname` is `none` for a null pointer, and
the result is `none` when `write_name` is reached with it. -/
def write_record_soa (m : Mem) (outpos : Nat) (outend : Int) (name : List Nat)
    (offset : Int) (cls : Nat) (ttl : Int) (mname : List Nat)
    (rname : Option (List Nat)) (serial refresh retry expire minimum : Nat) :
    Option Wr :=
  let oldpos := outpos
  let r := write_record m outpos outend name offset TYPE_SOA cls ttl
  if r.ret ≠ 0 then some r
  else if outend - (r.outpos : Int) < 2 then some ⟨-5, oldpos, r.out⟩
  else
    let curpos := r.outpos + 2
    let w := write_name r.out curpos outend mname (-1)
    if w.ret ≠ 0 then some ⟨w.ret, oldpos, w.out⟩
    else
      match rname with
      | none => none
      | some rn =>
        let w2 := write_name w.out w.outpos outend rn (-1)
        if w2.ret ≠ 0 then some ⟨w2.ret, oldpos, w2.out⟩
        else if outend - (w2.outpos : Int) < 20 then some ⟨-5, oldpos, w2.out⟩
        else
          let m2 := put_bytes w2.out w2.outpos
            (be32 serial ++ be32 refresh ++ be32 retry ++ be32 expire ++ be32 minimum)
          some ⟨0, w2.outpos + 20,
            patch_rdlength m2 curpos (w2.outpos + 20 - curpos)⟩

/-! ## The responder -/

/-- How a call of `dnshandle` ends: it returns `n` with the response buffer as
left, or it dereferences the null `mbox`, or the model ran out of fuel (which
`parse_name_total` excludes). -/
inductive Outcome where
  | fuel_out : Outcome
  | null_deref : Outcome
  | ret (n : Int) (outbuf : Mem) : Outcome

/-- The function `set_error`. -/
def set_error (outbuf : Mem) (error : Nat) : Outcome :=
  let outbuf := poke outbuf 3 (outbuf 3 ||| (error &&& 0xF))
  let outbuf := put_bytes outbuf 4 [0, 0, 0, 0, 0, 0, 0, 0]
  Outcome.ret 12 outbuf

/-- The increment `outbuf[i]++` of an `unsigned char`. -/
def incr (m : Mem) (i : Nat) : Mem := poke m i ((m i + 1) % 256)

/-- The test `(typ == TYPE_NS || typ == QTYPE_ANY) && (cls == CLASS_IN ||
cls == QCLASS_ANY)` of lines 345 and 363. -/
def wants_ns (typ cls : Nat) : Bool :=
  (typ == TYPE_NS || typ == QTYPE_ANY) && (cls == CLASS_IN || cls == QCLASS_ANY)

/-- The test of line 370, without the `opt->mbox` conjunct. -/
def wants_soa (typ cls : Nat) : Bool :=
  (typ == TYPE_SOA || typ == QTYPE_ANY) && (cls == CLASS_IN || cls == QCLASS_ANY)

/-- The test of line 377. -/
def wants_addr (typ cls : Nat) : Bool :=
  (typ == TYPE_A || typ == TYPE_AAAA || typ == QTYPE_ANY) &&
    (cls == CLASS_IN || cls == QCLASS_ANY)

/-- Lines 343-356: the size reserved for the Authority section. `none` is the
null dereference inside the trial SOA. -/
def max_auth_size (opt : dns_opt_t) (time : Nat → Nat) (m : Mem) (outpos : Nat)
    (offset : Int) (typ cls : Nat) : Option (Int × Mem) :=
  if wants_ns typ cls then some (0, m)
  else
    let outend : Int := BUFLEN
    let r := write_record_ns m outpos outend [] offset CLASS_IN 0 opt.ns
    let max_auth : Int := (r.outpos : Int) - outpos
    match write_record_soa r.out outpos outend [] offset CLASS_IN opt.nsttl opt.ns
        opt.mbox (time 0) 604800 86400 2592000 604800 with
    | none => none
    | some s =>
      some (if max_auth < (s.outpos : Int) - outpos then (s.outpos : Int) - outpos
            else max_auth, s.out)

/-- The state of the response under construction: the buffer, the cursor
`outpos` and the flag `have_ns`. -/
structure Resp where
  out : Mem
  outpos : Nat
  have_ns : Nat

/-- Lines 362-367: the NS record of the Answer section. -/
def answer_ns (opt : dns_opt_t) (outend : Int) (offset : Int) (typ cls : Nat)
    (s : Resp) : Resp :=
  if wants_ns typ cls then
    let r := write_record_ns s.out s.outpos outend [] offset CLASS_IN opt.nsttl opt.ns
    if r.ret = 0 then ⟨incr r.out 7, r.outpos, s.have_ns + 1⟩
    else ⟨r.out, r.outpos, s.have_ns⟩
  else s

/-- Lines 369-374: the SOA record of the Answer section. -/
def answer_soa (opt : dns_opt_t) (time : Nat → Nat) (outend : Int) (offset : Int)
    (typ cls : Nat) (s : Resp) : Option Resp :=
  if wants_soa typ cls ∧ opt.mbox ≠ none then
    match write_record_soa s.out s.outpos outend [] offset CLASS_IN opt.nsttl opt.ns
        opt.mbox (time 1) 604800 86400 2592000 604800 with
    | none => none
    | some r =>
      if r.ret = 0 then some ⟨incr r.out 7, r.outpos, s.have_ns⟩
      else some ⟨r.out, r.outpos, s.have_ns⟩
  else some s

/-- The writer chosen for one address at lines 382-386. -/
def write_addr (opt : dns_opt_t) (outend : Int) (offset : Int) (m : Mem)
    (outpos : Nat) (a : addr_t) : Wr :=
  if a.v = 4 then write_record_a m outpos outend [] offset CLASS_IN opt.datattl a
  else if a.v = 6 then write_record_aaaa m outpos outend [] offset CLASS_IN opt.datattl a
  else ⟨1, outpos, m⟩

/-- The loop `while (n < naddr)` of lines 381-393 over the addresses the
callback returned. -/
def answer_addrs (opt : dns_opt_t) (outend : Int) (offset : Int) :
    List addr_t → Mem → Nat → Mem × Nat
  | [], m, outpos => (m, outpos)
  | a :: rest, m, outpos =>
    let r := write_addr opt outend offset m outpos a
    if r.ret = 0 then answer_addrs opt outend offset rest (incr r.out 7) r.outpos
    else (r.out, r.outpos)

/-- Lines 376-394: the A and AAAA records of the Answer section. -/
def answer_addr (opt : dns_opt_t) (outend : Int) (offset : Int) (typ cls : Nat)
    (name : List Nat) (s : Resp) : Resp :=
  if wants_addr typ cls then
    let addrs := opt.cb name (typ == TYPE_A || typ == QTYPE_ANY)
      (typ == TYPE_AAAA || typ == QTYPE_ANY)
    let r := answer_addrs opt outend offset addrs s.out s.outpos
    ⟨r.1, r.2, s.have_ns⟩
  else s

/-- Lines 358-394: the Answer section. -/
def answer_section (opt : dns_opt_t) (time : Nat → Nat) (outend : Int)
    (offset : Int) (typ cls : Nat) (name : List Nat) (s : Resp) : Option Resp :=
  match answer_soa opt time outend offset typ cls
      (answer_ns opt outend offset typ cls s) with
  | none => none
  | some s2 => some (answer_addr opt outend offset typ cls name s2)

/-- Lines 396-412: the Authority section. -/
def authority_section (opt : dns_opt_t) (time : Nat → Nat) (offset : Int)
    (s : Resp) : Option Resp :=
  let outend : Int := BUFLEN
  if s.have_ns = 0 ∧ s.out 7 ≠ 0 then
    let r := write_record_ns s.out s.outpos outend [] offset CLASS_IN opt.nsttl opt.ns
    if r.ret = 0 then some ⟨incr r.out 9, r.outpos, s.have_ns⟩
    else some ⟨r.out, r.outpos, s.have_ns⟩
  else if s.out 7 = 0 then
    match write_record_soa s.out s.outpos outend [] offset CLASS_IN opt.nsttl opt.ns
        opt.mbox (time 2) 604800 86400 2592000 604800 with
    | none => none
    | some r =>
      if r.ret = 0 then some ⟨incr r.out 9, r.outpos, s.have_ns⟩
      else some ⟨r.out, r.outpos, s.have_ns⟩
  else some s

/-- Lines 322-337: the question copied to the response, the counts and QR set.
`inpos` is the read cursor after the name. -/
def copy_question (inbuf : List Nat) (outbuf : Mem) (inpos : Nat) : Mem :=
  let outbuf := put_bytes outbuf 12 ((inbuf.drop 12).take (inpos + 4 - 12))
  let outbuf := put_bytes outbuf 4 [0, 1, 0, 0, 0, 0, 0, 0]
  poke outbuf 2 (outbuf 2 ||| 128)

/-- Line 332, `typ = (inpos[0] << 8) + inpos[1]`: the QTYPE after the name. -/
def qtype (inbuf : List Nat) (inpos : Nat) : Nat :=
  (inbuf.getD inpos 0 <<< 8) + inbuf.getD (inpos + 1) 0

/-- Line 333, `cls = (inpos[2] << 8) + inpos[3]`: the QCLASS after the name. -/
def qclass (inbuf : List Nat) (inpos : Nat) : Nat :=
  (inbuf.getD (inpos + 2) 0 <<< 8) + inbuf.getD (inpos + 3) 0

/-- Lines 322-417 of `dnshandle`: the response to a question that passed every
check. `name` is the parsed name and `inpos` the read cursor after it. -/
def dns_answer (opt : dns_opt_t) (time : Nat → Nat) (inbuf : List Nat)
    (outbuf : Mem) (name : List Nat) (inpos : Nat) : Outcome :=
  let offset : Int := 12
  let outbuf := copy_question inbuf outbuf inpos
  let typ := qtype inbuf inpos
  let cls := qclass inbuf inpos
  let outpos := inpos + 4
  let outend : Int := BUFLEN
  match max_auth_size opt time outbuf outpos offset typ cls with
  | none => Outcome.null_deref
  | some (max_auth, outbuf) =>
    match answer_section opt time (outend - max_auth) offset typ cls name
        ⟨outbuf, outpos, 0⟩ with
    | none => Outcome.null_deref
    | some s =>
      match authority_section opt time offset s with
      | none => Outcome.null_deref
      | some s2 => Outcome.ret s2.outpos (poke s2.out 2 (s2.out 2 ||| 4))

/-- The zone test of line 320: true when the name is refused. -/
def out_of_zone (name host : List Nat) : Bool :=
  let namel : Int := name.length
  let hostl : Int := host.length
  strcasecmp name host ≠ 0 ∧
    (namel < hostl + 2 ∨ name.getD (name.length - host.length - 1) 0 ≠ 46 ∨
      strcasecmp (name.drop (name.length - host.length)) host ≠ 0)

/-- Lines 312-321 of `dnshandle`: the name is parsed and matched against the
zone, and the four bytes of QTYPE and QCLASS must follow. -/
def dns_question (opt : dns_opt_t) (time : Nat → Nat) (inbuf : List Nat)
    (outbuf : Mem) : Outcome :=
  let insize := inbuf.length
  match parse_name inbuf 12 insize 256 with
  | none => Outcome.fuel_out
  | some p =>
    if p.ret = -1 then set_error outbuf 1
    else if p.ret = -2 then set_error outbuf 5
    else
      let name := cstr p.buf
      if out_of_zone name opt.host then set_error outbuf 5
      else if (insize : Int) - (p.inpos : Int) < 4 then set_error outbuf 1
      else dns_answer opt time inbuf outbuf name p.inpos

/-- The function `dnshandle(opt, inbuf, insize, outbuf)`; `inbuf` is the list of
the `insize` bytes received. -/
def dnshandle (opt : dns_opt_t) (time : Nat → Nat) (inbuf : List Nat)
    (outbuf : Mem) : Outcome :=
  let insize := inbuf.length
  if insize < 12 then Outcome.ret (-1) outbuf
  else
    let outbuf := put_bytes outbuf 0
      [inbuf.getD 0 0, inbuf.getD 1 0, inbuf.getD 2 0, inbuf.getD 3 0]
    let outbuf := poke outbuf 3 (outbuf 3 &&& 0xF0)
    if inbuf.getD 2 0 &&& 128 ≠ 0 then set_error outbuf 1
    else if (inbuf.getD 2 0 &&& 120) >>> 3 ≠ 0 then set_error outbuf 1
    else
      let outbuf := poke outbuf 2 (outbuf 2 &&& 0xFD)
      let outbuf := poke outbuf 3 (outbuf 3 &&& 0x7F)
      let nquestion := (inbuf.getD 4 0 <<< 8) + inbuf.getD 5 0
      if nquestion = 0 then set_error outbuf 0
      else if nquestion > 1 then set_error outbuf 4
      else dns_question opt time inbuf outbuf

/-- The length `dnshandle` returned, if it returned. -/
def Outcome.len : Outcome → Option Int
  | Outcome.ret n _ => some n
  | _ => none

/-- The response handed to the transport: the first `n` bytes of the buffer
when `dnshandle` returned `n ≥ 0`. -/
def Outcome.response : Outcome → Option (List Nat)
  | Outcome.ret n m => if 0 ≤ n then some (bytes_of m n.toNat) else none
  | _ => none

/-! ## Vocabulary of the statements -/

/-- The QR bit of the request: bit 0x80 of byte 2. -/
def qr_bit (inbuf : List Nat) : Nat := inbuf.getD 2 0 &&& 128

/-- The OPCODE of the request: bits 0x78 of byte 2. -/
def opcode (inbuf : List Nat) : Nat := (inbuf.getD 2 0 &&& 120) >>> 3

/-- QDCOUNT of the request: bytes 4 and 5, big-endian. -/
def qdcount (inbuf : List Nat) : Nat := inbuf.getD 4 0 * 256 + inbuf.getD 5 0

/-- The header as lines 292-299 leave it: ID and flags copied, RCODE cleared. -/
def header_copied (inbuf : List Nat) (outbuf : Mem) : Mem :=
  let outbuf := put_bytes outbuf 0
    [inbuf.getD 0 0, inbuf.getD 1 0, inbuf.getD 2 0, inbuf.getD 3 0]
  poke outbuf 3 (outbuf 3 &&& 0xF0)

/-- The header as lines 304-307 leave it: TC and RA cleared as well. -/
def header_cleared (inbuf : List Nat) (outbuf : Mem) : Mem :=
  let outbuf := header_copied inbuf outbuf
  let outbuf := poke outbuf 2 (outbuf 2 &&& 0xFD)
  poke outbuf 3 (outbuf 3 &&& 0x7F)

/-- A reply that is a bare header carrying RCODE `r`: `dnshandle` returned 12,
the low four bits of byte 3 are `r`, and bytes 4 to 11 (the four counts) are
zero. -/
def Outcome.rcode_reply (o : Outcome) (r : Nat) : Prop :=
  o.len = some 12 ∧
    ∃ resp, o.response = some resp ∧ resp.length = 12 ∧ resp.getD 3 0 &&& 15 = r ∧
      ∀ i, 4 ≤ i → i < 12 → resp.getD i 0 = 0

/-- Bytes `[a, b)` of a memory. -/
def body_of (m : Mem) (a b : Nat) : List Nat := (List.range (b - a)).map (fun k => m (a + k))

/-- Two memories hold the same bytes below `p`. -/
def Agree (m m2 : Mem) (p : Nat) : Prop := ∀ j, j < p → m2 j = m j

/-- The labels of a name as the loop of `write_name` stores them, each as its
length octet followed by its characters; `none` when a label is empty or longer
than 63 characters. The fuel is the one of `write_name_labels`. -/
def name_labels : Nat → List Nat → Option (List Nat)
  | 0, _ => some []
  | fuel + 1, name =>
    if name = [] then some []
    else
      let label := name.takeWhile (fun c => c != 46)
      if label.length > 63 ∨ label.length = 0 then none
      else
        match name.dropWhile (fun c => c != 46) with
        | [] => some (label.length :: label)
        | _ :: rest =>
          match name_labels fuel rest with
          | none => none
          | some t => some (label.length :: label ++ t)

/-- The uncompressed wire form of a name: its labels and the zero octet. -/
def name_wire (name : List Nat) : Option (List Nat) :=
  match name_labels name.length name with
  | none => none
  | some bs => some (bs ++ [0])

/-- The outcome of a writer called at cursor `p` on memory `m`: it leaves the
bytes below `p` alone and either, when `ok` holds, returns 0 having stored
exactly `bs` at `p` and advanced the cursor past them, or, when `ok` fails,
returns an error with the cursor back at `p`. -/
def WSpec (m : Mem) (p : Nat) (w : Wr) (ok : Prop) (bs : List Nat) : Prop :=
  Agree m w.out p ∧
    ((ok ∧ w.ret = 0 ∧ w.outpos = p + bs.length ∧ body_of w.out p (p + bs.length) = bs) ∨
     (¬ ok ∧ w.ret ≠ 0 ∧ w.outpos = p))

/-- The compression pointer to `offset`, as `write_name` stores it. -/
def name_ptr (offset : Int) : List Nat :=
  [((offset.toNat >>> 8) ||| 0xC0) % 256, offset.toNat &&& 0xFF]

/-- The first ten bytes of a record whose owner is the pointer to `offset`:
owner, TYPE, CLASS and TTL. -/
def rr_head (offset : Int) (typ cls : Nat) (ttl : Int) : List Nat :=
  name_ptr offset ++ [typ >>> 8, typ &&& 0xFF, cls >>> 8, cls &&& 0xFF] ++ int_be32 ttl

/-- The RDLENGTH field as the writers store it. -/
def rdlength (n : Nat) : List Nat := [(n >>> 8) % 256, n &&& 0xFF]

/-- An A record for `ip`. -/
def a_record (offset : Int) (cls : Nat) (ttl : Int) (ip : addr_t) : List Nat :=
  rr_head offset TYPE_A cls ttl ++ ([0, 4] ++ (List.range 4).map ip.byte)

/-- An AAAA record for `ip`. -/
def aaaa_record (offset : Int) (cls : Nat) (ttl : Int) (ip : addr_t) : List Nat :=
  rr_head offset TYPE_AAAA cls ttl ++ ([0, 16] ++ (List.range 16).map ip.byte)

/-- An NS record whose RDATA is `rd`. -/
def ns_record (offset : Int) (cls : Nat) (ttl : Int) (rd : List Nat) : List Nat :=
  rr_head offset TYPE_NS cls ttl ++ (rdlength rd.length ++ rd)

/-- The RDATA of an SOA record: MNAME, RNAME and the five 32-bit fields. -/
def soa_rdata (mn rn : List Nat) (serial refresh retry expire minimum : Nat) : List Nat :=
  mn ++ (rn ++ (be32 serial ++ be32 refresh ++ be32 retry ++ be32 expire ++ be32 minimum))

/-- An SOA record whose RDATA is `rd`. -/
def soa_record (offset : Int) (cls : Nat) (ttl : Int) (rd : List Nat) : List Nat :=
  rr_head offset TYPE_SOA cls ttl ++ (rdlength rd.length ++ rd)

/-- The RDATA an SOA writer is asked to store, when both names have a wire
form and `rname` is not null. -/
def soa_wire (mname : List Nat) (rname : Option (List Nat))
    (serial refresh retry expire minimum : Nat) : Option (List Nat) :=
  match name_wire mname, rname with
  | some mn, some r =>
    match name_wire r with
    | some rn => some (soa_rdata mn rn serial refresh retry expire minimum)
    | none => none
  | _, _ => none

/-- The response under construction, relative to the memory `q` left by
`copy_question` and the end `qend` of the question: the bytes from `qend` to the
cursor `pos` are the answer records `an` followed by the authority records
`au`, bytes 7 and 9 count them, and the rest of the memory below `qend` is as
in `q`. -/
structure Built (q : Mem) (qend : Nat) (an au : List (List Nat)) (m : Mem)
    (pos : Nat) : Prop where
  pos_eq : pos = qend + (an ++ au).flatten.length
  body : body_of m qend pos = (an ++ au).flatten
  hdr : ∀ j, j < qend → j ≠ 7 → j ≠ 9 → m j = q j
  ancount : m 7 = an.length % 256
  nscount : m 9 = au.length % 256

/-- The outcome of a writer against a plan: it leaves the bytes below `p`
alone; with a plan `some bs` it returns 0, stores `bs` at `p` and moves the
cursor past them; with no plan it fails and the cursor is back at `p`. -/
def WPlan (m : Mem) (p : Nat) (w : Wr) (plan : Option (List Nat)) : Prop :=
  Agree m w.out p ∧
    match plan with
    | some bs => w.ret = 0 ∧ w.outpos = p + bs.length ∧ body_of w.out p (p + bs.length) = bs
    | none => w.ret ≠ 0 ∧ w.outpos = p

/-- The NS record `dnshandle` stores at cursor `p` with end `e`, if it fits. -/
def ns_plan (opt : dns_opt_t) (ttl : Int) (p : Nat) (e : Int) : Option (List Nat) :=
  match name_wire opt.ns with
  | some rd => if (p : Int) + 12 + rd.length ≤ e then some (ns_record 12 CLASS_IN ttl rd) else none
  | none => none

/-- The SOA record `dnshandle` stores at cursor `p` with end `e`, if it fits. -/
def soa_plan (opt : dns_opt_t) (serial : Nat) (p : Nat) (e : Int) : Option (List Nat) :=
  match soa_wire opt.ns opt.mbox serial 604800 86400 2592000 604800 with
  | some rd =>
    if (p : Int) + 12 + rd.length ≤ e then some (soa_record 12 CLASS_IN opt.nsttl rd) else none
  | none => none

/-- The record of an address: an A record for `v = 4`, an AAAA record for
`v = 6`. -/
def addr_record (opt : dns_opt_t) (a : addr_t) : List Nat :=
  if a.v = 4 then a_record 12 CLASS_IN opt.datattl a else aaaa_record 12 CLASS_IN opt.datattl a

/-- The record stored for one address at cursor `p` with end `e`, if the writer
accepts it: both writers ask for 16 free bytes. -/
def addr_plan (opt : dns_opt_t) (p : Nat) (e : Int) (a : addr_t) : Option (List Nat) :=
  if (a.v = 4 ∨ a.v = 6) ∧ (p : Int) + 16 ≤ e then some (addr_record opt a) else none

/-- The number of leading addresses of the list that are stored, starting at
cursor `p` with end `e`. -/
def addrs_taken (opt : dns_opt_t) (e : Int) : List addr_t → Nat → Nat
  | [], _ => 0
  | a :: rest, p =>
    match addr_plan opt p e a with
    | some r => addrs_taken opt e rest (p + r.length) + 1
    | none => 0

/-- The NS record of the Answer section as a list of at most one record. -/
def answer_ns_recs (opt : dns_opt_t) (e : Int) (typ cls : Nat) (p : Nat) :
    List (List Nat) :=
  if wants_ns typ cls then (ns_plan opt opt.nsttl p e).toList else []

/-- The SOA record of the Answer section as a list of at most one record. -/
def answer_soa_recs (opt : dns_opt_t) (time : Nat → Nat) (e : Int) (typ cls : Nat)
    (p : Nat) : List (List Nat) :=
  if wants_soa typ cls ∧ opt.mbox ≠ none then (soa_plan opt (time 1) p e).toList else []

/-- The addresses the callback returns for a question. -/
def cb_addrs (opt : dns_opt_t) (typ : Nat) (name : List Nat) : List addr_t :=
  opt.cb name (typ == TYPE_A || typ == QTYPE_ANY) (typ == TYPE_AAAA || typ == QTYPE_ANY)

/-- The address records of the Answer section. -/
def answer_addr_recs (opt : dns_opt_t) (e : Int) (typ cls : Nat) (name : List Nat)
    (p : Nat) : List (List Nat) :=
  if wants_addr typ cls then
    ((cb_addrs opt typ name).take (addrs_taken opt e (cb_addrs opt typ name) p)).map
      (addr_record opt)
  else []

/-- The records of the Answer section, written from cursor `qend` with end
`e`: the NS record, the SOA record and the address records, each where asked
for and where it fits. -/
def answer_recs (opt : dns_opt_t) (time : Nat → Nat) (e : Int) (typ cls : Nat)
    (name : List Nat) (qend : Nat) : List (List Nat) :=
  let r1 := answer_ns_recs opt e typ cls qend
  let p1 := qend + r1.flatten.length
  let r2 := answer_soa_recs opt time e typ cls p1
  let p2 := p1 + r2.flatten.length
  r1 ++ r2 ++ answer_addr_recs opt e typ cls name p2

/-- The records of the Authority section, written from cursor `p`, given the
flag `have_ns` and the value `ancount` of byte 7. -/
def authority_recs (opt : dns_opt_t) (time : Nat → Nat) (have_ns ancount p : Nat) :
    List (List Nat) :=
  if have_ns = 0 ∧ ancount ≠ 0 then (ns_plan opt opt.nsttl p BUFLEN).toList
  else if ancount = 0 then (soa_plan opt (time 2) p BUFLEN).toList
  else []

/-- The length of a planned record, 0 when there is none. -/
def plan_size (pl : Option (List Nat)) : Int :=
  match pl with
  | some r => (r.length : Int)
  | none => 0

/-- The value of `max_auth_size` for a question ending at `qend`. -/
def auth_reserve (opt : dns_opt_t) (time : Nat → Nat) (typ cls qend : Nat) : Int :=
  if wants_ns typ cls then 0
  else if plan_size (ns_plan opt 0 qend BUFLEN) < plan_size (soa_plan opt (time 0) qend BUFLEN)
    then plan_size (soa_plan opt (time 0) qend BUFLEN)
  else plan_size (ns_plan opt 0 qend BUFLEN)

/-- An accepted query: the datagram passes the header checks, its QNAME parses
(to the result `p`), the name is in the zone, and QTYPE and QCLASS follow. -/
def accepted (opt : dns_opt_t) (inbuf : List Nat) (p : ParseRes) : Prop :=
  12 ≤ inbuf.length ∧ qr_bit inbuf = 0 ∧ opcode inbuf = 0 ∧ qdcount inbuf = 1 ∧
  parse_name inbuf 12 inbuf.length 256 = some p ∧ p.ret = 0 ∧
  out_of_zone (cstr p.buf) opt.host = false ∧ p.inpos + 4 ≤ inbuf.length

instance (opt : dns_opt_t) (inbuf : List Nat) (p : ParseRes) :
    Decidable (accepted opt inbuf p) := by
  unfold accepted; infer_instance

/-! ## Concrete inputs: the scenarios of the specification -/

/-- The bytes of an ASCII string. -/
def str (s : String) : List Nat := s.toList.map Char.toNat

/-- The wire form of a name given by its labels. -/
def wire_labels (labels : List String) : List Nat :=
  (labels.map (fun l => l.length :: str l)).flatten ++ [0]

/-- A query datagram: ID 0x1234, the two flag bytes, QDCOUNT, the other counts
zero, then the name, QTYPE and QCLASS. -/
def mk_query (flags2 flags3 qd : Nat) (labels : List String) (typ cls : Nat) : List Nat :=
  [0x12, 0x34, flags2, flags3, qd / 256, qd % 256, 0, 0, 0, 0, 0, 0] ++ wire_labels labels ++
    [typ / 256, typ % 256, cls / 256, cls % 256]

/-- The zone of the scenarios: host `x.example`, ns `ns.x.example`, mbox
`root.x.example`, datattl 60, nsttl 86400; the callback returns 1.2.3.4 and
5.6.7.8 when IPv4 is wanted. -/
def zone_s : dns_opt_t where
  datattl := 60
  nsttl := 86400
  host := str "x.example"
  ns := str "ns.x.example"
  mbox := some (str "root.x.example")
  cb := fun _ want4 _ => if want4 then [⟨4, [1, 2, 3, 4]⟩, ⟨4, [5, 6, 7, 8]⟩] else []

/-- The same zone with a callback that returns 32 times the IPv6 address
2001:db8::1 when IPv6 is wanted. -/
def zone_v6 : dns_opt_t where
  datattl := 60
  nsttl := 86400
  host := str "x.example"
  ns := str "ns.x.example"
  mbox := some (str "root.x.example")
  cb := fun _ _ want6 =>
    if want6 then List.replicate 32 ⟨6, [32, 1, 13, 184, 0, 0, 0, 0, 0, 0, 0, 0, 0, 0, 0, 1]⟩
    else []

/-- A clock that stands at 0. -/
def clock0 : Nat → Nat := fun _ => 0

/-- A response buffer filled with zeros. -/
def zero_mem : Mem := fun _ => 0

/-- Scenario S1: an A query for `x.example`. -/
def s1_query : List Nat := mk_query 0x01 0x00 1 ["x", "example"] 1 1

/-- What `parse_name` returns on the query of S1. -/
def s1_parse : ParseRes := ⟨0, 23, str "x.example" ++ [0]⟩

/-- Scenario S4: two questions. -/
def s4_query : List Nat := mk_query 0x01 0x00 2 ["x", "example"] 1 1

/-- An ANY query for `seed1.x.example`. -/
def any_query : List Nat := mk_query 0x01 0x00 1 ["seed1", "x", "example"] 255 1

/-- A 12-byte datagram with QR, TC and RA set. -/
def qr_datagram : List Nat := [0x12, 0x34, 0x82, 0x80, 0, 0, 0, 0, 0, 0, 0, 0]

/-- Reading back one resource record from a byte list: a two-byte owner that
is a compression pointer, eight bytes of TYPE, CLASS and TTL, the two bytes of
RDLENGTH (big-endian), and RDLENGTH bytes of RDATA. The result is what follows
the record. -/
def read_record (bs : List Nat) : Option (List Nat) :=
  if bs.length < 12 then none
  else if bs.getD 0 0 &&& 0xC0 ≠ 0xC0 then none
  else
    let rdlen := bs.getD 10 0 * 256 + bs.getD 11 0
    if bs.length < 12 + rdlen then none else some (bs.drop (12 + rdlen))

/-- Reading back `n` records in a row. -/
def read_records : Nat → List Nat → Option (List Nat)
  | 0, bs => some bs
  | n + 1, bs =>
    match read_record bs with
    | none => none
    | some rest => read_records n rest

/-- A record as the writers frame it: ten bytes that start with a compression
pointer, then RDLENGTH and as many bytes of RDATA. -/
def Framed (r : List Nat) : Prop :=
  ∃ hd rd : List Nat, r = hd ++ (rdlength rd.length ++ rd) ∧ hd.length = 10 ∧
    hd.getD 0 0 &&& 0xC0 = 0xC0 ∧ rd.length < 65536

/-- The response of the model to the query of S1: ANCOUNT = 2, NSCOUNT = 1, two
A records and the NS record. -/
def s1_response : List Nat :=
  [18, 52, 133, 0, 0, 1, 0, 2, 0, 1, 0, 0,
   1, 120, 7, 101, 120, 97, 109, 112, 108, 101, 0, 0, 1, 0, 1,
   192, 12, 0, 1, 0, 1, 0, 0, 0, 60, 0, 4, 1, 2, 3, 4,
   192, 12, 0, 1, 0, 1, 0, 0, 0, 60, 0, 4, 5, 6, 7, 8,
   192, 12, 0, 2, 0, 1, 0, 1, 81, 128, 0, 14,
   2, 110, 115, 1, 120, 7, 101, 120, 97, 109, 112, 108, 101, 0]

/-- The RCODE-returning early exit `dnshandle` takes on a datagram of at least
12 bytes, as the code of the `set_error` call it reaches; `none` when it takes
none. -/
def early_exit (opt : dns_opt_t) (inbuf : List Nat) : Option Nat :=
  if qr_bit inbuf ≠ 0 then some 1
  else if opcode inbuf ≠ 0 then some 1
  else if qdcount inbuf = 0 then some 0
  else if qdcount inbuf > 1 then some 4
  else
    match parse_name inbuf 12 inbuf.length 256 with
    | none => none
    | some p =>
      if p.ret = -1 then some 1
      else if p.ret = -2 then some 5
      else if out_of_zone (cstr p.buf) opt.host then some 5
      else if (inbuf.length : Int) - (p.inpos : Int) < 4 then some 1
      else none

/-- Two names are equal up to ASCII case. -/
def ci_eq (a b : List Nat) : Prop := a.map tolower = b.map tolower

/-- The zone test in the words of the specification: the name equals the host,
or ends with a dot followed by the host, both up to ASCII case. -/
def in_zone (name host : List Nat) : Prop :=
  ci_eq name host ∨ ∃ pre suf, name = pre ++ 46 :: suf ∧ ci_eq suf host

/-- Scenario S3: an A query for `y.example`, out of the zone. -/
def s3_query : List Nat := mk_query 0x01 0x00 1 ["y", "example"] 1 1

/-- The room a dot takes before a label or a pointer: none at the start of a
name (`init`), one byte otherwise. -/
def dot_len (init : Bool) : Nat := if init then 0 else 1

/-- The compression pointer target read at `inpos`:
`((octet - 0xC0) << 8) + next byte`. -/
def ptr_target (inbuf : List Nat) (inpos : Nat) : Nat :=
  ((inbuf.getD inpos 0 - 0xC0) <<< 8) + inbuf.getD (inpos + 1) 0

/-- Reading the QNAME from offset 12 has got to the top of the loop of
`parse_name` with the read cursor at `inpos`, the (possibly synthetic) input end
at `inend`, `room` free bytes left of the 256-byte name buffer
(`bufsize - bufused`) and the flag `init`: either at the start, or after a well
formed label that fitted, or after following a backward compression pointer. -/
inductive Reaches (inbuf : List Nat) : Nat → Nat → Nat → Bool → Prop
  | start : Reaches inbuf 12 inbuf.length 256 true
  | label {inpos inend room : Nat} {init : Bool} :
      Reaches inbuf inpos inend room init →
      inbuf.getD inpos 0 ≠ 0 → inbuf.getD inpos 0 &&& 0xC0 ≠ 0xC0 →
      inbuf.getD inpos 0 ≤ 63 →
      inpos + 1 + inbuf.getD inpos 0 ≤ inend →
      (∀ i, i < inbuf.getD inpos 0 → inbuf.getD (inpos + 1 + i) 0 ≠ 46) →
      dot_len init + inbuf.getD inpos 0 < room →
      Reaches inbuf (inpos + 1 + inbuf.getD inpos 0) inend
        (room - dot_len init - inbuf.getD inpos 0) false
  | pointer {inpos inend room : Nat} {init : Bool} :
      Reaches inbuf inpos inend room init →
      inpos + 2 ≤ inend → inbuf.getD inpos 0 &&& 0xC0 = 0xC0 →
      dot_len init < room →
      ptr_target inbuf inpos < inpos →
      Reaches inbuf (ptr_target inbuf inpos) inpos (room - dot_len init) true

/-- The malformations of a name, met at the top of the loop of `parse_name`
while the name buffer still has room for what the code stores before it tests
them: the input ends where a length octet is due; a length octet above 63 that
is not a pointer; a pointer cut short by the end of the input; a pointer whose
target is not below its own first byte; a label cut short by the end of the
input; a label with a dot inside. -/
def Malformed (inbuf : List Nat) (inpos inend room : Nat) (init : Bool) : Prop :=
  inpos = inend ∨
  (inpos < inend ∧ dot_len init < room ∧
    ((inbuf.getD inpos 0 &&& 0xC0 ≠ 0xC0 ∧ inbuf.getD inpos 0 > 63) ∨
     (inbuf.getD inpos 0 &&& 0xC0 = 0xC0 ∧ inpos + 1 = inend) ∨
     (inbuf.getD inpos 0 &&& 0xC0 = 0xC0 ∧ inpos + 2 ≤ inend ∧
       ptr_target inbuf inpos ≥ inpos) ∨
     (inbuf.getD inpos 0 ≠ 0 ∧ inbuf.getD inpos 0 &&& 0xC0 ≠ 0xC0 ∧
       inbuf.getD inpos 0 ≤ 63 ∧
       ∃ k, k < inbuf.getD inpos 0 ∧ inpos + 1 + k ≤ inend ∧
         (∀ i, i < k → inbuf.getD (inpos + 1 + i) 0 ≠ 46) ∧
         dot_len init + k < room ∧
         (inpos + 1 + k = inend ∨
          (dot_len init + k + 1 < room ∧ inbuf.getD (inpos + 1 + k) 0 = 46)))))

/-- The name buffer is exhausted at the top of the loop of `parse_name`: a
non-zero length octet follows (whatever it is) and the dot before it does not
fit, or a label follows of which a character (whatever it is) does not fit. -/
def Exhausted (inbuf : List Nat) (inpos inend room : Nat) (init : Bool) : Prop :=
  inpos < inend ∧ inbuf.getD inpos 0 ≠ 0 ∧
  (dot_len init = room ∨
   (dot_len init < room ∧ inbuf.getD inpos 0 &&& 0xC0 ≠ 0xC0 ∧ inbuf.getD inpos 0 ≤ 63 ∧
     ∃ k, k < inbuf.getD inpos 0 ∧ inpos + 1 + k < inend ∧
       (∀ i, i < k → inbuf.getD (inpos + 1 + i) 0 ≠ 46) ∧
       dot_len init + k + 1 = room))

/-- Scenario S6: the first length octet is 64. -/
def s6_query : List Nat :=
  [0x12, 0x34, 0x01, 0x00, 0, 1, 0, 0, 0, 0, 0, 0] ++ [64] ++ List.replicate 64 97 ++
    [0, 0, 1, 0, 1]

/-- A query whose name is four labels of 63 times `a`, which fill the 255
characters of the name buffer, followed by the length octet 64. -/
def full_name_query : List Nat :=
  [0x12, 0x34, 0x01, 0x00, 0, 1, 0, 0, 0, 0, 0, 0] ++
    (List.replicate 4 (63 :: List.replicate 63 97)).flatten ++ [64, 0, 1, 0, 1]

/-- An AAAA query for `seed1.x.example`. -/
def aaaa_query : List Nat := mk_query 0x01 0x00 1 ["seed1", "x", "example"] 28 1

/-- The zone of the scenarios without a mailbox: `mbox` is the null pointer. -/
def zone_nombox : dns_opt_t where
  datattl := 60
  nsttl := 86400
  host := str "x.example"
  ns := str "ns.x.example"
  mbox := none
  cb := fun _ want4 _ => if want4 then [⟨4, [1, 2, 3, 4]⟩, ⟨4, [5, 6, 7, 8]⟩] else []

/-- The call of `dnshandle` ended in the dereference of the null `mbox`. -/
def Outcome.null_mbox : Outcome → Bool
  | Outcome.null_deref => true
  | _ => false

/-- An A query whose QNAME is the labels `x` and `example` followed by a
compression pointer to offset 6, a zero octet of the header, in place of the
root label. -/
def root_ptr_query : List Nat :=
  [0x12, 0x34, 0x01, 0x00, 0, 1, 0, 0, 0, 0, 0, 0] ++
    [1, 120, 7, 101, 120, 97, 109, 112, 108, 101, 0xC0, 6] ++ [0, 1, 0, 1]

/-- The label copy loop of `parse_name` with a log of the input indices it
reads: `rd` is the log so far, and every `*((*inpos)++)` appends the index
read. -/
def copy_label_log (inbuf : List Nat) (inend bufsize : Nat) :
    Nat → Nat → List Nat → List Nat → ParseRes × List Nat
  | 0, inpos, buf, rd => (⟨0, inpos, buf⟩, rd)
  | octet + 1, inpos, buf, rd =>
    if inpos = inend then (⟨-1, inpos, buf⟩, rd)
    else if buf.length + 1 = bufsize then (⟨-2, inpos, buf⟩, rd)
    else
      let c := inbuf.getD inpos 0
      if c = 46 then (⟨-1, inpos + 1, buf⟩, rd ++ [inpos])
      else copy_label_log inbuf inend bufsize octet (inpos + 1) (buf ++ [c]) (rd ++ [inpos])

/-- The body of `parse_name` with a log of the input indices it reads, in the
order of the reads; the bytes it stores are the list `buf` of the result, in
order from index 0 of the output buffer. -/
def parse_name_log (inbuf : List Nat) :
    Nat → Nat → Nat → Nat → List Nat → Bool → List Nat → Option (ParseRes × List Nat)
  | 0, _, _, _, _, _, _ => none
  | fuel + 1, inpos, inend, bufsize, buf, init, rd =>
    if inpos = inend then some (⟨-1, inpos, buf⟩, rd)
    else
      let octet := inbuf.getD inpos 0
      let rd := rd ++ [inpos]
      let inpos := inpos + 1
      if octet = 0 then some (⟨0, inpos, buf ++ [0]⟩, rd)
      else if init = false ∧ buf.length + 1 = bufsize then some (⟨-2, inpos, buf⟩, rd)
      else
        let buf := if init = false then buf ++ [46] else buf
        if octet &&& 0xC0 = 0xC0 then
          if inpos = inend then some (⟨-1, inpos, buf⟩, rd)
          else
            let ref := ((octet - 0xC0) <<< 8) + inbuf.getD inpos 0
            let rd := rd ++ [inpos]
            let inpos := inpos + 1
            if ref ≥ inpos - 2 then some (⟨-1, inpos, buf⟩, rd)
            else
              match parse_name_log inbuf fuel ref (inpos - 2)
                  (bufsize - buf.length) [] true rd with
              | none => none
              | some (r, rd2) => some (⟨r.ret, inpos, buf ++ r.buf⟩, rd2)
        else if octet > 63 then some (⟨-1, inpos, buf⟩, rd)
        else
          let r := copy_label_log inbuf inend bufsize octet inpos buf rd
          if r.1.ret ≠ 0 then some r
          else parse_name_log inbuf fuel r.1.inpos inend bufsize r.1.buf false r.2

/-- The labels of a name as the loop of `write_name` reads them, left to
right: the pieces between the dots; a dot at the very end of the name closes
the last label and opens no other. The fuel is the one of
`write_name_labels`. -/
def labels_of : Nat → List Nat → List (List Nat)
  | 0, _ => []
  | fuel + 1, name =>
    if name = [] then []
    else
      match name.dropWhile (fun c => c != 46) with
      | [] => [name.takeWhile (fun c => c != 46)]
      | _ :: rest => name.takeWhile (fun c => c != 46) :: labels_of fuel rest

/-- The wire bytes of a list of labels: each label's length octet followed by
its characters. -/
def label_bytes (ls : List (List Nat)) : List Nat :=
  (ls.map (fun l => l.length :: l)).flatten

/-- The result class of `write_name` for the labels `ls`, read left to right,
and a window of `room` free bytes: -1 at the first label longer than 63
characters, -3 at the first empty label, -2 at the first label for which the
window has fewer than its length + 1 + `extra` bytes left, and after the last
label -2 when the terminator (1 byte, `offset < 0`) or the pointer (2 bytes)
does not fit, 0 otherwise. With `extra = 0` a label needs the bytes it takes,
which is the wording of the specification; with `extra = 1` it needs one byte
more, which is the test of line 130. -/
def name_class (extra : Int) (offset : Int) : List (List Nat) → Int → Int
  | [], room =>
    if offset < 0 then (if room < 1 then -2 else 0) else (if room < 2 then -2 else 0)
  | l :: rest, room =>
    if l.length > 63 then -1
    else if l.length = 0 then -3
    else if room < (l.length : Int) + 1 + extra then -2
    else name_class extra offset rest (room - ((l.length : Int) + 1))

/-- The encoding of a name as `write_name` stores it: the labels, then the zero
octet for `offset < 0` or the pointer to `offset`. -/
def owner_bytes (name : List Nat) (offset : Int) : List Nat :=
  label_bytes (labels_of name.length name) ++ (if offset < 0 then [0] else name_ptr offset)

/-- The eight bytes of TYPE, CLASS and TTL as lines 161-165 store them. -/
def rr_fixed (typ cls : Nat) (ttl : Int) : List Nat :=
  [typ >>> 8, typ &&& 0xFF, cls >>> 8, cls &&& 0xFF] ++ int_be32 ttl

/-- A 16-bit integer in two bytes, big-endian. -/
def be16 (n : Nat) : List Nat := [n / 256 % 256, n % 256]

/-- A 32-bit integer in four bytes, big-endian. -/
def be32_of (n : Nat) : List Nat :=
  [n / 16777216 % 256, n / 65536 % 256, n / 256 % 256, n % 256]

/-- The framing of a resource record in the words of the specification: owner
name, TYPE, CLASS, TTL (the 32 bits of the `int`), RDLENGTH and RDATA, the
integers big-endian and RDLENGTH the number of bytes of RDATA. -/
def rr_frame (owner : List Nat) (typ cls : Nat) (ttl : Int) (rdata : List Nat) : List Nat :=
  owner ++ (be16 typ ++ be16 cls ++ be32_of (ttl % 4294967296).toNat ++
    be16 rdata.length ++ rdata)


/-- Labels joined by single dots, the text form of a name. -/
def join_labels : List (List Nat) → List Nat
  | [] => []
  | [l] => l
  | l :: rest => l ++ 46 :: join_labels rest

/-- A name of 257 characters with labels of at most 63: four labels of 63
times `a`, each followed by a dot, and the label `a`. -/
def long_name : List Nat := (List.replicate 4 (List.replicate 63 97 ++ [46])).flatten ++ [97]

/-- Walking the wire form of a name in a message from `pos`, label by label:
the position of the compression pointer that ends the name, if it ends in one;
`none` if a zero octet ends it (or the fuel runs out). -/
def name_ptr_at (msg : List Nat) : Nat → Nat → Option Nat
  | 0, _ => none
  | fuel + 1, pos =>
    if msg.getD pos 0 = 0 then none
    else if msg.getD pos 0 &&& 0xC0 = 0xC0 then some pos
    else name_ptr_at msg fuel (pos + 1 + msg.getD pos 0)

/-- An uncompressed name: the bytes are labels, each a length octet from 1 to
63 followed by that many bytes, and then a zero octet, with nothing after it.
No length octet is a compression pointer. -/
def plain_name : Nat → List Nat → Bool
  | 0, _ => false
  | _ + 1, [] => false
  | fuel + 1, n :: rest =>
    if n = 0 then rest.isEmpty
    else if n > 63 then false
    else if rest.length < n then false
    else plain_name fuel (rest.drop n)

/-- A record whose names are safe: its owner is the two bytes 0xC0 0x0C, the
pointer to offset 12, and it is an A or AAAA record, or an NS record whose
RDATA is one uncompressed name, or an SOA record whose RDATA is two
uncompressed names followed by the five 32-bit fields. -/
def SafeRec (r : List Nat) : Prop :=
  r.take 2 = [0xC0, 0x0C] ∧
  ((∃ cls ttl ip, r = a_record 12 cls ttl ip ∨ r = aaaa_record 12 cls ttl ip) ∨
   (∃ cls ttl rd, r = ns_record 12 cls ttl rd ∧ plain_name rd.length rd = true) ∨
   (∃ cls ttl mn rn s1 s2 s3 s4 s5,
      r = soa_record 12 cls ttl (soa_rdata mn rn s1 s2 s3 s4 s5) ∧
      plain_name mn.length mn = true ∧ plain_name rn.length rn = true))

/-- A zone under a short top-level label: host `x.io`, ns `ns.x.io`, mbox
`root.x.io`; the callback returns 1.2.3.4 when IPv4 is wanted. -/
def zone_io : dns_opt_t where
  datattl := 60
  nsttl := 86400
  host := str "x.io"
  ns := str "ns.x.io"
  mbox := some (str "root.x.io")
  cb := fun _ want4 _ => if want4 then [⟨4, [1, 2, 3, 4]⟩] else []

/-- An A query with a compressed QNAME: the label `x` and a pointer to offset
6, where the bytes of the header that hold the unchecked counts spell the label
`io` and a zero octet. -/
def ptr_query : List Nat :=
  [0x12, 0x34, 0x01, 0x00, 0, 1, 2, 105, 111, 0, 0, 0] ++ [1, 120, 0xC0, 6] ++ [0, 1, 0, 1]

/-- The response of the model to `ptr_query` in the zone `x.io`. -/
def ptr_response : List Nat :=
  [18, 52, 133, 0, 0, 1, 0, 1, 0, 1, 0, 0, 1, 120, 192, 6, 0, 1, 0, 1,
   192, 12, 0, 1, 0, 1, 0, 0, 0, 60, 0, 4, 1, 2, 3, 4,
   192, 12, 0, 2, 0, 1, 0, 1, 81, 128, 0, 9, 2, 110, 115, 1, 120, 2, 105, 111, 0]

/-- The wire form of `long_name`: four labels of 63 times `a`, the label `a`
and the zero octet, 259 bytes. -/
def long_wire : List Nat :=
  (List.replicate 4 (63 :: List.replicate 63 97)).flatten ++ [1, 97, 0]

/-- The compression pointers a decoder meets when it reads a name of a message
from `pos`: it walks the labels, and at a pointer it goes on at the target when
the target is below the pointer and not below `lo`, and stops otherwise; a zero
octet or a length octet above 63 ends the reading. The result is the positions
of the pointers met, in order. With `lo = 0` every backward pointer is
followed; with `lo = 12` the reading stops at the first pointer that leads into
the header. -/
def ptr_chain (msg : List Nat) (lo : Nat) : Nat → Nat → List Nat
  | 0, _ => []
  | fuel + 1, pos =>
    if msg.getD pos 0 = 0 then []
    else if msg.getD pos 0 &&& 0xC0 = 0xC0 then
      if lo ≤ ptr_target msg pos ∧ ptr_target msg pos < pos then
        pos :: ptr_chain msg lo fuel (ptr_target msg pos)
      else [pos]
    else if msg.getD pos 0 > 63 then []
    else ptr_chain msg lo fuel (pos + 1 + msg.getD pos 0)

/-- The zone `x.io` with a callback that returns five IPv4 addresses. -/
def zone_io5 : dns_opt_t where
  datattl := 60
  nsttl := 86400
  host := str "x.io"
  ns := str "ns.x.io"
  mbox := some (str "root.x.io")
  cb := fun _ want4 _ =>
    if want4 then [⟨4, [1, 2, 3, 1]⟩, ⟨4, [1, 2, 3, 2]⟩, ⟨4, [1, 2, 3, 3]⟩, ⟨4, [1, 2, 3, 4]⟩,
      ⟨4, [1, 2, 3, 5]⟩] else []

/-- An A query whose QNAME is the label of the two bytes 0xC0 0xFF, the label
`x` and a pointer to offset 7, where the bytes of the header that hold the
unchecked counts spell the label `io` and a zero octet. -/
def fwd_query : List Nat :=
  [0x12, 0x34, 0x01, 0x00, 0, 1, 0, 2, 105, 111, 0, 0] ++
    [2, 0xC0, 0xFF, 1, 120, 0xC0, 7] ++ [0, 1, 0, 1]

/-! ## Theorems -/

/-! ### Memory -/

theorem poke_apply (m : Mem) (i v j : Nat) :
    poke m i v j = if j = i then v else m j := rfl

theorem put_bytes_below (bs : List Nat) (m : Mem) (dst j : Nat) (h : j < dst) :
    put_bytes m dst bs j = m j := by
  induction bs generalizing m dst with
  | nil => rfl
  | cons b bs ih =>
    rw [put_bytes, ih _ _ (by omega), poke_apply, if_neg (by omega)]

theorem put_bytes_above (bs : List Nat) (m : Mem) (dst j : Nat)
    (h : dst + bs.length ≤ j) : put_bytes m dst bs j = m j := by
  induction bs generalizing m dst with
  | nil => rfl
  | cons b bs ih =>
    simp only [List.length_cons] at h
    rw [put_bytes, ih _ _ (by omega), poke_apply, if_neg (by omega)]

theorem put_bytes_at (bs : List Nat) (m : Mem) (dst k : Nat) (h : k < bs.length) :
    put_bytes m dst bs (dst + k) = bs.getD k 0 := by
  induction bs generalizing m dst k with
  | nil => simp at h
  | cons b bs ih =>
    cases k with
    | zero =>
      rw [put_bytes, put_bytes_below _ _ _ _ (by omega), poke_apply]
      simp
    | succ k =>
      simp only [List.length_cons] at h
      have := ih (poke m dst b) (dst + 1) k (by omega)
      rw [put_bytes, show dst + (k + 1) = dst + 1 + k by omega, this]
      simp

theorem bytes_of_length (m : Mem) (n : Nat) : (bytes_of m n).length = n := by
  simp [bytes_of]

theorem bytes_of_getD (m : Mem) (n i : Nat) (h : i < n) :
    (bytes_of m n).getD i 0 = m i := by
  simp [bytes_of, List.getD_eq_getElem?_getD, List.getElem?_map, List.getElem?_range h]

/-! ### Bits -/

theorem and_and_lit (x a b c : Nat) (h : a &&& b = c) : (x &&& a) &&& b = x &&& c := by
  rw [Nat.and_assoc, h]

theorem or_and_lit (x y b : Nat) : (x ||| y) &&& b = (x &&& b) ||| (y &&& b) := by
  rw [Nat.and_comm, Nat.and_or_distrib_left, Nat.and_comm b x, Nat.and_comm b y]

theorem or_and_self (x m : Nat) : (x ||| m) &&& m = m := by
  apply Nat.eq_of_testBit_eq
  intro i
  rw [Nat.testBit_and, Nat.testBit_or]
  cases x.testBit i <;> cases m.testBit i <;> rfl

theorem and_15_of_lt {r : Nat} (h : r < 16) : r &&& 15 = r :=
  Nat.and_pow_two_sub_one_of_lt_two_pow (n := 4) h

theorem shl8 (x : Nat) : x <<< 8 = x * 256 := by
  rw [Nat.shiftLeft_eq]

/-! ### The error exit -/

theorem set_error_reply (m : Mem) (r : Nat) (hr : r < 16) (h3 : m 3 &&& 15 = 0) :
    (set_error m r).rcode_reply r := by
  refine ⟨rfl, bytes_of (put_bytes (poke m 3 (m 3 ||| (r &&& 0xF))) 4
    [0, 0, 0, 0, 0, 0, 0, 0]) 12, rfl, bytes_of_length _ _, ?_, ?_⟩
  · rw [bytes_of_getD _ _ _ (by omega), put_bytes_below _ _ _ _ (by omega), poke_apply,
      if_pos rfl, or_and_lit, h3, Nat.and_assoc]
    simpa using and_15_of_lt hr
  · intro i h4 h12
    rw [bytes_of_getD _ _ _ h12]
    have := put_bytes_at [0, 0, 0, 0, 0, 0, 0, 0] (poke m 3 (m 3 ||| (r &&& 0xF))) 4 (i - 4)
      (by simp; omega)
    rw [show 4 + (i - 4) = i by omega] at this
    rw [this]
    have h8 : i - 4 < 8 := by omega
    interval_cases (i - 4) <;> rfl

/-! ### The header checks of `dnshandle` -/

theorem dnshandle_short (opt : dns_opt_t) (time : Nat → Nat) (inbuf : List Nat)
    (out0 : Mem) (h : inbuf.length < 12) :
    dnshandle opt time inbuf out0 = Outcome.ret (-1) out0 := by
  simp [dnshandle, h]

theorem dnshandle_qr (opt : dns_opt_t) (time : Nat → Nat) (inbuf : List Nat)
    (out0 : Mem) (h : 12 ≤ inbuf.length) (hqr : qr_bit inbuf ≠ 0) :
    dnshandle opt time inbuf out0 = set_error (header_copied inbuf out0) 1 := by
  have h1 : ¬ inbuf.length < 12 := by omega
  unfold qr_bit at hqr
  simp only [dnshandle, h1, if_false, hqr, ne_eq, not_false_eq_true, if_true]
  rfl

theorem dnshandle_opcode (opt : dns_opt_t) (time : Nat → Nat) (inbuf : List Nat)
    (out0 : Mem) (h : 12 ≤ inbuf.length) (hqr : qr_bit inbuf = 0)
    (hop : opcode inbuf ≠ 0) :
    dnshandle opt time inbuf out0 = set_error (header_copied inbuf out0) 1 := by
  have h1 : ¬ inbuf.length < 12 := by omega
  unfold qr_bit at hqr
  unfold opcode at hop
  simp only [dnshandle, h1, if_false, hqr, ne_eq, not_true_eq_false, hop,
    not_false_eq_true, if_true]
  rfl

theorem dnshandle_checked (opt : dns_opt_t) (time : Nat → Nat) (inbuf : List Nat)
    (out0 : Mem) (h : 12 ≤ inbuf.length) (hqr : qr_bit inbuf = 0)
    (hop : opcode inbuf = 0) :
    dnshandle opt time inbuf out0 =
      if qdcount inbuf = 0 then set_error (header_cleared inbuf out0) 0
      else if qdcount inbuf > 1 then set_error (header_cleared inbuf out0) 4
      else dns_question opt time inbuf (header_cleared inbuf out0) := by
  have h1 : ¬ inbuf.length < 12 := by omega
  unfold qr_bit at hqr
  unfold opcode at hop
  simp only [dnshandle, h1, if_false, hqr, ne_eq, not_true_eq_false, hop, shl8]
  rfl

theorem header_copied_val (inbuf : List Nat) (out0 : Mem) :
    header_copied inbuf out0 0 = inbuf.getD 0 0 ∧
    header_copied inbuf out0 1 = inbuf.getD 1 0 ∧
    header_copied inbuf out0 2 = inbuf.getD 2 0 ∧
    header_copied inbuf out0 3 = inbuf.getD 3 0 &&& 0xF0 := by
  simp [header_copied, poke_apply, put_bytes]

theorem header_cleared_val (inbuf : List Nat) (out0 : Mem) :
    header_cleared inbuf out0 0 = inbuf.getD 0 0 ∧
    header_cleared inbuf out0 1 = inbuf.getD 1 0 ∧
    header_cleared inbuf out0 2 = inbuf.getD 2 0 &&& 0xFD ∧
    header_cleared inbuf out0 3 = (inbuf.getD 3 0 &&& 0xF0) &&& 0x7F := by
  simp [header_cleared, header_copied, poke_apply, put_bytes]

theorem header_copied_3 (inbuf : List Nat) (out0 : Mem) :
    header_copied inbuf out0 3 &&& 15 = 0 := by
  rw [(header_copied_val inbuf out0).2.2.2, and_and_lit _ 0xF0 15 0 rfl, Nat.and_zero]

theorem header_cleared_3 (inbuf : List Nat) (out0 : Mem) :
    header_cleared inbuf out0 3 &&& 15 = 0 := by
  rw [(header_cleared_val inbuf out0).2.2.2, and_and_lit _ 0x7F 15 15 rfl,
    and_and_lit _ 0xF0 15 0 rfl, Nat.and_zero]

theorem getD_of_take_eq {a b : List Nat} {n : Nat} (h : a.take n = b.take n)
    (i : Nat) (hi : i < n) : a.getD i 0 = b.getD i 0 := by
  have h1 : (a.take n).getD i 0 = a.getD i 0 := by
    simp [List.getD_eq_getElem?_getD, List.getElem?_take, hi]
  have h2 : (b.take n).getD i 0 = b.getD i 0 := by
    simp [List.getD_eq_getElem?_getD, List.getElem?_take, hi]
  rw [← h1, ← h2, h]

theorem header_fields_of_take_eq {a b : List Nat} (h : a.take 12 = b.take 12) :
    qr_bit a = qr_bit b ∧ opcode a = opcode b ∧ qdcount a = qdcount b ∧
    (∀ out0, header_copied a out0 = header_copied b out0) ∧
    (∀ out0, header_cleared a out0 = header_cleared b out0) := by
  have g := getD_of_take_eq h
  have g0 := g 0 (by omega)
  have g1 := g 1 (by omega)
  have g2 := g 2 (by omega)
  have g3 := g 3 (by omega)
  have g4 := g 4 (by omega)
  have g5 := g 5 (by omega)
  refine ⟨?_, ?_, ?_, ?_, ?_⟩
  · simp only [qr_bit, g2]
  · simp only [opcode, g2]
  · simp only [qdcount, g4, g5]
  · intro out0; simp only [header_copied, g0, g1, g2, g3]
  · intro out0; simp only [header_cleared, header_copied, g0, g1, g2, g3]

theorem length_of_take_eq {a b : List Nat} (h : a.take 12 = b.take 12)
    (hb : 12 ≤ b.length) : 12 ≤ a.length := by
  have := congrArg List.length h
  simp only [List.length_take] at this
  omega

/-- C2. Header validation is a decision table applied in order: a datagram
shorter than 12 bytes gives no response (`dnshandle` returns -1 and leaves the
buffer alone); otherwise a set QR bit gives RCODE 1; otherwise a non-zero
OPCODE gives RCODE 1; otherwise QDCOUNT = 0 gives RCODE 0 and QDCOUNT > 1 gives
RCODE 4, each as a 12-byte header with all counts zero. A datagram that fails
one of QR = 0, OPCODE = 0, QDCOUNT = 1 never reaches name parsing: the outcome
depends on nothing but its first 12 bytes. A datagram that passes all three is
handed to the name parser. -/
theorem dnshandle_header_table (opt : dns_opt_t) (time : Nat → Nat)
    (inbuf : List Nat) (out0 : Mem) :
    (inbuf.length < 12 →
      dnshandle opt time inbuf out0 = Outcome.ret (-1) out0 ∧
      (dnshandle opt time inbuf out0).response = none) ∧
    (12 ≤ inbuf.length →
      (qr_bit inbuf ≠ 0 → (dnshandle opt time inbuf out0).rcode_reply 1) ∧
      (qr_bit inbuf = 0 → opcode inbuf ≠ 0 →
        (dnshandle opt time inbuf out0).rcode_reply 1) ∧
      (qr_bit inbuf = 0 → opcode inbuf = 0 → qdcount inbuf = 0 →
        (dnshandle opt time inbuf out0).rcode_reply 0) ∧
      (qr_bit inbuf = 0 → opcode inbuf = 0 → qdcount inbuf > 1 →
        (dnshandle opt time inbuf out0).rcode_reply 4) ∧
      (¬ (qr_bit inbuf = 0 ∧ opcode inbuf = 0 ∧ qdcount inbuf = 1) →
        ∀ (opt2 : dns_opt_t) (time2 : Nat → Nat) (inbuf2 : List Nat),
          inbuf2.take 12 = inbuf.take 12 →
          dnshandle opt2 time2 inbuf2 out0 = dnshandle opt time inbuf out0) ∧
      (qr_bit inbuf = 0 → opcode inbuf = 0 → qdcount inbuf = 1 →
        dnshandle opt time inbuf out0 =
          dns_question opt time inbuf (header_cleared inbuf out0))) := by
  refine ⟨fun h => ?_, fun h => ⟨?_, ?_, ?_, ?_, ?_, ?_⟩⟩
  · rw [dnshandle_short opt time inbuf out0 h]
    exact ⟨rfl, rfl⟩
  · intro hqr
    rw [dnshandle_qr opt time inbuf out0 h hqr]
    exact set_error_reply _ 1 (by omega) (header_copied_3 inbuf out0)
  · intro hqr hop
    rw [dnshandle_opcode opt time inbuf out0 h hqr hop]
    exact set_error_reply _ 1 (by omega) (header_copied_3 inbuf out0)
  · intro hqr hop hqd
    rw [dnshandle_checked opt time inbuf out0 h hqr hop, if_pos hqd]
    exact set_error_reply _ 0 (by omega) (header_cleared_3 inbuf out0)
  · intro hqr hop hqd
    rw [dnshandle_checked opt time inbuf out0 h hqr hop, if_neg (by omega), if_pos hqd]
    exact set_error_reply _ 4 (by omega) (header_cleared_3 inbuf out0)
  · intro hnot opt2 time2 inbuf2 htake
    have hlen := length_of_take_eq htake h
    obtain ⟨e1, e2, e3, e4, e5⟩ := header_fields_of_take_eq htake
    by_cases hqr : qr_bit inbuf = 0
    · by_cases hop : opcode inbuf = 0
      · have hqd : qdcount inbuf ≠ 1 := fun hq => hnot ⟨hqr, hop, hq⟩
        rw [dnshandle_checked opt time inbuf out0 h hqr hop,
          dnshandle_checked opt2 time2 inbuf2 out0 hlen (e1.trans hqr) (e2.trans hop),
          e3, e5]
        by_cases hz : qdcount inbuf = 0
        · rw [if_pos hz, if_pos hz]
        · rw [if_neg hz, if_neg hz, if_pos (by omega), if_pos (by omega)]
      · rw [dnshandle_opcode opt time inbuf out0 h hqr hop,
          dnshandle_opcode opt2 time2 inbuf2 out0 hlen (e1.trans hqr) (by rw [e2]; exact hop),
          e4]
    · rw [dnshandle_qr opt time inbuf out0 h hqr,
        dnshandle_qr opt2 time2 inbuf2 out0 hlen (by rw [e1]; exact hqr), e4]
  · intro hqr hop hqd
    rw [dnshandle_checked opt time inbuf out0 h hqr hop, if_neg (by omega),
      if_neg (by omega)]

/-! ### Byte ranges of a memory -/

theorem body_of_length (m : Mem) (a b : Nat) : (body_of m a b).length = b - a := by
  simp [body_of]

theorem body_of_getD (m : Mem) (a b k : Nat) (h : k < b - a) :
    (body_of m a b).getD k 0 = m (a + k) := by
  simp [body_of, List.getD_eq_getElem?_getD, List.getElem?_map, List.getElem?_range h]

theorem body_of_eq_iff (m : Mem) (a : Nat) (bs : List Nat) :
    body_of m a (a + bs.length) = bs ↔ ∀ k, k < bs.length → m (a + k) = bs.getD k 0 := by
  constructor
  · intro h k hk
    rw [← h, body_of_getD _ _ _ _ (by omega)]
  · intro h
    apply List.ext_getElem
    · simp [body_of_length]
    · intro k h1 h2
      have := h k h2
      simp only [body_of, List.getElem_map, List.getElem_range]
      rw [this, List.getD_eq_getElem _ _ h2]

theorem body_of_congr (m m2 : Mem) (a b : Nat)
    (h : ∀ j, a ≤ j → j < b → m2 j = m j) : body_of m2 a b = body_of m a b := by
  apply List.ext_getElem
  · simp [body_of_length]
  · intro k h1 h2
    simp only [body_of_length] at h1
    simp only [body_of, List.getElem_map, List.getElem_range]
    exact h _ (by omega) (by omega)

theorem body_of_append (m : Mem) (a b c : Nat) (hab : a ≤ b) (hbc : b ≤ c) :
    body_of m a c = body_of m a b ++ body_of m b c := by
  apply List.ext_getElem
  · simp [body_of_length]; omega
  · intro k h1 h2
    simp only [body_of_length] at h1
    by_cases hk : k < b - a
    · rw [List.getElem_append_left (by simp [body_of_length]; exact hk)]
      simp [body_of]
    · rw [List.getElem_append_right (by simp [body_of_length]; omega)]
      simp only [body_of, List.getElem_map, List.getElem_range, List.length_map,
        List.length_range]
      congr 1
      omega

theorem body_of_put_bytes (m : Mem) (p : Nat) (bs : List Nat) :
    body_of (put_bytes m p bs) p (p + bs.length) = bs :=
  (body_of_eq_iff _ _ _).2 (fun k hk => put_bytes_at bs m p k hk)

theorem bytes_of_eq_body (m : Mem) (n : Nat) : bytes_of m n = body_of m 0 n := by
  simp [bytes_of, body_of]

theorem Agree.refl (m : Mem) (p : Nat) : Agree m m p := fun _ _ => rfl

theorem Agree.trans {m1 m2 m3 : Mem} {p q : Nat} (h1 : Agree m1 m2 p)
    (h2 : Agree m2 m3 q) (hpq : p ≤ q) : Agree m1 m3 p :=
  fun j hj => (h2 j (by omega)).trans (h1 j hj)

theorem Agree.mono {m1 m2 : Mem} {p q : Nat} (h : Agree m1 m2 q) (hpq : p ≤ q) :
    Agree m1 m2 p := fun j hj => h j (by omega)

theorem agree_poke (m : Mem) (p i v : Nat) (h : p ≤ i) : Agree m (poke m i v) p := by
  intro j hj
  rw [poke_apply, if_neg (by omega)]

theorem agree_put_bytes (m : Mem) (p q : Nat) (bs : List Nat) (h : p ≤ q) :
    Agree m (put_bytes m q bs) p :=
  fun j hj => put_bytes_below bs m q j (by omega)

/-! ### write_name -/

theorem write_name_labels_spec (fuel : Nat) : ∀ (m : Mem) (p : Nat) (e : Int) (name : List Nat),
    Agree m (write_name_labels fuel m p e name).out p ∧
    (match name_labels fuel name with
     | none => (write_name_labels fuel m p e name).ret ≠ 0
     | some bs =>
       if bs = [] ∨ (p : Int) + bs.length + 1 ≤ e then
         (write_name_labels fuel m p e name).ret = 0 ∧
         (write_name_labels fuel m p e name).outpos = p + bs.length ∧
         body_of (write_name_labels fuel m p e name).out p (p + bs.length) = bs
       else (write_name_labels fuel m p e name).ret ≠ 0) := by
  induction fuel with
  | zero =>
    intro m p e name
    simp [write_name_labels, name_labels, Agree.refl, body_of]
  | succ fuel ih =>
    intro m p e name
    by_cases hn : name = []
    · simp [write_name_labels, name_labels, hn, Agree.refl, body_of]
    · simp only [write_name_labels, name_labels, hn, if_false]
      generalize hl : name.takeWhile (fun c => c != 46) = label
      generalize hd : name.dropWhile (fun c => c != 46) = dot
      by_cases h63 : label.length > 63
      · simp [h63, Agree.refl]
      · by_cases h0 : label.length = 0
        · simp [h0, Agree.refl]
        · simp only [h63, h0, if_false, or_self]
          by_cases hroom : e - (p : Int) < (label.length : Int) + 2
          · simp only [hroom, if_true]
            refine ⟨Agree.refl _ _, ?_⟩
            cases dot with
            | nil =>
              simp only
              rw [if_neg]
              · simp
              · simp; omega
            | cons d rest =>
              simp only
              cases hr : name_labels fuel rest with
              | none => simp
              | some t =>
                simp only
                rw [if_neg]
                · simp
                · simp; omega
          · simp only [hroom, if_false]
            have hput : Agree m (put_bytes (poke m p label.length) (p + 1) label) p :=
              Agree.trans (agree_poke m p p _ (le_refl _)) (agree_put_bytes _ p (p + 1) _ (by omega))
                (le_refl _)
            have hbody : body_of (put_bytes (poke m p label.length) (p + 1) label) p
                (p + (label.length :: label).length) = label.length :: label := by
              have := body_of_put_bytes m p (label.length :: label)
              simpa [put_bytes] using this
            cases dot with
            | nil =>
              simp only
              refine ⟨hput, ?_⟩
              rw [if_pos]
              · refine ⟨trivial, ?_, hbody⟩
                simp; omega
              · right; simp; omega
            | cons d rest =>
              simp only
              obtain ⟨ha, hs⟩ := ih (put_bytes (poke m p label.length) (p + 1) label)
                (p + 1 + label.length) e rest
              refine ⟨Agree.trans hput ha (by omega), ?_⟩
              cases hr : name_labels fuel rest with
              | none =>
                rw [hr] at hs
                simpa using hs
              | some t =>
                rw [hr] at hs
                simp only at hs ⊢
                by_cases hc : t = [] ∨ ((p + 1 + label.length : Nat) : Int) + t.length + 1 ≤ e
                · rw [if_pos hc] at hs
                  obtain ⟨h1, h2, h3⟩ := hs
                  rw [if_pos]
                  · refine ⟨h1, ?_, ?_⟩
                    · rw [h2]; simp; omega
                    · have e1 : p + (label.length :: label ++ t).length
                          = p + 1 + label.length + t.length := by simp; omega
                      rw [e1, body_of_append _ p (p + 1 + label.length) _ (by omega) (by omega), h3]
                      have e2 : p + 1 + label.length = p + (label.length :: label).length := by
                        simp; omega
                      have := body_of_congr _ _ p (p + 1 + label.length)
                        (fun j _ hj => ha j hj)
                      rw [this, e2, hbody]
                  · right
                    rcases hc with hc | hc
                    · subst hc; simp; omega
                    · simp; push_cast at hc; omega
                · rw [if_neg hc] at hs
                  rw [if_neg]
                  · exact hs
                  · intro hc2
                    apply hc
                    right
                    rcases hc2 with hc2 | hc2
                    · simp at hc2
                    · simp at hc2; push_cast; omega

theorem write_name_plain_spec (m : Mem) (p : Nat) (e : Int) (name : List Nat)
    (hpe : (p : Int) ≤ e) :
    Agree m (write_name m p e name (-1)).out p ∧
    (match name_wire name with
     | none => (write_name m p e name (-1)).ret ≠ 0
     | some bs =>
       if (p : Int) + bs.length ≤ e then
         (write_name m p e name (-1)).ret = 0 ∧
         (write_name m p e name (-1)).outpos = p + bs.length ∧
         body_of (write_name m p e name (-1)).out p (p + bs.length) = bs
       else (write_name m p e name (-1)).ret ≠ 0) := by
  obtain ⟨ha, hs⟩ := write_name_labels_spec name.length m p e name
  unfold name_wire
  unfold write_name
  generalize write_name_labels name.length m p e name = r at ha hs
  cases hl : name_labels name.length name with
  | none =>
    rw [hl] at hs
    simp only at hs ⊢
    simp [hs, ha]
  | some bs =>
    rw [hl] at hs
    simp only at hs ⊢
    by_cases hc : bs = [] ∨ (p : Int) + bs.length + 1 ≤ e
    · rw [if_pos hc] at hs
      obtain ⟨h1, h2, h3⟩ := hs
      have hneg : (-1 : Int) < 0 := by omega
      simp only [h1, ne_eq, not_true_eq_false, if_false, hneg, if_true]
      by_cases he : e = (r.outpos : Int)
      · have hbs : bs = [] := by
          rcases hc with hc | hc
          · exact hc
          · rw [h2] at he; push_cast at he; omega
        subst hbs
        simp only [he, if_true]
        refine ⟨ha, ?_⟩
        rw [if_neg]
        · simp
        · simp at h2 ⊢; rw [h2] at he; omega
      · simp only [he, if_false]
        refine ⟨Agree.trans ha (agree_poke r.out p r.outpos 0 (by rw [h2]; omega)) (le_refl _), ?_⟩
        rw [if_pos]
        · refine ⟨trivial, ?_, ?_⟩
          · rw [h2]; simp; omega
          · apply (body_of_eq_iff _ _ _).2
            intro k hk
            simp only [List.length_append, List.length_singleton] at hk
            by_cases hk2 : k < bs.length
            · rw [poke_apply, if_neg (by omega)]
              have := (body_of_eq_iff _ _ _).1 h3 k hk2
              rw [this]
              simp [List.getD_eq_getElem?_getD, List.getElem?_append_left hk2]
            · have hk3 : k = bs.length := by omega
              subst hk3
              rw [poke_apply, if_pos (by omega)]
              simp [List.getD_eq_getElem?_getD]
        · simp only [List.length_append, List.length_singleton]
          push_cast
          rcases hc with hc | hc
          · subst hc
            simp only [List.length_nil, Nat.add_zero] at h2
            rw [h2] at he
            simp; omega
          · omega
    · rw [if_neg hc] at hs
      simp only [hs, ne_eq, not_false_eq_true, if_true]
      refine ⟨ha, ?_⟩
      rw [if_neg]
      · first | exact hs | trivial
      · simp only [List.length_append, List.length_singleton]
        push_cast
        intro h
        exact hc (Or.inr (by omega))

theorem write_name_ptr (m : Mem) (p : Nat) (e : Int) (offset : Int) (h : 0 ≤ offset) :
    write_name m p e [] offset =
      if e - (p : Int) < 2 then ⟨-2, p, m⟩ else ⟨0, p + 2, put_bytes m p (name_ptr offset)⟩ := by
  have hneg : ¬ offset < 0 := by omega
  simp [write_name, write_name_labels, hneg, name_ptr]

/-! ### The record writers -/

theorem body_put_append (m : Mem) (p : Nat) (bs tail : List Nat)
    (h : body_of m p (p + bs.length) = bs) :
    body_of (put_bytes m (p + bs.length) tail) p (p + (bs ++ tail).length) = bs ++ tail := by
  rw [List.length_append, ← Nat.add_assoc,
    body_of_append _ p (p + bs.length) _ (by omega) (by omega), body_of_put_bytes,
    body_of_congr m _ p (p + bs.length) (fun j _ hj => put_bytes_below _ _ _ _ hj), h]

theorem rr_head_length (offset : Int) (typ cls : Nat) (ttl : Int) :
    (rr_head offset typ cls ttl).length = 10 := rfl

theorem write_record_spec (m : Mem) (p : Nat) (e : Int) (offset : Int) (typ cls : Nat)
    (ttl : Int) (h : 0 ≤ offset) :
    WSpec m p (write_record m p e [] offset typ cls ttl) ((p : Int) + 10 ≤ e)
      (rr_head offset typ cls ttl) := by
  unfold write_record
  rw [write_name_ptr m p e offset h]
  by_cases h2 : e - (p : Int) < 2
  · simp only [h2, if_true]
    refine ⟨Agree.refl _ _, Or.inr ⟨by omega, by simp, rfl⟩⟩
  · simp only [h2, if_false, ne_eq, not_true_eq_false]
    by_cases h8 : e - ((p + 2 : Nat) : Int) < 8
    · simp only [h8, if_true]
      refine ⟨agree_put_bytes _ _ _ _ (le_refl _), Or.inr ⟨by push_cast at h8; omega, by simp, rfl⟩⟩
    · simp only [h8, if_false]
      refine ⟨Agree.trans (agree_put_bytes m p p _ (le_refl _))
        (agree_put_bytes _ p (p + 2) _ (by omega)) (le_refl _),
        Or.inl ⟨by push_cast at h8; omega, rfl, rfl, ?_⟩⟩
      have h1 := body_of_put_bytes m p (name_ptr offset)
      have := body_put_append (put_bytes m p (name_ptr offset)) p (name_ptr offset)
        ([typ >>> 8, typ &&& 0xFF, cls >>> 8, cls &&& 0xFF] ++ int_be32 ttl) h1
      simpa [rr_head, name_ptr] using this

theorem write_record_a_spec (m : Mem) (p : Nat) (e : Int) (offset : Int) (cls : Nat)
    (ttl : Int) (ip : addr_t) (h : 0 ≤ offset) :
    WSpec m p (write_record_a m p e [] offset cls ttl ip) (ip.v = 4 ∧ (p : Int) + 16 ≤ e)
      (a_record offset cls ttl ip) := by
  unfold write_record_a
  by_cases hv : ip.v = 4
  · simp only [hv, ne_eq, not_true_eq_false, if_false, true_and]
    obtain ⟨ha, hs⟩ := write_record_spec m p e offset TYPE_A cls ttl h
    generalize write_record m p e [] offset TYPE_A cls ttl = r at ha hs
    rcases hs with ⟨hok, h1, h2, h3⟩ | ⟨hok, h1, h2⟩
    · rw [rr_head_length] at h2
      simp only [h1, not_true_eq_false, if_false]
      by_cases h6 : e - (r.outpos : Int) < 6
      · simp only [h6, if_true]
        exact ⟨ha, Or.inr ⟨by rw [h2] at h6; push_cast at h6; omega, by simp, rfl⟩⟩
      · simp only [h6, if_false]
        refine ⟨Agree.trans ha (agree_put_bytes _ p _ _ (by omega)) (le_refl _),
          Or.inl ⟨by rw [h2] at h6; push_cast at h6; omega, rfl, ?_, ?_⟩⟩
        · simp [a_record, rr_head_length, h2]
        · have := body_put_append r.out p _ ([0, 4] ++ (List.range 4).map ip.byte) h3
          rw [rr_head_length, ← h2] at this
          exact this
    · simp only [h1, not_false_eq_true, if_true]
      exact ⟨ha, Or.inr ⟨by omega, h1, h2⟩⟩
  · simp only [hv, ne_eq, not_false_eq_true, if_true, false_and]
    exact ⟨Agree.refl _ _, Or.inr ⟨not_false, by simp, rfl⟩⟩

theorem write_record_aaaa_spec (m : Mem) (p : Nat) (e : Int) (offset : Int) (cls : Nat)
    (ttl : Int) (ip : addr_t) (h : 0 ≤ offset) :
    WSpec m p (write_record_aaaa m p e [] offset cls ttl ip) (ip.v = 6 ∧ (p : Int) + 16 ≤ e)
      (aaaa_record offset cls ttl ip) := by
  unfold write_record_aaaa
  by_cases hv : ip.v = 6
  · simp only [hv, ne_eq, not_true_eq_false, if_false, true_and]
    obtain ⟨ha, hs⟩ := write_record_spec m p e offset TYPE_AAAA cls ttl h
    generalize write_record m p e [] offset TYPE_AAAA cls ttl = r at ha hs
    rcases hs with ⟨hok, h1, h2, h3⟩ | ⟨hok, h1, h2⟩
    · rw [rr_head_length] at h2
      simp only [h1, not_true_eq_false, if_false]
      by_cases h6 : e - (r.outpos : Int) < 6
      · simp only [h6, if_true]
        exact ⟨ha, Or.inr ⟨by rw [h2] at h6; push_cast at h6; omega, by simp, rfl⟩⟩
      · simp only [h6, if_false]
        refine ⟨Agree.trans ha (agree_put_bytes _ p _ _ (by omega)) (le_refl _),
          Or.inl ⟨by rw [h2] at h6; push_cast at h6; omega, rfl, ?_, ?_⟩⟩
        · simp [aaaa_record, rr_head_length, h2]
        · have := body_put_append r.out p _ ([0, 16] ++ (List.range 16).map ip.byte) h3
          rw [rr_head_length, ← h2] at this
          exact this
    · simp only [h1, not_false_eq_true, if_true]
      exact ⟨ha, Or.inr ⟨by omega, h1, h2⟩⟩
  · simp only [hv, ne_eq, not_false_eq_true, if_true, false_and]
    exact ⟨Agree.refl _ _, Or.inr ⟨not_false, by simp, rfl⟩⟩

theorem body_of_two (m : Mem) (a : Nat) : body_of m a (a + 2) = [m a, m (a + 1)] := by
  simp [body_of, List.range_succ]

theorem body_patched (p n : Nat) (hd rd : List Nat) (m1 m2 : Mem)
    (h1 : body_of m1 p (p + hd.length) = hd) (ha : Agree m1 m2 (p + hd.length + 2))
    (h2 : body_of m2 (p + hd.length + 2) (p + hd.length + 2 + rd.length) = rd) :
    body_of (patch_rdlength m2 (p + hd.length + 2) n) p
      (p + (hd ++ (rdlength n ++ rd)).length) = hd ++ (rdlength n ++ rd) := by
  have e1 : p + (hd ++ (rdlength n ++ rd)).length = p + hd.length + 2 + rd.length := by
    simp [rdlength]; omega
  rw [e1, body_of_append _ p (p + hd.length) _ (by omega) (by omega),
    body_of_append _ (p + hd.length) (p + hd.length + 2) _ (by omega) (by omega)]
  congr 1
  · refine Eq.trans ?_ h1
    apply body_of_congr
    intro j _ hj
    simp only [patch_rdlength, poke_apply]
    rw [if_neg (by omega), if_neg (by omega)]
    exact ha j (by omega)
  · congr 1
    · rw [body_of_two]
      simp only [patch_rdlength, poke_apply, rdlength]
      simp
    · refine Eq.trans ?_ h2
      apply body_of_congr
      intro j hj _
      simp only [patch_rdlength, poke_apply]
      rw [if_neg (by omega), if_neg (by omega)]

theorem agree_patch (m : Mem) (p c n : Nat) (h : p + 2 ≤ c) :
    Agree m (patch_rdlength m c n) p := by
  intro j hj
  simp only [patch_rdlength, poke_apply]
  rw [if_neg (by omega), if_neg (by omega)]

theorem write_record_ns_spec (m : Mem) (p : Nat) (e : Int) (offset : Int) (cls : Nat)
    (ttl : Int) (ns : List Nat) (h : 0 ≤ offset) :
    match name_wire ns with
    | none => WSpec m p (write_record_ns m p e [] offset cls ttl ns) False []
    | some rd => WSpec m p (write_record_ns m p e [] offset cls ttl ns)
        ((p : Int) + 12 + rd.length ≤ e) (ns_record offset cls ttl rd) := by
  have key : ∀ (ok : Prop) (bs : List Nat), ¬ ((p : Int) + 12 ≤ e) → (ok → (p : Int) + 12 ≤ e) →
      WSpec m p (write_record_ns m p e [] offset cls ttl ns) ok bs := by
    intro ok bs hno hok
    unfold write_record_ns
    obtain ⟨ha, hs⟩ := write_record_spec m p e offset TYPE_NS cls ttl h
    generalize write_record m p e [] offset TYPE_NS cls ttl = r at ha hs
    rcases hs with ⟨hok1, h1, h2, h3⟩ | ⟨hok1, h1, h2⟩
    · rw [rr_head_length] at h2
      have h6 : e - (r.outpos : Int) < 2 := by rw [h2]; push_cast; omega
      simp only [h1, ne_eq, not_true_eq_false, if_false, h6, if_true]
      exact ⟨ha, Or.inr ⟨fun o => hno (hok o), by simp, rfl⟩⟩
    · simp only [h1, ne_eq, not_false_eq_true, if_true]
      exact ⟨ha, Or.inr ⟨fun o => hno (hok o), h1, h2⟩⟩
  by_cases h12 : (p : Int) + 12 ≤ e
  · have main : Agree m (write_record_ns m p e [] offset cls ttl ns).out p ∧
        (match name_wire ns with
         | none => (write_record_ns m p e [] offset cls ttl ns).ret ≠ 0 ∧
             (write_record_ns m p e [] offset cls ttl ns).outpos = p
         | some rd =>
           if (p : Int) + 12 + rd.length ≤ e then
             (write_record_ns m p e [] offset cls ttl ns).ret = 0 ∧
             (write_record_ns m p e [] offset cls ttl ns).outpos
               = p + (ns_record offset cls ttl rd).length ∧
             body_of (write_record_ns m p e [] offset cls ttl ns).out p
               (p + (ns_record offset cls ttl rd).length) = ns_record offset cls ttl rd
           else (write_record_ns m p e [] offset cls ttl ns).ret ≠ 0 ∧
             (write_record_ns m p e [] offset cls ttl ns).outpos = p) := by
      unfold write_record_ns
      obtain ⟨ha, hs⟩ := write_record_spec m p e offset TYPE_NS cls ttl h
      generalize write_record m p e [] offset TYPE_NS cls ttl = r at ha hs
      rcases hs with ⟨hok1, h1, h2, h3⟩ | ⟨hok1, h1, h2⟩
      · rw [rr_head_length] at h2
        have h6 : ¬ e - (r.outpos : Int) < 2 := by rw [h2]; push_cast; omega
        simp only [h1, ne_eq, not_true_eq_false, if_false, h6]
        obtain ⟨hb, ht⟩ := write_name_plain_spec r.out (r.outpos + 2) e ns
          (by rw [h2]; push_cast; omega)
        generalize write_name r.out (r.outpos + 2) e ns (-1) = w at hb ht
        have hmw : Agree m w.out p := Agree.trans ha hb (by omega)
        cases hw : name_wire ns with
        | none =>
          rw [hw] at ht
          simp only at ht ⊢
          simp only [ht, not_false_eq_true, if_true]
          exact ⟨hmw, trivial, trivial⟩
        | some rd =>
          rw [hw] at ht
          simp only at ht ⊢
          by_cases hc : ((r.outpos + 2 : Nat) : Int) + rd.length ≤ e
          · rw [if_pos hc] at ht
            obtain ⟨t1, t2, t3⟩ := ht
            have hc2 : (p : Int) + 12 + rd.length ≤ e := by
              rw [h2] at hc; push_cast at hc; omega
            simp only [t1, not_true_eq_false, if_false, hc2, if_true, true_and]
            have hlen : (ns_record offset cls ttl rd).length = 12 + rd.length := by
              simp [ns_record, rr_head_length, rdlength]; omega
            refine ⟨Agree.trans hmw (agree_patch _ _ _ _ (by omega)) (le_refl _), ?_, ?_⟩
            · rw [t2, h2, hlen]; omega
            · have := body_patched p (w.outpos - (r.outpos + 2)) (rr_head offset TYPE_NS cls ttl)
                rd r.out w.out h3 (by rw [rr_head_length]; rw [h2] at hb; exact hb)
                (by rw [rr_head_length]; rw [h2] at t3; exact t3)
              rw [rr_head_length, ← h2] at this
              have e3 : w.outpos - (r.outpos + 2) = rd.length := by omega
              have e4 : ns_record offset cls ttl rd = rr_head offset TYPE_NS cls ttl ++
                  (rdlength (w.outpos - (r.outpos + 2)) ++ rd) := by rw [e3]; rfl
              rw [e4]
              exact this
          · rw [if_neg hc] at ht
            have hc2 : ¬ (p : Int) + 12 + rd.length ≤ e := by
              rw [h2] at hc; push_cast at hc; omega
            simp only [ht, not_false_eq_true, if_true, hc2, if_false]
            exact ⟨hmw, trivial, trivial⟩
      · exact absurd (by omega) hok1
    obtain ⟨ma, ms⟩ := main
    cases hw : name_wire ns with
    | none =>
      rw [hw] at ms
      exact ⟨ma, Or.inr ⟨not_false, ms.1, ms.2⟩⟩
    | some rd =>
      rw [hw] at ms
      simp only at ms ⊢
      by_cases hc : (p : Int) + 12 + rd.length ≤ e
      · rw [if_pos hc] at ms
        exact ⟨ma, Or.inl ⟨hc, ms⟩⟩
      · rw [if_neg hc] at ms
        exact ⟨ma, Or.inr ⟨hc, ms⟩⟩
  · cases hw : name_wire ns with
    | none => exact key False [] h12 (fun f => f.elim)
    | some rd => exact key _ _ h12 (fun o => by omega)

theorem body_extend (m m2 : Mem) (a : Nat) (xs ys : List Nat)
    (h1 : body_of m a (a + xs.length) = xs) (hag : Agree m m2 (a + xs.length))
    (h2 : body_of m2 (a + xs.length) (a + xs.length + ys.length) = ys) :
    body_of m2 a (a + (xs ++ ys).length) = xs ++ ys := by
  rw [List.length_append, ← Nat.add_assoc,
    body_of_append _ a (a + xs.length) _ (by omega) (by omega), h2,
    body_of_congr m m2 a (a + xs.length) (fun j _ hj => hag j hj), h1]

theorem soa_rdata_length (mn rn : List Nat) (s1 s2 s3 s4 s5 : Nat) :
    (soa_rdata mn rn s1 s2 s3 s4 s5).length = mn.length + rn.length + 20 := by
  simp [soa_rdata, be32]; omega

theorem soa_record_length (offset : Int) (cls : Nat) (ttl : Int) (rd : List Nat) :
    (soa_record offset cls ttl rd).length = 12 + rd.length := by
  simp [soa_record, rr_head_length, rdlength]; omega

theorem ns_record_length (offset : Int) (cls : Nat) (ttl : Int) (rd : List Nat) :
    (ns_record offset cls ttl rd).length = 12 + rd.length := by
  simp [ns_record, rr_head_length, rdlength]; omega

theorem write_record_soa_some (m : Mem) (p : Nat) (e : Int) (offset : Int) (cls : Nat)
    (ttl : Int) (mname rn : List Nat) (s1 s2 s3 s4 s5 : Nat) :
    ∃ w, write_record_soa m p e [] offset cls ttl mname (some rn) s1 s2 s3 s4 s5 = some w := by
  unfold write_record_soa
  simp only
  split_ifs <;> exact ⟨_, rfl⟩

theorem write_record_soa_spec (m : Mem) (p : Nat) (e : Int) (offset : Int) (cls : Nat)
    (ttl : Int) (mname : List Nat) (rname : Option (List Nat)) (s1 s2 s3 s4 s5 : Nat)
    (h : 0 ≤ offset) (w : Wr)
    (hw : write_record_soa m p e [] offset cls ttl mname rname s1 s2 s3 s4 s5 = some w) :
    match soa_wire mname rname s1 s2 s3 s4 s5 with
    | none => WSpec m p w False []
    | some rd => WSpec m p w ((p : Int) + 12 + rd.length ≤ e) (soa_record offset cls ttl rd) := by
  have fail : ∀ {w2 : Wr}, Agree m w2.out p → w2.ret ≠ 0 → w2.outpos = p →
      (∀ rd, soa_wire mname rname s1 s2 s3 s4 s5 = some rd → ¬ (p : Int) + 12 + rd.length ≤ e) →
      match soa_wire mname rname s1 s2 s3 s4 s5 with
      | none => WSpec m p w2 False []
      | some rd => WSpec m p w2 ((p : Int) + 12 + rd.length ≤ e)
          (soa_record offset cls ttl rd) := by
    intro w2 ha hr hp hno
    cases hsw : soa_wire mname rname s1 s2 s3 s4 s5 with
    | none => exact ⟨ha, Or.inr ⟨not_false, hr, hp⟩⟩
    | some rd => exact ⟨ha, Or.inr ⟨hno rd hsw, hr, hp⟩⟩
  unfold write_record_soa at hw
  obtain ⟨ha, hs⟩ := write_record_spec m p e offset TYPE_SOA cls ttl h
  generalize write_record m p e [] offset TYPE_SOA cls ttl = r at ha hs hw
  rcases hs with ⟨hok1, h1, h2, h3⟩ | ⟨hok1, h1, h2⟩
  · rw [rr_head_length] at h2
    simp only [h1, ne_eq, not_true_eq_false, if_false] at hw
    by_cases h6 : e - (r.outpos : Int) < 2
    · simp only [h6, if_true, Option.some.injEq] at hw
      subst hw
      exact fail ha (by simp) rfl (fun rd _ => by rw [h2] at h6; push_cast at h6; omega)
    · simp only [h6, if_false] at hw
      obtain ⟨hb, ht⟩ := write_name_plain_spec r.out (r.outpos + 2) e mname
        (by rw [h2]; push_cast; rw [h2] at h6; push_cast at h6; omega)
      generalize write_name r.out (r.outpos + 2) e mname (-1) = w1 at hb ht hw
      have hmw1 : Agree m w1.out p := Agree.trans ha hb (by omega)
      cases hmn : name_wire mname with
      | none =>
        rw [hmn] at ht
        simp only at ht
        simp only [ht, not_false_eq_true, if_true, Option.some.injEq] at hw
        subst hw
        exact fail hmw1 ht rfl (fun rd hrd => by simp [soa_wire, hmn] at hrd)
      | some mn =>
        rw [hmn] at ht
        simp only at ht
        by_cases hc : ((r.outpos + 2 : Nat) : Int) + mn.length ≤ e
        · rw [if_pos hc] at ht
          obtain ⟨t1, t2, t3⟩ := ht
          simp only [t1, not_true_eq_false, if_false] at hw
          cases rname with
          | none => simp at hw
          | some rnm =>
            simp only at hw
            obtain ⟨hb2, ht2⟩ := write_name_plain_spec w1.out w1.outpos e rnm
              (by rw [t2]; push_cast; push_cast at hc; omega)
            generalize write_name w1.out w1.outpos e rnm (-1) = w2 at hb2 ht2 hw
            have hmw2 : Agree m w2.out p := Agree.trans hmw1 hb2 (by omega)
            cases hrn : name_wire rnm with
            | none =>
              rw [hrn] at ht2
              simp only at ht2
              simp only [ht2, not_false_eq_true, if_true, Option.some.injEq] at hw
              subst hw
              exact fail hmw2 ht2 rfl (fun rd hrd => by simp [soa_wire, hmn, hrn] at hrd)
            | some rn =>
              rw [hrn] at ht2
              simp only at ht2
              have hsw : soa_wire mname (some rnm) s1 s2 s3 s4 s5
                  = some (soa_rdata mn rn s1 s2 s3 s4 s5) := by
                simp [soa_wire, hmn, hrn]
              by_cases hc2 : (w1.outpos : Int) + rn.length ≤ e
              · rw [if_pos hc2] at ht2
                obtain ⟨u1, u2, u3⟩ := ht2
                simp only [u1, not_true_eq_false, if_false] at hw
                by_cases h20 : e - (w2.outpos : Int) < 20
                · simp only [h20, if_true, Option.some.injEq] at hw
                  subst hw
                  refine fail hmw2 (by simp) rfl (fun rd hrd => ?_)
                  rw [hsw] at hrd
                  simp only [Option.some.injEq] at hrd
                  subst hrd
                  rw [soa_rdata_length]
                  rw [u2, t2, h2] at h20
                  push_cast at h20 ⊢
                  omega
                · simp only [h20, if_false, Option.some.injEq] at hw
                  subst hw
                  rw [hsw]
                  simp only
                  have hfit : (p : Int) + 12 + (soa_rdata mn rn s1 s2 s3 s4 s5).length ≤ e := by
                    rw [soa_rdata_length]
                    rw [u2, t2, h2] at h20
                    push_cast at h20 ⊢
                    omega
                  refine ⟨?_, Or.inl ⟨hfit, rfl, ?_, ?_⟩⟩
                  · refine Agree.trans (Agree.trans hmw2
                      (agree_put_bytes w2.out p w2.outpos _ (by omega)) (le_refl _))
                      (agree_patch _ p _ _ (by omega)) (le_refl _)
                  · simp only [soa_record_length, soa_rdata_length]
                    omega
                  · have q1 : body_of w2.out (r.outpos + 2) (r.outpos + 2 + (mn ++ rn).length)
                        = mn ++ rn := by
                      apply body_extend w1.out w2.out (r.outpos + 2) mn rn t3
                      · rw [← t2]; exact hb2
                      · rw [← t2]; exact u3
                    have q2 := body_put_append w2.out (r.outpos + 2) (mn ++ rn)
                      (be32 s1 ++ be32 s2 ++ be32 s3 ++ be32 s4 ++ be32 s5) q1
                    have e5 : r.outpos + 2 + (mn ++ rn).length = w2.outpos := by
                      rw [u2, t2]; simp; omega
                    rw [e5] at q2
                    have q3 : body_of (put_bytes w2.out w2.outpos
                        (be32 s1 ++ be32 s2 ++ be32 s3 ++ be32 s4 ++ be32 s5))
                        (p + (rr_head offset TYPE_SOA cls ttl).length + 2)
                        (p + (rr_head offset TYPE_SOA cls ttl).length + 2 +
                          (soa_rdata mn rn s1 s2 s3 s4 s5).length)
                        = soa_rdata mn rn s1 s2 s3 s4 s5 := by
                      rw [rr_head_length, ← h2]
                      have e6 : (mn ++ rn ++ (be32 s1 ++ be32 s2 ++ be32 s3 ++ be32 s4 ++ be32 s5))
                          = soa_rdata mn rn s1 s2 s3 s4 s5 := by
                        simp [soa_rdata]
                      rw [e6] at q2
                      exact q2
                    have hag : Agree r.out (put_bytes w2.out w2.outpos
                        (be32 s1 ++ be32 s2 ++ be32 s3 ++ be32 s4 ++ be32 s5))
                        (p + (rr_head offset TYPE_SOA cls ttl).length + 2) := by
                      rw [rr_head_length, ← h2]
                      exact Agree.trans (Agree.trans hb hb2 (by omega))
                        (agree_put_bytes _ _ _ _ (by omega)) (le_refl _)
                    have := body_patched p (w2.outpos + 20 - (r.outpos + 2))
                      (rr_head offset TYPE_SOA cls ttl) (soa_rdata mn rn s1 s2 s3 s4 s5)
                      r.out _ h3 hag q3
                    rw [rr_head_length, ← h2] at this
                    have e3 : w2.outpos + 20 - (r.outpos + 2)
                        = (soa_rdata mn rn s1 s2 s3 s4 s5).length := by
                      rw [soa_rdata_length]; omega
                    have e4 : soa_record offset cls ttl (soa_rdata mn rn s1 s2 s3 s4 s5)
                        = rr_head offset TYPE_SOA cls ttl ++
                          (rdlength (w2.outpos + 20 - (r.outpos + 2)) ++
                            soa_rdata mn rn s1 s2 s3 s4 s5) := by rw [e3]; rfl
                    rw [e4]
                    exact this
              · rw [if_neg hc2] at ht2
                simp only [ht2, not_false_eq_true, if_true, Option.some.injEq] at hw
                subst hw
                refine fail hmw2 ht2 rfl (fun rd hrd => ?_)
                rw [hsw] at hrd
                simp only [Option.some.injEq] at hrd
                subst hrd
                rw [soa_rdata_length]
                rw [t2, h2] at hc2
                push_cast at hc2 ⊢
                omega
        · rw [if_neg hc] at ht
          simp only [ht, not_false_eq_true, if_true, Option.some.injEq] at hw
          subst hw
          refine fail hmw1 ht rfl (fun rd hrd => ?_)
          have : mn.length ≤ rd.length := by
            unfold soa_wire at hrd
            rw [hmn] at hrd
            cases rname with
            | none => simp at hrd
            | some rnm =>
              simp only at hrd
              cases hrn : name_wire rnm with
              | none => rw [hrn] at hrd; simp at hrd
              | some rn =>
                rw [hrn] at hrd
                simp only [Option.some.injEq] at hrd
                rw [← hrd, soa_rdata_length]
                omega
          rw [h2] at hc
          push_cast at hc
          omega
  · simp only [h1, ne_eq, not_false_eq_true, if_true, Option.some.injEq] at hw
    subst hw
    exact fail ha h1 h2 (fun rd _ => by omega)

/-! ### Building the response -/

theorem WSpec.of_ok {m : Mem} {p : Nat} {w : Wr} {ok : Prop} {bs : List Nat}
    (h : WSpec m p w ok bs) (h0 : w.ret = 0) :
    ok ∧ w.outpos = p + bs.length ∧ body_of w.out p (p + bs.length) = bs ∧ Agree m w.out p := by
  rcases h with ⟨ha, ⟨o, _, h2, h3⟩ | ⟨_, h1, _⟩⟩
  · exact ⟨o, h2, h3, ha⟩
  · exact absurd h0 h1

theorem WSpec.of_fail {m : Mem} {p : Nat} {w : Wr} {ok : Prop} {bs : List Nat}
    (h : WSpec m p w ok bs) (h0 : w.ret ≠ 0) : ¬ ok ∧ w.outpos = p ∧ Agree m w.out p := by
  rcases h with ⟨ha, ⟨_, h1, _, _⟩ | ⟨o, _, h2⟩⟩
  · exact absurd h1 h0
  · exact ⟨o, h2, ha⟩

theorem WSpec.ret_zero_iff {m : Mem} {p : Nat} {w : Wr} {ok : Prop} {bs : List Nat}
    (h : WSpec m p w ok bs) : w.ret = 0 ↔ ok := by
  constructor
  · intro h0; exact (h.of_ok h0).1
  · intro o
    by_contra h0
    exact (h.of_fail h0).1 o

theorem incr_apply (m : Mem) (i j : Nat) :
    incr m i j = if j = i then (m i + 1) % 256 else m j := rfl

theorem body_of_incr (m : Mem) (i a b : Nat) (h : i < a) :
    body_of (incr m i) a b = body_of m a b :=
  body_of_congr _ _ _ _ (fun j h1 _ => by rw [incr_apply, if_neg (by omega)])

theorem Built.init {q m : Mem} {qend : Nat} (h : Agree q m qend) (hq : 9 < qend)
    (h7 : q 7 = 0) (h9 : q 9 = 0) : Built q qend [] [] m qend where
  pos_eq := by simp
  body := by simp [body_of]
  hdr := fun j hj _ _ => h j hj
  ancount := by rw [h 7 (by omega), h7]; rfl
  nscount := by rw [h 9 (by omega), h9]; rfl

theorem Built.fail {q m : Mem} {qend pos : Nat} {an au : List (List Nat)} {w : Wr}
    {ok : Prop} {bs : List Nat} (hB : Built q qend an au m pos) (hw : WSpec m pos w ok bs)
    (hq : 9 < qend) (h0 : w.ret ≠ 0) : Built q qend an au w.out w.outpos := by
  obtain ⟨_, hp, ha⟩ := hw.of_fail h0
  have hle : qend ≤ pos := by rw [hB.pos_eq]; omega
  rw [hp]
  exact {
    pos_eq := hB.pos_eq
    body := by rw [body_of_congr m w.out qend pos (fun j _ hj => ha j hj)]; exact hB.body
    hdr := fun j hj h7 h9 => (ha j (by omega)).trans (hB.hdr j hj h7 h9)
    ancount := (ha 7 (by omega)).trans hB.ancount
    nscount := (ha 9 (by omega)).trans hB.nscount }

theorem Built.answer {q m : Mem} {qend pos : Nat} {an : List (List Nat)} {w : Wr}
    {ok : Prop} {bs : List Nat} (hB : Built q qend an [] m pos) (hw : WSpec m pos w ok bs)
    (hq : 9 < qend) (h0 : w.ret = 0) :
    Built q qend (an ++ [bs]) [] (incr w.out 7) w.outpos := by
  obtain ⟨_, hp, hb, ha⟩ := hw.of_ok h0
  have hle : qend ≤ pos := by rw [hB.pos_eq]; omega
  have hpe := hB.pos_eq
  simp only [List.append_nil] at hpe
  exact {
    pos_eq := by rw [hp, hpe]; simp; omega
    body := by
      rw [body_of_incr _ _ _ _ (by omega), hp,
        body_of_append _ qend pos _ hle (by omega), hb,
        body_of_congr m w.out qend pos (fun j _ hj => ha j hj), hB.body]
      simp
    hdr := fun j hj h7 h9 => by
      rw [incr_apply, if_neg h7]
      exact (ha j (by omega)).trans (hB.hdr j hj h7 h9)
    ancount := by
      rw [incr_apply, if_pos rfl, ha 7 (by omega), hB.ancount]
      simp [Nat.add_mod]
    nscount := by
      rw [incr_apply, if_neg (by omega)]
      exact (ha 9 (by omega)).trans hB.nscount }

theorem Built.authority {q m : Mem} {qend pos : Nat} {an au : List (List Nat)} {w : Wr}
    {ok : Prop} {bs : List Nat} (hB : Built q qend an au m pos) (hw : WSpec m pos w ok bs)
    (hq : 9 < qend) (h0 : w.ret = 0) :
    Built q qend an (au ++ [bs]) (incr w.out 9) w.outpos := by
  obtain ⟨_, hp, hb, ha⟩ := hw.of_ok h0
  have hle : qend ≤ pos := by rw [hB.pos_eq]; omega
  have hpe := hB.pos_eq
  exact {
    pos_eq := by rw [hp, hpe]; simp; omega
    body := by
      rw [body_of_incr _ _ _ _ (by omega), hp,
        body_of_append _ qend pos _ hle (by omega), hb,
        body_of_congr m w.out qend pos (fun j _ hj => ha j hj), hB.body]
      simp
    hdr := fun j hj h7 h9 => by
      rw [incr_apply, if_neg h9]
      exact (ha j (by omega)).trans (hB.hdr j hj h7 h9)
    ancount := by
      rw [incr_apply, if_neg (by omega)]
      exact (ha 7 (by omega)).trans hB.ancount
    nscount := by
      rw [incr_apply, if_pos rfl, ha 9 (by omega), hB.nscount]
      simp [Nat.add_mod] }

theorem WPlan.of_spec {m : Mem} {p : Nat} {w : Wr} {ok : Prop} [Decidable ok] {bs : List Nat}
    (h : WSpec m p w ok bs) : WPlan m p w (if ok then some bs else none) := by
  rcases h with ⟨ha, ⟨o, h1, h2, h3⟩ | ⟨o, h1, h2⟩⟩
  · rw [if_pos o]; exact ⟨ha, h1, h2, h3⟩
  · rw [if_neg o]; exact ⟨ha, h1, h2⟩

theorem WPlan.ret_iff_some {m : Mem} {p : Nat} {w : Wr} {plan : Option (List Nat)}
    (h : WPlan m p w plan) : w.ret = 0 ↔ plan.isSome = true := by
  cases plan with
  | none => simpa using h.2.1
  | some bs => simpa using h.2.1

theorem write_record_ns_plan (opt : dns_opt_t) (m : Mem) (p : Nat) (e : Int) (ttl : Int) :
    WPlan m p (write_record_ns m p e [] 12 CLASS_IN ttl opt.ns) (ns_plan opt ttl p e) := by
  have h := write_record_ns_spec m p e 12 CLASS_IN ttl opt.ns (by omega)
  unfold ns_plan
  cases hw : name_wire opt.ns with
  | none =>
    rw [hw] at h
    simpa using WPlan.of_spec h
  | some rd =>
    rw [hw] at h
    exact WPlan.of_spec h

theorem write_record_soa_plan (opt : dns_opt_t) (m : Mem) (p : Nat) (e : Int)
    (serial : Nat) (w : Wr)
    (hw : write_record_soa m p e [] 12 CLASS_IN opt.nsttl opt.ns opt.mbox serial
      604800 86400 2592000 604800 = some w) :
    WPlan m p w (soa_plan opt serial p e) := by
  have h := write_record_soa_spec m p e 12 CLASS_IN opt.nsttl opt.ns opt.mbox serial
    604800 86400 2592000 604800 (by omega) w hw
  unfold soa_plan
  cases hs : soa_wire opt.ns opt.mbox serial 604800 86400 2592000 604800 with
  | none =>
    rw [hs] at h
    simpa using WPlan.of_spec h
  | some rd =>
    rw [hs] at h
    exact WPlan.of_spec h

theorem write_addr_plan (opt : dns_opt_t) (m : Mem) (p : Nat) (e : Int) (a : addr_t) :
    WPlan m p (write_addr opt e 12 m p a) (addr_plan opt p e a) := by
  unfold write_addr addr_plan addr_record
  by_cases h4 : a.v = 4
  · have h := WPlan.of_spec (write_record_a_spec m p e 12 CLASS_IN opt.datattl a (by omega))
    simp only [h4, true_and, if_true, true_or] at h ⊢
    exact h
  · by_cases h6 : a.v = 6
    · have h := WPlan.of_spec (write_record_aaaa_spec m p e 12 CLASS_IN opt.datattl a (by omega))
      simp only [h6, true_and, if_true, or_true] at h ⊢
      simpa using h
    · simp only [h4, h6, if_false, false_or, false_and]
      exact ⟨Agree.refl _ _, by simp, rfl⟩

theorem Built.step_answer {q m : Mem} {qend pos : Nat} {an : List (List Nat)} {w : Wr}
    {plan : Option (List Nat)} (hB : Built q qend an [] m pos) (hw : WPlan m pos w plan)
    (hq : 9 < qend) :
    Built q qend (an ++ plan.toList) [] (if w.ret = 0 then incr w.out 7 else w.out) w.outpos := by
  cases plan with
  | none =>
    have h0 : w.ret ≠ 0 := hw.2.1
    rw [if_neg h0]
    simp only [Option.toList_none, List.append_nil]
    exact hB.fail (show WSpec m pos w False [] from ⟨hw.1, Or.inr ⟨not_false, hw.2⟩⟩) hq h0
  | some bs =>
    have h0 : w.ret = 0 := hw.2.1
    rw [if_pos h0]
    exact hB.answer (show WSpec m pos w True bs from ⟨hw.1, Or.inl ⟨trivial, hw.2⟩⟩) hq h0

theorem Built.step_authority {q m : Mem} {qend pos : Nat} {an au : List (List Nat)} {w : Wr}
    {plan : Option (List Nat)} (hB : Built q qend an au m pos) (hw : WPlan m pos w plan)
    (hq : 9 < qend) :
    Built q qend an (au ++ plan.toList) (if w.ret = 0 then incr w.out 9 else w.out)
      w.outpos := by
  cases plan with
  | none =>
    have h0 : w.ret ≠ 0 := hw.2.1
    rw [if_neg h0]
    simp only [Option.toList_none, List.append_nil]
    exact hB.fail (show WSpec m pos w False [] from ⟨hw.1, Or.inr ⟨not_false, hw.2⟩⟩) hq h0
  | some bs =>
    have h0 : w.ret = 0 := hw.2.1
    rw [if_pos h0]
    exact hB.authority (show WSpec m pos w True bs from ⟨hw.1, Or.inl ⟨trivial, hw.2⟩⟩) hq h0

theorem answer_ns_built {q : Mem} {qend : Nat} (opt : dns_opt_t) (e : Int)
    (typ cls : Nat) (s : Resp) (hB : Built q qend [] [] s.out s.outpos) (hq : 9 < qend) :
    Built q qend (answer_ns_recs opt e typ cls s.outpos) []
      (answer_ns opt e 12 typ cls s).out (answer_ns opt e 12 typ cls s).outpos ∧
    (answer_ns opt e 12 typ cls s).have_ns
      = s.have_ns + (answer_ns_recs opt e typ cls s.outpos).length := by
  unfold answer_ns answer_ns_recs
  by_cases hw : wants_ns typ cls = true
  · simp only [hw, if_true]
    have hp := write_record_ns_plan opt s.out s.outpos e opt.nsttl
    have hb := hB.step_answer hp hq
    simp only [List.nil_append] at hb
    have hr := hp.ret_iff_some
    generalize write_record_ns s.out s.outpos e [] 12 CLASS_IN opt.nsttl opt.ns = w at hp hb hr
    by_cases h0 : w.ret = 0
    · simp only [h0, if_true] at hb ⊢
      refine ⟨hb, ?_⟩
      have := hr.1 h0
      cases hpl : ns_plan opt opt.nsttl s.outpos e with
      | none => rw [hpl] at this; simp at this
      | some r => simp
    · simp only [h0, if_false] at hb ⊢
      refine ⟨hb, ?_⟩
      cases hpl : ns_plan opt opt.nsttl s.outpos e with
      | none => simp
      | some r => rw [hpl] at hr; simp at hr; exact absurd hr h0
  · simp only [hw, if_false]
    exact ⟨hB, by simp⟩

theorem answer_soa_built {q : Mem} {qend : Nat} (opt : dns_opt_t) (time : Nat → Nat)
    (e : Int) (typ cls : Nat) (s s2 : Resp) (an : List (List Nat))
    (hB : Built q qend an [] s.out s.outpos) (hq : 9 < qend)
    (hs : answer_soa opt time e 12 typ cls s = some s2) :
    Built q qend (an ++ answer_soa_recs opt time e typ cls s.outpos) [] s2.out s2.outpos ∧
    s2.have_ns = s.have_ns := by
  unfold answer_soa at hs
  unfold answer_soa_recs
  by_cases hw : wants_soa typ cls = true ∧ opt.mbox ≠ none
  · simp only [hw, and_self, if_true, ne_eq, not_false_eq_true] at hs ⊢
    cases hwr : write_record_soa s.out s.outpos e [] 12 CLASS_IN opt.nsttl opt.ns opt.mbox
        (time 1) 604800 86400 2592000 604800 with
    | none => rw [hwr] at hs; simp at hs
    | some w =>
      rw [hwr] at hs
      simp only at hs
      have hp := write_record_soa_plan opt s.out s.outpos e (time 1) w hwr
      have hb := hB.step_answer hp hq
      by_cases h0 : w.ret = 0
      · simp only [h0, if_true, Option.some.injEq] at hs hb
        subst hs
        exact ⟨hb, rfl⟩
      · simp only [h0, if_false, Option.some.injEq] at hs hb
        subst hs
        exact ⟨hb, rfl⟩
  · simp only [hw, if_false, Option.some.injEq] at hs ⊢
    subst hs
    simpa using hB

theorem answer_addrs_built {q : Mem} {qend : Nat} (opt : dns_opt_t) (e : Int) (hq : 9 < qend) :
    ∀ (L : List addr_t) (m : Mem) (p : Nat) (an : List (List Nat)),
      Built q qend an [] m p →
      Built q qend (an ++ (L.take (addrs_taken opt e L p)).map (addr_record opt)) []
        (answer_addrs opt e 12 L m p).1 (answer_addrs opt e 12 L m p).2 := by
  intro L
  induction L with
  | nil =>
    intro m p an hB
    simpa [answer_addrs, addrs_taken] using hB
  | cons a rest ih =>
    intro m p an hB
    have hp := write_addr_plan opt m p e a
    have hb := hB.step_answer hp hq
    have hr := hp.ret_iff_some
    unfold answer_addrs addrs_taken
    generalize write_addr opt e 12 m p a = w at hp hb hr
    cases hpl : addr_plan opt p e a with
    | none =>
      rw [hpl] at hr hb
      have h0 : w.ret ≠ 0 := by
        intro h; have := hr.1 h; simp at this
      simp only [h0, if_false, List.take_zero, List.map_nil, List.append_nil,
        Option.toList_none] at hb ⊢
      exact hb
    | some r =>
      rw [hpl] at hr hb hp
      have h0 : w.ret = 0 := hr.2 rfl
      simp only [h0, if_true, Option.toList_some] at hb ⊢
      have hpos : w.outpos = p + r.length := hp.2.2.1
      have := ih (incr w.out 7) w.outpos (an ++ [r]) hb
      rw [hpos] at this ⊢
      have hrec : r = addr_record opt a := by
        unfold addr_plan at hpl
        split_ifs at hpl
        simpa using hpl.symm
      simpa [List.take_succ_cons, hrec] using this

theorem answer_section_built {q : Mem} {qend : Nat} (opt : dns_opt_t) (time : Nat → Nat)
    (e : Int) (typ cls : Nat) (name : List Nat) (m : Mem) (s : Resp)
    (hB : Built q qend [] [] m qend) (hq : 9 < qend)
    (hs : answer_section opt time e 12 typ cls name ⟨m, qend, 0⟩ = some s) :
    Built q qend (answer_recs opt time e typ cls name qend) [] s.out s.outpos ∧
    s.have_ns = (answer_ns_recs opt e typ cls qend).length := by
  unfold answer_section at hs
  obtain ⟨hb1, hn1⟩ := answer_ns_built opt e typ cls ⟨m, qend, 0⟩ hB hq
  generalize answer_ns opt e 12 typ cls ⟨m, qend, 0⟩ = s1 at hs hb1 hn1
  cases hs2 : answer_soa opt time e 12 typ cls s1 with
  | none => rw [hs2] at hs; simp at hs
  | some s2 =>
    rw [hs2] at hs
    simp only [Option.some.injEq] at hs
    obtain ⟨hb2, hn2⟩ := answer_soa_built opt time e typ cls s1 s2 _ hb1 hq hs2
    have hp1 : s1.outpos = qend + (answer_ns_recs opt e typ cls qend).flatten.length := by
      have := hb1.pos_eq; simpa using this
    have hp2 : s2.outpos = s1.outpos +
        (answer_soa_recs opt time e typ cls s1.outpos).flatten.length := by
      have := hb2.pos_eq
      rw [this, hp1]
      simp; omega
    subst hs
    simp only [zero_add] at hn1
    have hb1b : Built q qend (answer_ns_recs opt e typ cls qend) [] s1.out s1.outpos := hb1
    have hb2b : Built q qend (answer_ns_recs opt e typ cls qend ++
        answer_soa_recs opt time e typ cls s1.outpos) [] s2.out s2.outpos := hb2
    have hrec : answer_recs opt time e typ cls name qend =
        answer_ns_recs opt e typ cls qend ++ answer_soa_recs opt time e typ cls s1.outpos ++
          answer_addr_recs opt e typ cls name s2.outpos := by
      unfold answer_recs
      simp only
      rw [← hp1, ← hp2]
    rw [hrec]
    unfold answer_addr answer_addr_recs cb_addrs
    by_cases hw : wants_addr typ cls = true
    · simp only [hw, if_true]
      exact ⟨answer_addrs_built opt e hq _ s2.out s2.outpos _ hb2b, by rw [hn2, hn1]⟩
    · have hw2 : wants_addr typ cls = false := by simpa using hw
      simp only [hw2, Bool.false_eq_true, if_false, List.append_nil]
      exact ⟨hb2b, by rw [hn2, hn1]⟩

theorem authority_section_built {q : Mem} {qend : Nat} (opt : dns_opt_t) (time : Nat → Nat)
    (s s2 : Resp) (an : List (List Nat)) (hB : Built q qend an [] s.out s.outpos)
    (hq : 9 < qend) (hs : authority_section opt time 12 s = some s2) :
    Built q qend an (authority_recs opt time s.have_ns (s.out 7) s.outpos) s2.out s2.outpos := by
  unfold authority_section at hs
  unfold authority_recs
  by_cases h1 : s.have_ns = 0 ∧ s.out 7 ≠ 0
  · simp only [h1, ne_eq, not_false_eq_true, and_self, if_true] at hs ⊢
    have hp := write_record_ns_plan opt s.out s.outpos BUFLEN opt.nsttl
    have hb := hB.step_authority hp hq
    simp only [List.nil_append] at hb
    generalize write_record_ns s.out s.outpos BUFLEN [] 12 CLASS_IN opt.nsttl opt.ns = w
      at hp hb hs
    by_cases h0 : w.ret = 0
    · simp only [h0, if_true, Option.some.injEq] at hs hb
      subst hs; exact hb
    · simp only [h0, if_false, Option.some.injEq] at hs hb
      subst hs; exact hb
  · simp only [h1, if_false] at hs ⊢
    by_cases h7 : s.out 7 = 0
    · simp only [h7, if_true] at hs ⊢
      cases hwr : write_record_soa s.out s.outpos BUFLEN [] 12 CLASS_IN opt.nsttl opt.ns
          opt.mbox (time 2) 604800 86400 2592000 604800 with
      | none => rw [hwr] at hs; simp at hs
      | some w =>
        rw [hwr] at hs
        simp only at hs
        have hp := write_record_soa_plan opt s.out s.outpos BUFLEN (time 2) w hwr
        have hb := hB.step_authority hp hq
        simp only [List.nil_append] at hb
        by_cases h0 : w.ret = 0
        · simp only [h0, if_true, Option.some.injEq] at hs hb
          subst hs; exact hb
        · simp only [h0, if_false, Option.some.injEq] at hs hb
          subst hs; exact hb
    · simp only [h7, if_false, Option.some.injEq] at hs ⊢
      subst hs
      exact hB

theorem WPlan.size {m : Mem} {p : Nat} {w : Wr} {plan : Option (List Nat)}
    (h : WPlan m p w plan) : (w.outpos : Int) - p = plan_size plan := by
  cases plan with
  | none => have := h.2.2; simp [plan_size, this]
  | some bs => have := h.2.2.1; simp [plan_size, this]

theorem max_auth_size_spec (opt : dns_opt_t) (time : Nat → Nat) (m m2 : Mem)
    (qend typ cls : Nat) (ma : Int)
    (h : max_auth_size opt time m qend 12 typ cls = some (ma, m2)) :
    Agree m m2 qend ∧ ma = auth_reserve opt time typ cls qend := by
  unfold max_auth_size at h
  unfold auth_reserve
  by_cases hw : wants_ns typ cls = true
  · simp only [hw, if_true, Option.some.injEq, Prod.mk.injEq] at h ⊢
    exact ⟨by rw [← h.2]; exact Agree.refl _ _, h.1.symm⟩
  · have hw2 : wants_ns typ cls = false := by simpa using hw
    simp only [hw2, Bool.false_eq_true, if_false] at h ⊢
    have hp := write_record_ns_plan opt m qend BUFLEN 0
    generalize write_record_ns m qend BUFLEN [] 12 CLASS_IN 0 opt.ns = r at hp h
    cases hwr : write_record_soa r.out qend BUFLEN [] 12 CLASS_IN opt.nsttl opt.ns opt.mbox
        (time 0) 604800 86400 2592000 604800 with
    | none => rw [hwr] at h; simp at h
    | some w =>
      rw [hwr] at h
      simp only [Option.some.injEq, Prod.mk.injEq] at h
      have hp2 := write_record_soa_plan opt r.out qend BUFLEN (time 0) w hwr
      rw [← hp.size, ← hp2.size]
      exact ⟨by rw [← h.2]; exact Agree.trans hp.1 hp2.1 (le_refl _), h.1.symm⟩

theorem max_auth_size_some (opt : dns_opt_t) (time : Nat → Nat) (m : Mem)
    (qend typ cls : Nat) (hm : opt.mbox ≠ none) :
    ∃ r, max_auth_size opt time m qend 12 typ cls = some r := by
  unfold max_auth_size
  by_cases hw : wants_ns typ cls = true
  · simp [hw]
  · have hw2 : wants_ns typ cls = false := by simpa using hw
    simp only [hw2, Bool.false_eq_true, if_false]
    obtain ⟨mb, hmb⟩ := Option.ne_none_iff_exists'.1 hm
    rw [hmb]
    obtain ⟨w, hw⟩ := write_record_soa_some
      (write_record_ns m qend BUFLEN [] 12 CLASS_IN 0 opt.ns).out qend BUFLEN 12 CLASS_IN
      opt.nsttl opt.ns mb (time 0) 604800 86400 2592000 604800
    rw [hw]
    exact ⟨_, rfl⟩

theorem answer_section_some (opt : dns_opt_t) (time : Nat → Nat) (e : Int)
    (typ cls : Nat) (name : List Nat) (s : Resp) (hm : opt.mbox ≠ none) :
    ∃ r, answer_section opt time e 12 typ cls name s = some r := by
  unfold answer_section answer_soa
  obtain ⟨mb, hmb⟩ := Option.ne_none_iff_exists'.1 hm
  generalize answer_ns opt e 12 typ cls s = s1
  by_cases hw : wants_soa typ cls = true ∧ opt.mbox ≠ none
  · simp only [hw, and_self, if_true, ne_eq, not_false_eq_true]
    rw [hmb]
    obtain ⟨w, hw⟩ := write_record_soa_some s1.out s1.outpos e 12 CLASS_IN
      opt.nsttl opt.ns mb (time 1) 604800 86400 2592000 604800
    rw [hw]
    simp only
    split_ifs <;> exact ⟨_, rfl⟩
  · simp only [hw, if_false]
    exact ⟨_, rfl⟩

theorem authority_section_some (opt : dns_opt_t) (time : Nat → Nat) (s : Resp)
    (hm : opt.mbox ≠ none) : ∃ r, authority_section opt time 12 s = some r := by
  unfold authority_section
  obtain ⟨mb, hmb⟩ := Option.ne_none_iff_exists'.1 hm
  rw [hmb]
  obtain ⟨w, hw⟩ := write_record_soa_some s.out s.outpos BUFLEN 12 CLASS_IN
    opt.nsttl opt.ns mb (time 2) 604800 86400 2592000 604800
  simp only [hw]
  split_ifs <;> exact ⟨_, rfl⟩

/-! ### The accepted question -/

theorem copy_question_low (inbuf : List Nat) (outbuf : Mem) (inpos : Nat) :
    copy_question inbuf outbuf inpos 0 = outbuf 0 ∧
    copy_question inbuf outbuf inpos 1 = outbuf 1 ∧
    copy_question inbuf outbuf inpos 2 = outbuf 2 ||| 128 ∧
    copy_question inbuf outbuf inpos 3 = outbuf 3 ∧
    copy_question inbuf outbuf inpos 4 = 0 ∧
    copy_question inbuf outbuf inpos 5 = 1 ∧
    (∀ j, 6 ≤ j → j < 12 → copy_question inbuf outbuf inpos j = 0) := by
  have hb : ∀ (l : List Nat) (j : Nat), j < 12 → put_bytes outbuf 12 l j = outbuf j :=
    fun l j hj => put_bytes_below _ _ _ _ hj
  refine ⟨?_, ?_, ?_, ?_, ?_, ?_, ?_⟩
  · simp [copy_question, poke_apply, put_bytes, hb]
  · simp [copy_question, poke_apply, put_bytes, hb]
  · simp [copy_question, poke_apply, put_bytes, hb]
  · simp [copy_question, poke_apply, put_bytes, hb]
  · simp [copy_question, poke_apply, put_bytes, hb]
  · simp [copy_question, poke_apply, put_bytes, hb]
  · intro j h6 h12
    have : j = 6 ∨ j = 7 ∨ j = 8 ∨ j = 9 ∨ j = 10 ∨ j = 11 := by omega
    rcases this with h | h | h | h | h | h <;> subst h <;>
      simp [copy_question, poke_apply, put_bytes]

theorem copy_question_body (inbuf : List Nat) (outbuf : Mem) (inpos : Nat)
    (hlen : inpos + 4 ≤ inbuf.length) (j : Nat) (h12 : 12 ≤ j) (hj : j < inpos + 4) :
    copy_question inbuf outbuf inpos j = inbuf.getD j 0 := by
  unfold copy_question
  rw [poke_apply, if_neg (by omega), put_bytes_above _ _ _ _ (by simp; omega)]
  have := put_bytes_at (List.take (inpos + 4 - 12) (List.drop 12 inbuf)) outbuf 12 (j - 12)
    (by simp; omega)
  rw [show 12 + (j - 12) = j by omega] at this
  rw [this]
  simp only [List.getD_eq_getElem?_getD, List.getElem?_take, List.getElem?_drop]
  rw [if_pos (by omega), show 12 + (j - 12) = j by omega]

theorem dns_answer_built (opt : dns_opt_t) (time : Nat → Nat) (inbuf : List Nat)
    (outbuf : Mem) (name : List Nat) (inpos : Nat) (n : Int) (out : Mem)
    (h13 : 13 ≤ inpos)
    (h : dns_answer opt time inbuf outbuf name inpos = Outcome.ret n out) :
    ∃ (m2 : Mem) (s s2 : Resp),
      max_auth_size opt time (copy_question inbuf outbuf inpos) (inpos + 4) 12
        (qtype inbuf inpos) (qclass inbuf inpos)
        = some (auth_reserve opt time (qtype inbuf inpos) (qclass inbuf inpos) (inpos + 4), m2) ∧
      answer_section opt time
        ((BUFLEN : Int) - auth_reserve opt time (qtype inbuf inpos) (qclass inbuf inpos) (inpos + 4))
        12 (qtype inbuf inpos) (qclass inbuf inpos) name ⟨m2, inpos + 4, 0⟩ = some s ∧
      authority_section opt time 12 s = some s2 ∧
      n = (s2.outpos : Int) ∧ out = poke s2.out 2 (s2.out 2 ||| 4) ∧
      Built (copy_question inbuf outbuf inpos) (inpos + 4)
        (answer_recs opt time
          ((BUFLEN : Int) - auth_reserve opt time (qtype inbuf inpos) (qclass inbuf inpos)
            (inpos + 4))
          (qtype inbuf inpos) (qclass inbuf inpos) name (inpos + 4)) [] s.out s.outpos ∧
      s.have_ns = (answer_ns_recs opt
          ((BUFLEN : Int) - auth_reserve opt time (qtype inbuf inpos) (qclass inbuf inpos)
            (inpos + 4))
          (qtype inbuf inpos) (qclass inbuf inpos) (inpos + 4)).length ∧
      Built (copy_question inbuf outbuf inpos) (inpos + 4)
        (answer_recs opt time
          ((BUFLEN : Int) - auth_reserve opt time (qtype inbuf inpos) (qclass inbuf inpos)
            (inpos + 4))
          (qtype inbuf inpos) (qclass inbuf inpos) name (inpos + 4))
        (authority_recs opt time s.have_ns (s.out 7) s.outpos) s2.out s2.outpos := by
  unfold dns_answer at h
  simp only at h
  cases hma : max_auth_size opt time (copy_question inbuf outbuf inpos) (inpos + 4) 12
      (qtype inbuf inpos) (qclass inbuf inpos) with
  | none => rw [hma] at h; simp at h
  | some r =>
    obtain ⟨ma, m2⟩ := r
    rw [hma] at h
    simp only at h
    obtain ⟨hag, hmaeq⟩ := max_auth_size_spec _ _ _ _ _ _ _ _ hma
    subst hmaeq
    cases hs : answer_section opt time
        ((BUFLEN : Int) - auth_reserve opt time (qtype inbuf inpos) (qclass inbuf inpos) (inpos + 4))
        12 (qtype inbuf inpos) (qclass inbuf inpos) name ⟨m2, inpos + 4, 0⟩ with
    | none => rw [hs] at h; simp at h
    | some s =>
      rw [hs] at h
      simp only at h
      cases hs2 : authority_section opt time 12 s with
      | none => rw [hs2] at h; simp at h
      | some s2 =>
        rw [hs2] at h
        simp only [Outcome.ret.injEq] at h
        have hlow := copy_question_low inbuf outbuf inpos
        have hB0 : Built (copy_question inbuf outbuf inpos) (inpos + 4) [] [] m2 (inpos + 4) :=
          Built.init hag (by omega) (hlow.2.2.2.2.2.2 7 (by omega) (by omega))
            (hlow.2.2.2.2.2.2 9 (by omega) (by omega))
        obtain ⟨hB1, hn⟩ := answer_section_built opt time _ _ _ name m2 s hB0 (by omega) hs
        have hB2 := authority_section_built opt time s s2 _ hB1 (by omega) hs2
        exact ⟨m2, s, s2, rfl, hs, hs2, h.1.symm, h.2.symm, hB1, hn, hB2⟩

/-! ### parse_name -/

theorem copy_label_spec (inbuf : List Nat) (inend bufsize : Nat) :
    ∀ (octet inpos : Nat) (buf : List Nat), inpos ≤ inend →
      ((copy_label inbuf inend bufsize octet inpos buf).ret = 0 ∨
       (copy_label inbuf inend bufsize octet inpos buf).ret = -1 ∨
       (copy_label inbuf inend bufsize octet inpos buf).ret = -2) ∧
      ((copy_label inbuf inend bufsize octet inpos buf).ret = 0 →
        (copy_label inbuf inend bufsize octet inpos buf).inpos = inpos + octet ∧
        inpos + octet ≤ inend ∧
        ∃ t, (copy_label inbuf inend bufsize octet inpos buf).buf = buf ++ t ∧
          t.length = octet ∧ (∀ c ∈ t, c ≠ 46)) := by
  intro octet
  induction octet with
  | zero =>
    intro inpos buf h
    simp [copy_label, h]
  | succ octet ih =>
    intro inpos buf h
    unfold copy_label
    by_cases h1 : inpos = inend
    · simp [h1]
    · by_cases h2 : buf.length + 1 = bufsize
      · simp [h1, h2]
      · by_cases h3 : inbuf.getD inpos 0 = 46
        · simp only [h1, h2, h3, if_false, if_true]
          exact ⟨by simp, fun h => by simp at h⟩
        · simp only [h1, h2, h3, if_false]
          obtain ⟨ha, hb⟩ := ih (inpos + 1) (buf ++ [inbuf.getD inpos 0]) (by omega)
          refine ⟨ha, fun h0 => ?_⟩
          obtain ⟨b1, b2, t, b3, b4, b5⟩ := hb h0
          refine ⟨by rw [b1]; omega, by omega, inbuf.getD inpos 0 :: t, ?_, ?_, ?_⟩
          · rw [b3]; simp
          · simp [b4]
          · intro c hc
            rcases List.mem_cons.1 hc with hc | hc
            · rw [hc]; exact h3
            · exact b5 c hc

theorem parse_name_fuel_spec (inbuf : List Nat) :
    ∀ (fuel inpos inend bufsize : Nat) (buf : List Nat) (init : Bool),
      inpos ≤ inend → inend * inend + (inend - inpos) < fuel →
      ∃ r, parse_name_fuel inbuf fuel inpos inend bufsize buf init = some r ∧
        (r.ret = 0 ∨ r.ret = -1 ∨ r.ret = -2) ∧
        (r.ret = 0 → inpos < r.inpos ∧ r.inpos ≤ inend ∧
          ∃ t, r.buf = buf ++ t ∧ t ≠ [] ∧ (init = true → t.head? ≠ some 46)) := by
  intro fuel
  induction fuel with
  | zero => intro inpos inend bufsize buf init _ h; omega
  | succ fuel ih =>
    intro inpos inend bufsize buf init hle hfuel
    unfold parse_name_fuel
    by_cases h1 : inpos = inend
    · simp [h1]
    · simp only [h1, if_false]
      by_cases h2 : inbuf.getD inpos 0 = 0
      · simp only [h2, if_true]
        refine ⟨_, rfl, Or.inl rfl, fun _ => ⟨by simp, by simp; omega, [0], rfl, by simp, by simp⟩⟩
      · simp only [h2, if_false]
        by_cases h3 : init = false ∧ buf.length + 1 = bufsize
        · simp only [h3, and_self, if_true]
          exact ⟨_, rfl, Or.inr (Or.inr rfl), fun h => by simp at h⟩
        · simp only [h3, if_false]
          by_cases h4 : inbuf.getD inpos 0 &&& 0xC0 = 0xC0
          · simp only [h4, if_true]
            by_cases h5 : inpos + 1 = inend
            · simp only [h5, if_true]
              exact ⟨_, rfl, Or.inr (Or.inl rfl), fun h => by simp at h⟩
            · simp only [h5, if_false]
              by_cases h6 : ((inbuf.getD inpos 0 - 0xC0) <<< 8) + inbuf.getD (inpos + 1) 0
                  ≥ inpos + 1 + 1 - 2
              · simp only [h6, if_true]
                exact ⟨_, rfl, Or.inr (Or.inl rfl), fun h => by simp at h⟩
              · simp only [h6, if_false]
                have hlt : ((inbuf.getD inpos 0 - 0xC0) <<< 8) + inbuf.getD (inpos + 1) 0
                    < inpos := by omega
                have hmeas : (inpos + 1 + 1 - 2) * (inpos + 1 + 1 - 2) + ((inpos + 1 + 1 - 2) -
                    (((inbuf.getD inpos 0 - 0xC0) <<< 8) + inbuf.getD (inpos + 1) 0)) < fuel := by
                  have e1 : inpos + 1 + 1 - 2 = inpos := by omega
                  rw [e1]
                  have h7 : inpos + 2 ≤ inend := by omega
                  have h8 : inpos * inpos + inpos < inend * inend := by nlinarith
                  omega
                obtain ⟨r, hr, hret, hz⟩ := ih _ (inpos + 1 + 1 - 2) (bufsize -
                  (if init = false then buf ++ [46] else buf).length) [] true (by omega) hmeas
                rw [hr]
                refine ⟨_, rfl, hret, fun h0 => ?_⟩
                obtain ⟨_, _, t, ht, hne, hhead⟩ := hz h0
                refine ⟨by simp; omega, by simp; omega, ?_⟩
                simp only [List.nil_append] at ht
                by_cases hi : init = false
                · refine ⟨46 :: t, ?_, by simp, fun h => by rw [hi] at h; simp at h⟩
                  simp [hi, ht]
                · refine ⟨t, ?_, hne, fun _ => hhead rfl⟩
                  simp [hi, ht]
          · simp only [h4, if_false]
            by_cases h5 : inbuf.getD inpos 0 > 63
            · simp only [h5, if_true]
              exact ⟨_, rfl, Or.inr (Or.inl rfl), fun h => by simp at h⟩
            · simp only [h5, if_false]
              obtain ⟨ca, cb⟩ := copy_label_spec inbuf inend bufsize (inbuf.getD inpos 0)
                (inpos + 1) (if init = false then buf ++ [46] else buf) (by omega)
              generalize copy_label inbuf inend bufsize (inbuf.getD inpos 0)
                (inpos + 1) (if init = false then buf ++ [46] else buf) = c at ca cb
              by_cases h6 : c.ret = 0
              · simp only [h6, ne_eq, not_true_eq_false, if_false]
                obtain ⟨c1, c2, t, c3, c4, c5⟩ := cb h6
                have hc1 : inpos < c.inpos := by omega
                have hc2 : c.inpos ≤ inend := by omega
                have hc3 : inend - c.inpos < inend - inpos := by omega
                obtain ⟨r, hr, hret, hz⟩ := ih c.inpos inend bufsize c.buf false
                  hc2 (by omega)
                rw [hr]
                refine ⟨r, rfl, hret, fun h0 => ?_⟩
                obtain ⟨z1, z2, t2, z3, _, _⟩ := hz h0
                refine ⟨by omega, z2, ?_⟩
                have hpos : 0 < t.length := by omega
                by_cases hi : init = false
                · refine ⟨46 :: (t ++ t2), ?_, by simp, fun h => by rw [hi] at h; simp at h⟩
                  rw [z3, c3]; simp [hi]
                · refine ⟨t ++ t2, ?_, ?_, fun _ => ?_⟩
                  · rw [z3, c3]; simp [hi]
                  · intro h
                    have h9 := (List.append_eq_nil.1 h).1
                    rw [h9] at hpos
                    simp at hpos
                  · cases t with
                    | nil => simp at hpos
                    | cons x xs =>
                      simp only [List.cons_append, List.head?_cons, ne_eq, Option.some.injEq]
                      exact c5 x (by simp)
              · simp only [h6, ne_eq, not_false_eq_true, if_true]
                refine ⟨c, rfl, ca, fun h => absurd h h6⟩

theorem parse_name_total (inbuf : List Nat) (inpos inend bufsize : Nat) (h : inpos ≤ inend) :
    ∃ r, parse_name inbuf inpos inend bufsize = some r ∧
      (r.ret = 0 ∨ r.ret = -1 ∨ r.ret = -2) ∧
      (r.ret = 0 → inpos < r.inpos ∧ r.inpos ≤ inend ∧ r.buf ≠ [] ∧
        r.buf.head? ≠ some 46) := by
  obtain ⟨r, hr, hret, hz⟩ := parse_name_fuel_spec inbuf (parse_fuel inend) inpos inend
    bufsize [] true h (by unfold parse_fuel; omega)
  refine ⟨r, hr, hret, fun h0 => ?_⟩
  obtain ⟨z1, z2, t, z3, z4, z5⟩ := hz h0
  simp only [List.nil_append] at z3
  rw [z3]
  exact ⟨z1, z2, z4, z5 rfl⟩

theorem accepted_answer (opt : dns_opt_t) (time : Nat → Nat) (inbuf : List Nat)
    (out0 : Mem) (p : ParseRes) (h : accepted opt inbuf p) :
    dnshandle opt time inbuf out0 =
      dns_answer opt time inbuf (header_cleared inbuf out0) (cstr p.buf) p.inpos ∧
    13 ≤ p.inpos := by
  obtain ⟨h12, hqr, hop, hqd, hp, hret, hz, hlen⟩ := h
  obtain ⟨r, hr, _, hz2⟩ := parse_name_total inbuf 12 inbuf.length 256 h12
  rw [hp] at hr
  simp only [Option.some.injEq] at hr
  subst hr
  refine ⟨?_, by have := (hz2 hret).1; omega⟩
  rw [dnshandle_checked opt time inbuf out0 h12 hqr hop, if_neg (by omega), if_neg (by omega)]
  unfold dns_question
  simp only [hp, hret, hz]
  have : ¬ ((inbuf.length : Int) - (p.inpos : Int) < 4) := by omega
  simp [this]

theorem accepted_built (opt : dns_opt_t) (time : Nat → Nat) (inbuf : List Nat)
    (out0 : Mem) (p : ParseRes) (h : accepted opt inbuf p) (resp : List Nat)
    (hr : (dnshandle opt time inbuf out0).response = some resp) :
    ∃ (m2 : Mem) (s s2 : Resp),
      max_auth_size opt time (copy_question inbuf (header_cleared inbuf out0) p.inpos)
        (p.inpos + 4) 12 (qtype inbuf p.inpos) (qclass inbuf p.inpos)
        = some (auth_reserve opt time (qtype inbuf p.inpos) (qclass inbuf p.inpos)
            (p.inpos + 4), m2) ∧
      answer_section opt time
        ((BUFLEN : Int) - auth_reserve opt time (qtype inbuf p.inpos) (qclass inbuf p.inpos)
          (p.inpos + 4))
        12 (qtype inbuf p.inpos) (qclass inbuf p.inpos) (cstr p.buf) ⟨m2, p.inpos + 4, 0⟩
        = some s ∧
      authority_section opt time 12 s = some s2 ∧
      resp = bytes_of (poke s2.out 2 (s2.out 2 ||| 4)) s2.outpos ∧
      Built (copy_question inbuf (header_cleared inbuf out0) p.inpos) (p.inpos + 4)
        (answer_recs opt time
          ((BUFLEN : Int) - auth_reserve opt time (qtype inbuf p.inpos) (qclass inbuf p.inpos)
            (p.inpos + 4))
          (qtype inbuf p.inpos) (qclass inbuf p.inpos) (cstr p.buf) (p.inpos + 4)) []
        s.out s.outpos ∧
      s.have_ns = (answer_ns_recs opt
          ((BUFLEN : Int) - auth_reserve opt time (qtype inbuf p.inpos) (qclass inbuf p.inpos)
            (p.inpos + 4))
          (qtype inbuf p.inpos) (qclass inbuf p.inpos) (p.inpos + 4)).length ∧
      Built (copy_question inbuf (header_cleared inbuf out0) p.inpos) (p.inpos + 4)
        (answer_recs opt time
          ((BUFLEN : Int) - auth_reserve opt time (qtype inbuf p.inpos) (qclass inbuf p.inpos)
            (p.inpos + 4))
          (qtype inbuf p.inpos) (qclass inbuf p.inpos) (cstr p.buf) (p.inpos + 4))
        (authority_recs opt time s.have_ns (s.out 7) s.outpos) s2.out s2.outpos := by
  obtain ⟨he, h13⟩ := accepted_answer opt time inbuf out0 p h
  rw [he] at hr
  cases hd : dns_answer opt time inbuf (header_cleared inbuf out0) (cstr p.buf) p.inpos with
  | fuel_out => rw [hd] at hr; simp [Outcome.response] at hr
  | null_deref => rw [hd] at hr; simp [Outcome.response] at hr
  | ret n out =>
    obtain ⟨m2, s, s2, a1, a2, a3, a4, a5, a6, a7, a8⟩ :=
      dns_answer_built opt time inbuf _ _ _ n out h13 hd
    rw [hd] at hr
    subst a4 a5
    simp only [Outcome.response, Int.natCast_nonneg, if_true, Int.toNat_ofNat,
      Option.some.injEq] at hr
    exact ⟨m2, s, s2, a1, a2, a3, hr.symm, a6, a7, a8⟩

theorem accepted_responds (opt : dns_opt_t) (time : Nat → Nat) (inbuf : List Nat)
    (out0 : Mem) (p : ParseRes) (h : accepted opt inbuf p) (hm : opt.mbox ≠ none) :
    ∃ resp, (dnshandle opt time inbuf out0).response = some resp := by
  obtain ⟨he, h13⟩ := accepted_answer opt time inbuf out0 p h
  rw [he]
  unfold dns_answer
  simp only
  obtain ⟨r, hr⟩ := max_auth_size_some opt time
    (copy_question inbuf (header_cleared inbuf out0) p.inpos) (p.inpos + 4)
    (qtype inbuf p.inpos) (qclass inbuf p.inpos) hm
  rw [hr]
  simp only
  obtain ⟨s, hs⟩ := answer_section_some opt time ((BUFLEN : Int) - r.1)
    (qtype inbuf p.inpos) (qclass inbuf p.inpos) (cstr p.buf) ⟨r.2, p.inpos + 4, 0⟩ hm
  rw [hs]
  simp only
  obtain ⟨s2, hs2⟩ := authority_section_some opt time s hm
  rw [hs2]
  simp [Outcome.response]

theorem accepted_fields (opt : dns_opt_t) (time : Nat → Nat) (inbuf : List Nat)
    (out0 : Mem) (p : ParseRes) (h : accepted opt inbuf p) :
    (opt.mbox ≠ none → ∃ resp, (dnshandle opt time inbuf out0).response = some resp) ∧
    ∀ resp, (dnshandle opt time inbuf out0).response = some resp →
      resp.getD 0 0 = inbuf.getD 0 0 ∧ resp.getD 1 0 = inbuf.getD 1 0 ∧
      resp.getD 2 0 &&& 0x80 = 0x80 ∧ resp.getD 2 0 &&& 4 = 4 ∧
      resp.getD 3 0 &&& 15 = 0 ∧
      resp.getD 4 0 = 0 ∧ resp.getD 5 0 = 1 ∧ resp.getD 10 0 = 0 ∧ resp.getD 11 0 = 0 ∧
      p.inpos + 4 ≤ resp.length ∧
      (∀ j, 12 ≤ j → j < p.inpos + 4 → resp.getD j 0 = inbuf.getD j 0) := by
  refine ⟨accepted_responds opt time inbuf out0 p h, fun resp hr => ?_⟩
  obtain ⟨m2, s, s2, _, _, _, hresp, _, _, hB⟩ := accepted_built opt time inbuf out0 p h resp hr
  obtain ⟨_, h13⟩ := accepted_answer opt time inbuf out0 p h
  have hlen : p.inpos + 4 ≤ inbuf.length := h.2.2.2.2.2.2.2
  have hpos : p.inpos + 4 ≤ s2.outpos := by rw [hB.pos_eq]; omega
  obtain ⟨q0, q1, q2, q3, q4, q5, q6⟩ :=
    copy_question_low inbuf (header_cleared inbuf out0) p.inpos
  obtain ⟨c0, c1, c2, c3⟩ := header_cleared_val inbuf out0
  have get : ∀ j, j < s2.outpos → resp.getD j 0 = poke s2.out 2 (s2.out 2 ||| 4) j := by
    intro j hj; rw [hresp, bytes_of_getD _ _ _ hj]
  have hd : ∀ j, j < p.inpos + 4 → j ≠ 7 → j ≠ 9 → j ≠ 2 →
      resp.getD j 0 = copy_question inbuf (header_cleared inbuf out0) p.inpos j := by
    intro j hj h7 h9 h2
    rw [get j (by omega), poke_apply, if_neg h2]
    exact hB.hdr j hj h7 h9
  have h2v : resp.getD 2 0 = ((inbuf.getD 2 0 &&& 0xFD) ||| 128) ||| 4 := by
    rw [get 2 (by omega), poke_apply, if_pos rfl, hB.hdr 2 (by omega) (by omega) (by omega),
      q2, c2]
  refine ⟨?_, ?_, ?_, ?_, ?_, ?_, ?_, ?_, ?_, ?_, ?_⟩
  · rw [hd 0 (by omega) (by omega) (by omega) (by omega), q0, c0]
  · rw [hd 1 (by omega) (by omega) (by omega) (by omega), q1, c1]
  · rw [h2v, or_and_lit _ 4 0x80, or_and_self]
    rfl
  · rw [h2v, or_and_self]
  · rw [hd 3 (by omega) (by omega) (by omega) (by omega), q3, c3,
      and_and_lit _ 0x7F 15 15 rfl, and_and_lit _ 0xF0 15 0 rfl, Nat.and_zero]
  · rw [hd 4 (by omega) (by omega) (by omega) (by omega), q4]
  · rw [hd 5 (by omega) (by omega) (by omega) (by omega), q5]
  · rw [hd 10 (by omega) (by omega) (by omega) (by omega), q6 10 (by omega) (by omega)]
  · rw [hd 11 (by omega) (by omega) (by omega) (by omega), q6 11 (by omega) (by omega)]
  · rw [hresp, bytes_of_length]; exact hpos
  · intro j h12 hj
    rw [hd j hj (by omega) (by omega) (by omega),
      copy_question_body inbuf _ p.inpos hlen j h12 hj]

/-- C7. For every accepted query, a response is produced whenever `mbox` is
configured, and every response produced has bytes 0..1 equal to the request ID,
QR = 1, AA = 1, RCODE = 0, QDCOUNT = 1, ARCOUNT = 0, is at least as long as the
header and the question, and carries the request bytes from offset 12 through
QTYPE and QCLASS unchanged. -/
theorem accepted_reply_header (opt : dns_opt_t) (time : Nat → Nat) (inbuf : List Nat)
    (out0 : Mem) (p : ParseRes) (h : accepted opt inbuf p) :
    (opt.mbox ≠ none → ∃ resp, (dnshandle opt time inbuf out0).response = some resp) ∧
    ∀ resp, (dnshandle opt time inbuf out0).response = some resp →
      resp.getD 0 0 = inbuf.getD 0 0 ∧ resp.getD 1 0 = inbuf.getD 1 0 ∧
      resp.getD 2 0 &&& 0x80 = 0x80 ∧ resp.getD 2 0 &&& 4 = 4 ∧
      resp.getD 3 0 &&& 15 = 0 ∧
      resp.getD 4 0 = 0 ∧ resp.getD 5 0 = 1 ∧ resp.getD 10 0 = 0 ∧ resp.getD 11 0 = 0 ∧
      p.inpos + 4 ≤ resp.length ∧
      (∀ j, 12 ≤ j → j < p.inpos + 4 → resp.getD j 0 = inbuf.getD j 0) :=
  accepted_fields opt time inbuf out0 p h

/-! ### The scenarios -/

/-- Witness of C2 on scenario S4: QDCOUNT = 2 gives RCODE 4, length 12. -/
theorem dnshandle_header_table_witness :
    (dnshandle zone_s clock0 s4_query zero_mem).rcode_reply 4 :=
  ((dnshandle_header_table zone_s clock0 s4_query zero_mem).2 (by decide)).2.2.2.1
    (by decide) (by decide) (by decide)

set_option maxRecDepth 100000 in
/-- Witness of C7 on scenario S1. -/
theorem accepted_reply_header_witness :
    accepted zone_s s1_query s1_parse ∧
    ∃ resp, (dnshandle zone_s clock0 s1_query zero_mem).response = some resp :=
  ⟨by decide,
   (accepted_reply_header zone_s clock0 s1_query zero_mem s1_parse (by decide)).1 (by decide)⟩

set_option maxRecDepth 100000 in
/-- C1, the failing input. The zone of the scenarios, a callback that returns 32
IPv6 addresses, and an ANY query for `seed1.x.example` (33 bytes): `dnshandle`
returns 513. The fourteenth AAAA record is stored at offset 485: its writer
tests for 6 free bytes after the ten of the record head (16 in all, 27 are
free) and stores 28, so the cursor passes `outbuf + 512`. -/
theorem dnshandle_returns_513 :
    (dnshandle zone_v6 clock0 any_query zero_mem).len = some 513 := by
  decide

/-- C6, the failing input. A 12-byte datagram with QR, TC and RA set is answered
with RCODE 1 and with TC (0x02 of byte 2) and RA (0x80 of byte 3) still set:
the QR and OPCODE exits return before lines 305 and 307 clear them. -/
theorem dnshandle_qr_exit_keeps_tc_ra :
    (dnshandle zone_s clock0 qr_datagram zero_mem).response
      = some [0x12, 0x34, 0x82, 0x81, 0, 0, 0, 0, 0, 0, 0, 0] := by
  decide

/-! ### Reading the records back -/

theorem rdlength_decode (n : Nat) (h : n < 65536) :
    (n >>> 8) % 256 * 256 + (n &&& 0xFF) = n := by
  have h1 : n &&& 0xFF = n % 256 := Nat.and_pow_two_sub_one_eq_mod n 8
  rw [h1, Nat.shiftRight_eq_div_pow]
  have h2 : n / 2 ^ 8 < 256 := by
    rw [Nat.div_lt_iff_lt_mul (by norm_num)]; omega
  rw [Nat.mod_eq_of_lt h2]
  norm_num
  omega

theorem read_record_framed (r rest : List Nat) (h : Framed r) :
    read_record (r ++ rest) = some rest := by
  obtain ⟨hd, rd, hr, hl, hp, hn⟩ := h
  subst hr
  have hlen : (hd ++ (rdlength rd.length ++ rd) ++ rest).length
      = 12 + rd.length + rest.length := by
    simp [rdlength, hl]; omega
  have g0 : (hd ++ (rdlength rd.length ++ rd) ++ rest).getD 0 0 = hd.getD 0 0 := by
    simp only [List.getD_eq_getElem?_getD, List.append_assoc]
    rw [List.getElem?_append_left (by omega)]
  have g10 : (hd ++ (rdlength rd.length ++ rd) ++ rest).getD 10 0
      = (rd.length >>> 8) % 256 := by
    simp only [List.getD_eq_getElem?_getD, List.append_assoc]
    rw [List.getElem?_append_right (by omega), hl]
    simp [rdlength]
  have g11 : (hd ++ (rdlength rd.length ++ rd) ++ rest).getD 11 0
      = rd.length &&& 0xFF := by
    simp only [List.getD_eq_getElem?_getD, List.append_assoc]
    rw [List.getElem?_append_right (by omega), hl]
    simp [rdlength]
  unfold read_record
  rw [if_neg (by rw [hlen]; omega), g0, if_neg (by rw [hp]; simp)]
  simp only [g10, g11, rdlength_decode _ hn]
  rw [if_neg (by rw [hlen]; omega)]
  congr 1
  have : 12 + rd.length = (hd ++ (rdlength rd.length ++ rd)).length := by
    simp [rdlength, hl]; omega
  rw [this, List.drop_left]

theorem read_records_framed (recs : List (List Nat)) (rest : List Nat)
    (h : ∀ r ∈ recs, Framed r) :
    read_records recs.length (recs.flatten ++ rest) = some rest := by
  induction recs with
  | nil => simp [read_records]
  | cons r rs ih =>
    simp only [List.length_cons, List.flatten_cons, List.append_assoc, read_records]
    rw [read_record_framed r _ (h r (by simp))]
    exact ih (fun x hx => h x (by simp [hx]))

theorem framed_of_head (offset : Int) (typ cls : Nat) (ttl : Int) (rd : List Nat)
    (hrd : rd.length < 65536) :
    Framed (rr_head offset typ cls ttl ++ (rdlength rd.length ++ rd)) := by
  refine ⟨_, rd, rfl, rr_head_length _ _ _ _, ?_, hrd⟩
  have : (rr_head offset typ cls ttl).getD 0 0 = ((offset.toNat >>> 8) ||| 0xC0) % 256 := rfl
  rw [this]
  have h1 : ((offset.toNat >>> 8) ||| 0xC0) % 256 = ((offset.toNat >>> 8) ||| 0xC0) &&& 0xFF :=
    (Nat.and_pow_two_sub_one_eq_mod _ 8).symm
  rw [h1, Nat.and_assoc]
  exact or_and_self _ _

theorem framed_a (opt : dns_opt_t) (a : addr_t) :
    Framed (a_record 12 CLASS_IN opt.datattl a) := by
  have e : a_record 12 CLASS_IN opt.datattl a = rr_head 12 TYPE_A CLASS_IN opt.datattl ++
      (rdlength ((List.range 4).map a.byte).length ++ (List.range 4).map a.byte) := by
    simp [a_record, rdlength]
    rfl
  rw [e]
  exact framed_of_head 12 TYPE_A CLASS_IN opt.datattl ((List.range 4).map a.byte) (by simp)

theorem framed_aaaa (opt : dns_opt_t) (a : addr_t) :
    Framed (aaaa_record 12 CLASS_IN opt.datattl a) := by
  have e : aaaa_record 12 CLASS_IN opt.datattl a = rr_head 12 TYPE_AAAA CLASS_IN opt.datattl ++
      (rdlength ((List.range 16).map a.byte).length ++ (List.range 16).map a.byte) := by
    simp [aaaa_record, rdlength]
    rfl
  rw [e]
  exact framed_of_head 12 TYPE_AAAA CLASS_IN opt.datattl ((List.range 16).map a.byte) (by simp)

theorem framed_addr (opt : dns_opt_t) (a : addr_t) : Framed (addr_record opt a) := by
  unfold addr_record
  split_ifs
  · exact framed_a opt a
  · exact framed_aaaa opt a

/-! ### The planned records -/

theorem ns_plan_some {opt : dns_opt_t} {ttl : Int} {p : Nat} {e : Int} {r : List Nat}
    (h : ns_plan opt ttl p e = some r) :
    ∃ rd, name_wire opt.ns = some rd ∧ r = ns_record 12 CLASS_IN ttl rd ∧
      (p : Int) + 12 + rd.length ≤ e ∧ r.length = 12 + rd.length := by
  unfold ns_plan at h
  cases hw : name_wire opt.ns with
  | none => rw [hw] at h; simp at h
  | some rd =>
    rw [hw] at h
    simp only at h
    split_ifs at h with hc
    simp only [Option.some.injEq] at h
    exact ⟨rd, rfl, h.symm, hc, by rw [← h, ns_record_length]⟩

theorem ns_plan_of_fit {opt : dns_opt_t} (ttl : Int) {p : Nat} {e : Int} {rd : List Nat}
    (hw : name_wire opt.ns = some rd) (hc : (p : Int) + 12 + rd.length ≤ e) :
    ns_plan opt ttl p e = some (ns_record 12 CLASS_IN ttl rd) := by
  unfold ns_plan
  rw [hw]
  simp [hc]

theorem soa_plan_some {opt : dns_opt_t} {serial : Nat} {p : Nat} {e : Int} {r : List Nat}
    (h : soa_plan opt serial p e = some r) :
    ∃ rd, soa_wire opt.ns opt.mbox serial 604800 86400 2592000 604800 = some rd ∧
      r = soa_record 12 CLASS_IN opt.nsttl rd ∧
      (p : Int) + 12 + rd.length ≤ e ∧ r.length = 12 + rd.length := by
  unfold soa_plan at h
  cases hw : soa_wire opt.ns opt.mbox serial 604800 86400 2592000 604800 with
  | none => rw [hw] at h; simp at h
  | some rd =>
    rw [hw] at h
    simp only at h
    split_ifs at h with hc
    simp only [Option.some.injEq] at h
    exact ⟨rd, rfl, h.symm, hc, by rw [← h, soa_record_length]⟩

theorem soa_wire_some {mname : List Nat} {rname : Option (List Nat)} {s1 s2 s3 s4 s5 : Nat}
    {rd : List Nat} (h : soa_wire mname rname s1 s2 s3 s4 s5 = some rd) :
    ∃ mn rnm rn, name_wire mname = some mn ∧ rname = some rnm ∧ name_wire rnm = some rn ∧
      rd = soa_rdata mn rn s1 s2 s3 s4 s5 := by
  unfold soa_wire at h
  cases hm : name_wire mname with
  | none => rw [hm] at h; simp at h
  | some mn =>
    cases rname with
    | none => rw [hm] at h; simp at h
    | some rnm =>
      rw [hm] at h
      simp only at h
      cases hr : name_wire rnm with
      | none => rw [hr] at h; simp at h
      | some rn =>
        rw [hr] at h
        simp only [Option.some.injEq] at h
        exact ⟨mn, rnm, rn, rfl, rfl, hr, h.symm⟩

theorem name_wire_pos {name rd : List Nat} (h : name_wire name = some rd) : 1 ≤ rd.length := by
  unfold name_wire at h
  cases hl : name_labels name.length name with
  | none => rw [hl] at h; simp at h
  | some bs =>
    rw [hl] at h
    simp only [Option.some.injEq] at h
    rw [← h]; simp

theorem addr_plan_some {opt : dns_opt_t} {p : Nat} {e : Int} {a : addr_t} {r : List Nat}
    (h : addr_plan opt p e a = some r) :
    r = addr_record opt a ∧ (p : Int) + 16 ≤ e ∧ (a.v = 4 ∨ a.v = 6) ∧ r.length ≤ 28 := by
  unfold addr_plan at h
  split_ifs at h with hc
  simp only [Option.some.injEq] at h
  refine ⟨h.symm, hc.2, hc.1, ?_⟩
  rw [← h]
  unfold addr_record
  split_ifs <;> simp [a_record, aaaa_record, rr_head_length]

theorem addrs_taken_spec (opt : dns_opt_t) (e : Int) :
    ∀ (L : List addr_t) (p : Nat),
      addrs_taken opt e L p ≤ L.length ∧
      ((p : Int) ≤ e + 12 →
        ((p + ((L.take (addrs_taken opt e L p)).map (addr_record opt)).flatten.length : Nat) : Int)
          ≤ e + 12) ∧
      (addrs_taken opt e L p = L.length ∨
        ∃ a, L[addrs_taken opt e L p]? = some a ∧
          addr_plan opt
            (p + ((L.take (addrs_taken opt e L p)).map (addr_record opt)).flatten.length) e a
            = none) := by
  intro L
  induction L with
  | nil => intro p; simp [addrs_taken]
  | cons a rest ih =>
    intro p
    unfold addrs_taken
    cases hpl : addr_plan opt p e a with
    | none =>
      simp only
      refine ⟨by omega, fun h => by simpa using h, Or.inr ⟨a, by simp, by simpa using hpl⟩⟩
    | some r =>
      simp only
      obtain ⟨h1, h2, h3, h4⟩ := addr_plan_some hpl
      obtain ⟨i1, i2, i3⟩ := ih (p + r.length)
      have e1 : p + (List.map (addr_record opt)
          (List.take (addrs_taken opt e rest (p + r.length) + 1) (a :: rest))).flatten.length
          = p + r.length + (List.map (addr_record opt)
            (List.take (addrs_taken opt e rest (p + r.length)) rest)).flatten.length := by
        simp [List.take_succ_cons, h1]; omega
      refine ⟨by simp; omega, fun _ => ?_, ?_⟩
      · rw [e1]
        exact i2 (by push_cast; omega)
      · rcases i3 with i3 | ⟨b, hb1, hb2⟩
        · left; simp [i3]
        · right
          refine ⟨b, by simpa using hb1, ?_⟩
          rw [e1]; exact hb2

theorem framed_ns_plan {opt : dns_opt_t} {ttl : Int} {p : Nat} {e : Int} {r : List Nat}
    (h : ns_plan opt ttl p e = some r) (he : e ≤ 512) : Framed r := by
  obtain ⟨rd, _, h2, h3, _⟩ := ns_plan_some h
  rw [h2]
  exact framed_of_head 12 TYPE_NS CLASS_IN ttl rd (by omega)

theorem framed_soa_plan {opt : dns_opt_t} {serial : Nat} {p : Nat} {e : Int} {r : List Nat}
    (h : soa_plan opt serial p e = some r) (he : e ≤ 512) : Framed r := by
  obtain ⟨rd, _, h2, h3, _⟩ := soa_plan_some h
  rw [h2]
  exact framed_of_head 12 TYPE_SOA CLASS_IN opt.nsttl rd (by omega)

theorem answer_ns_recs_facts (opt : dns_opt_t) (e : Int) (typ cls p : Nat) (he : e ≤ 512) :
    (∀ r ∈ answer_ns_recs opt e typ cls p, Framed r) ∧
    (answer_ns_recs opt e typ cls p).length ≤ 1 ∧
    ((p : Int) ≤ e + 12 →
      ((p + (answer_ns_recs opt e typ cls p).flatten.length : Nat) : Int) ≤ e + 12) := by
  unfold answer_ns_recs
  split_ifs
  · cases hpl : ns_plan opt opt.nsttl p e with
    | none => simp
    | some r =>
      obtain ⟨rd, _, _, h3, h4⟩ := ns_plan_some hpl
      refine ⟨fun x hx => ?_, by simp, fun _ => ?_⟩
      · simp at hx; rw [hx]; exact framed_ns_plan hpl he
      · simp [h4]; omega
  · simp

theorem answer_soa_recs_facts (opt : dns_opt_t) (time : Nat → Nat) (e : Int)
    (typ cls p : Nat) (he : e ≤ 512) :
    (∀ r ∈ answer_soa_recs opt time e typ cls p, Framed r) ∧
    (answer_soa_recs opt time e typ cls p).length ≤ 1 ∧
    ((p : Int) ≤ e + 12 →
      ((p + (answer_soa_recs opt time e typ cls p).flatten.length : Nat) : Int) ≤ e + 12) := by
  unfold answer_soa_recs
  split_ifs
  · cases hpl : soa_plan opt (time 1) p e with
    | none => simp
    | some r =>
      obtain ⟨rd, _, _, h3, h4⟩ := soa_plan_some hpl
      refine ⟨fun x hx => ?_, by simp, fun _ => ?_⟩
      · simp at hx; rw [hx]; exact framed_soa_plan hpl he
      · simp [h4]; omega
  · simp

theorem answer_addr_recs_facts (opt : dns_opt_t) (e : Int) (typ cls : Nat)
    (name : List Nat) (p : Nat) :
    (∀ r ∈ answer_addr_recs opt e typ cls name p, Framed r) ∧
    (answer_addr_recs opt e typ cls name p).length ≤ (cb_addrs opt typ name).length ∧
    ((p : Int) ≤ e + 12 →
      ((p + (answer_addr_recs opt e typ cls name p).flatten.length : Nat) : Int) ≤ e + 12) := by
  unfold answer_addr_recs
  split_ifs
  · obtain ⟨h1, h2, _⟩ := addrs_taken_spec opt e (cb_addrs opt typ name) p
    refine ⟨fun x hx => ?_, ?_, h2⟩
    · obtain ⟨a, _, ha⟩ := List.mem_map.1 hx
      rw [← ha]; exact framed_addr opt a
    · simp
  · simp

theorem answer_recs_facts (opt : dns_opt_t) (time : Nat → Nat) (e : Int)
    (typ cls : Nat) (name : List Nat) (qend : Nat) (he : e ≤ 512) :
    (∀ r ∈ answer_recs opt time e typ cls name qend, Framed r) ∧
    (answer_recs opt time e typ cls name qend).length ≤ 2 + (cb_addrs opt typ name).length ∧
    ((qend : Int) ≤ e + 12 →
      ((qend + (answer_recs opt time e typ cls name qend).flatten.length : Nat) : Int)
        ≤ e + 12) := by
  unfold answer_recs
  simp only
  obtain ⟨a1, a2, a3⟩ := answer_ns_recs_facts opt e typ cls qend he
  generalize answer_ns_recs opt e typ cls qend = r1 at a1 a2 a3 ⊢
  obtain ⟨b1, b2, b3⟩ := answer_soa_recs_facts opt time e typ cls (qend + r1.flatten.length) he
  generalize answer_soa_recs opt time e typ cls (qend + r1.flatten.length) = r2 at b1 b2 b3 ⊢
  obtain ⟨c1, c2, c3⟩ := answer_addr_recs_facts opt e typ cls name
    (qend + r1.flatten.length + r2.flatten.length)
  generalize answer_addr_recs opt e typ cls name
    (qend + r1.flatten.length + r2.flatten.length) = r3 at c1 c2 c3 ⊢
  refine ⟨fun r hr => ?_, by simp; omega, fun hq => ?_⟩
  · simp only [List.mem_append] at hr
    rcases hr with (hr | hr) | hr
    · exact a1 r hr
    · exact b1 r hr
    · exact c1 r hr
  · have := c3 (b3 (a3 hq))
    simp only [List.flatten_append, List.length_append]
    rw [← Nat.add_assoc, ← Nat.add_assoc]
    exact this

theorem authority_recs_facts (opt : dns_opt_t) (time : Nat → Nat) (have_ns ancount p : Nat) :
    (∀ r ∈ authority_recs opt time have_ns ancount p, Framed r) ∧
    (authority_recs opt time have_ns ancount p).length ≤ 1 := by
  unfold authority_recs
  split_ifs
  · cases hpl : ns_plan opt opt.nsttl p BUFLEN with
    | none => simp
    | some r =>
      refine ⟨fun x hx => ?_, by simp⟩
      simp at hx; rw [hx]; exact framed_ns_plan hpl (by simp [BUFLEN])
  · cases hpl : soa_plan opt (time 2) p BUFLEN with
    | none => simp
    | some r =>
      refine ⟨fun x hx => ?_, by simp⟩
      simp at hx; rw [hx]; exact framed_soa_plan hpl (by simp [BUFLEN])
  · simp

theorem plan_size_nonneg (pl : Option (List Nat)) : 0 ≤ plan_size pl := by
  cases pl <;> simp [plan_size]

theorem auth_reserve_nonneg (opt : dns_opt_t) (time : Nat → Nat) (typ cls qend : Nat) :
    0 ≤ auth_reserve opt time typ cls qend := by
  unfold auth_reserve
  split_ifs
  · omega
  · exact plan_size_nonneg _
  · exact plan_size_nonneg _

/-! ### The layout of the response to an accepted query -/

theorem drop_bytes_of (m : Mem) (a n : Nat) : (bytes_of m n).drop a = body_of m a n := by
  apply List.ext_getElem
  · simp [bytes_of, body_of]
  · intro k h1 h2
    simp [bytes_of, body_of]

theorem take_bytes_of (m : Mem) (a n : Nat) (h : a ≤ n) :
    (bytes_of m n).take a = bytes_of m a := by
  apply List.ext_getElem
  · simp [bytes_of]; omega
  · intro k h1 h2
    simp [bytes_of]

theorem accepted_layout (opt : dns_opt_t) (time : Nat → Nat) (inbuf : List Nat)
    (out0 : Mem) (p : ParseRes) (h : accepted opt inbuf p) (resp : List Nat)
    (hr : (dnshandle opt time inbuf out0).response = some resp) :
    ∃ (m2 : Mem) (s s2 : Resp) (an au : List (List Nat)),
      max_auth_size opt time (copy_question inbuf (header_cleared inbuf out0) p.inpos)
        (p.inpos + 4) 12 (qtype inbuf p.inpos) (qclass inbuf p.inpos)
        = some (auth_reserve opt time (qtype inbuf p.inpos) (qclass inbuf p.inpos)
            (p.inpos + 4), m2) ∧
      answer_section opt time
        ((BUFLEN : Int) - auth_reserve opt time (qtype inbuf p.inpos) (qclass inbuf p.inpos)
          (p.inpos + 4))
        12 (qtype inbuf p.inpos) (qclass inbuf p.inpos) (cstr p.buf) ⟨m2, p.inpos + 4, 0⟩
        = some s ∧
      authority_section opt time 12 s = some s2 ∧
      an = answer_recs opt time
          ((BUFLEN : Int) - auth_reserve opt time (qtype inbuf p.inpos) (qclass inbuf p.inpos)
            (p.inpos + 4))
          (qtype inbuf p.inpos) (qclass inbuf p.inpos) (cstr p.buf) (p.inpos + 4) ∧
      au = authority_recs opt time s.have_ns (s.out 7) s.outpos ∧
      s.have_ns = (answer_ns_recs opt
          ((BUFLEN : Int) - auth_reserve opt time (qtype inbuf p.inpos) (qclass inbuf p.inpos)
            (p.inpos + 4))
          (qtype inbuf p.inpos) (qclass inbuf p.inpos) (p.inpos + 4)).length ∧
      s.outpos = p.inpos + 4 + an.flatten.length ∧
      body_of s.out (p.inpos + 4) s.outpos = an.flatten ∧
      s.out 7 = an.length % 256 ∧
      resp.length = p.inpos + 4 + (an ++ au).flatten.length ∧
      resp.drop (p.inpos + 4) = (an ++ au).flatten ∧
      resp.getD 6 0 = 0 ∧ resp.getD 7 0 = an.length % 256 ∧
      resp.getD 8 0 = 0 ∧ resp.getD 9 0 = au.length % 256 ∧
      resp.getD 10 0 = 0 ∧ resp.getD 11 0 = 0 := by
  obtain ⟨m2, s, s2, a1, a2, a3, hresp, hB1, hn, hB2⟩ :=
    accepted_built opt time inbuf out0 p h resp hr
  obtain ⟨_, h13⟩ := accepted_answer opt time inbuf out0 p h
  obtain ⟨q0, q1, q2, q3, q4, q5, q6⟩ :=
    copy_question_low inbuf (header_cleared inbuf out0) p.inpos
  have hpos2 := hB2.pos_eq
  have get : ∀ j, j < s2.outpos → j ≠ 2 → resp.getD j 0 = s2.out j := by
    intro j hj h2
    rw [hresp, bytes_of_getD _ _ _ hj, poke_apply, if_neg h2]
  refine ⟨m2, s, s2, _, _, a1, a2, a3, rfl, rfl, hn, ?_, by simpa using hB1.body,
    hB1.ancount, ?_, ?_,
    ?_, ?_, ?_, ?_, ?_, ?_⟩
  · have := hB1.pos_eq; simpa using this
  · rw [hresp, bytes_of_length]; exact hpos2
  · rw [hresp, drop_bytes_of, ← hB2.body]
    apply body_of_congr
    intro j hj _
    rw [poke_apply, if_neg (by omega)]
  · rw [get 6 (by omega) (by omega), hB2.hdr 6 (by omega) (by omega) (by omega),
      q6 6 (by omega) (by omega)]
  · rw [get 7 (by omega) (by omega), hB2.ancount]
  · rw [get 8 (by omega) (by omega), hB2.hdr 8 (by omega) (by omega) (by omega),
      q6 8 (by omega) (by omega)]
  · rw [get 9 (by omega) (by omega), hB2.nscount]
  · rw [get 10 (by omega) (by omega), hB2.hdr 10 (by omega) (by omega) (by omega),
      q6 10 (by omega) (by omega)]
  · rw [get 11 (by omega) (by omega), hB2.hdr 11 (by omega) (by omega) (by omega),
      q6 11 (by omega) (by omega)]

/-- C10. For every accepted query whose callback returns at most 32 addresses,
the header counts of a response agree with its body: reading ANCOUNT records
from the byte after the question ends at the cursor where the Answer phase
stopped, over exactly the bytes that phase wrote; reading NSCOUNT records from
there ends at the response length; so reading ANCOUNT + NSCOUNT records from the
end of the question consumes the rest of the response; and ARCOUNT is 0. Each
record read is a two-byte owner pointer, ten bytes of TYPE, CLASS, TTL and
RDLENGTH, and RDLENGTH bytes of RDATA. -/
theorem counts_match_records (opt : dns_opt_t) (time : Nat → Nat) (inbuf : List Nat)
    (out0 : Mem) (p : ParseRes) (h : accepted opt inbuf p)
    (hL : (cb_addrs opt (qtype inbuf p.inpos) (cstr p.buf)).length ≤ 32) :
    ∀ resp, (dnshandle opt time inbuf out0).response = some resp →
      ∃ (ma : Int) (m2 : Mem) (s : Resp),
        max_auth_size opt time (copy_question inbuf (header_cleared inbuf out0) p.inpos)
          (p.inpos + 4) 12 (qtype inbuf p.inpos) (qclass inbuf p.inpos) = some (ma, m2) ∧
        answer_section opt time ((BUFLEN : Int) - ma) 12 (qtype inbuf p.inpos)
          (qclass inbuf p.inpos) (cstr p.buf) ⟨m2, p.inpos + 4, 0⟩ = some s ∧
        p.inpos + 4 ≤ s.outpos ∧ s.outpos ≤ resp.length ∧
        (resp.take s.outpos).drop (p.inpos + 4) = body_of s.out (p.inpos + 4) s.outpos ∧
        read_records (resp.getD 6 0 * 256 + resp.getD 7 0) (resp.drop (p.inpos + 4))
          = some (resp.drop s.outpos) ∧
        read_records (resp.getD 8 0 * 256 + resp.getD 9 0) (resp.drop s.outpos) = some [] ∧
        read_records (resp.getD 6 0 * 256 + resp.getD 7 0 +
          (resp.getD 8 0 * 256 + resp.getD 9 0)) (resp.drop (p.inpos + 4)) = some [] ∧
        resp.getD 10 0 = 0 ∧ resp.getD 11 0 = 0 := by
  intro resp hr
  obtain ⟨m2, s, s2, an, au, a1, a2, a3, han, hau, hn, hpos, hbody, h7, hlen, hdrop,
    g6, g7, g8, g9, g10, g11⟩ := accepted_layout opt time inbuf out0 p h resp hr
  have he : (BUFLEN : Int) - auth_reserve opt time (qtype inbuf p.inpos)
      (qclass inbuf p.inpos) (p.inpos + 4) ≤ 512 := by
    have := auth_reserve_nonneg opt time (qtype inbuf p.inpos) (qclass inbuf p.inpos)
      (p.inpos + 4)
    simp only [BUFLEN]; omega
  obtain ⟨f1, f2, _⟩ := answer_recs_facts opt time _ (qtype inbuf p.inpos)
    (qclass inbuf p.inpos) (cstr p.buf) (p.inpos + 4) he
  rw [← han] at f1 f2
  obtain ⟨k1, k2⟩ := authority_recs_facts opt time s.have_ns (s.out 7) s.outpos
  rw [← hau] at k1 k2
  have hdrop2 : resp.drop s.outpos = au.flatten := by
    have : resp.drop s.outpos = (resp.drop (p.inpos + 4)).drop an.flatten.length := by
      rw [List.drop_drop, hpos]
    rw [this, hdrop, List.flatten_append, List.drop_left]
  have han_len : an.length % 256 = an.length := Nat.mod_eq_of_lt (by omega)
  have hau_len : au.length % 256 = au.length := Nat.mod_eq_of_lt (by omega)
  refine ⟨_, m2, s, a1, a2, by omega, by rw [hlen, hpos]; simp, ?_, ?_, ?_, ?_, g10, g11⟩
  · rw [hbody]
    have : resp.take s.outpos = resp.take (p.inpos + 4) ++ an.flatten := by
      have e1 : resp = resp.take (p.inpos + 4) ++ (an ++ au).flatten := by
        rw [← hdrop, List.take_append_drop]
      have e2 : (resp.take (p.inpos + 4)).length = p.inpos + 4 := by
        rw [List.length_take]; omega
      conv_lhs => rw [e1]
      rw [List.take_append_eq_append_take, e2, hpos, List.flatten_append]
      simp [List.take_of_length_le (show (resp.take (p.inpos + 4)).length ≤
        p.inpos + 4 + an.flatten.length by omega)]
    rw [this, List.drop_append_eq_append_drop, List.length_take,
      Nat.min_eq_left (by omega), Nat.sub_self, List.drop_zero,
      List.drop_eq_nil_of_le (by simp), List.nil_append]
  · rw [g6, g7, han_len, hdrop, hdrop2, List.flatten_append]
    simpa using read_records_framed an au.flatten f1
  · rw [g8, g9, hau_len, hdrop2]
    simpa using read_records_framed au [] k1
  · rw [g6, g7, g8, g9, han_len, hau_len, hdrop]
    have := read_records_framed (an ++ au) [] (fun r hr => by
      rcases List.mem_append.1 hr with hr | hr
      · exact f1 r hr
      · exact k1 r hr)
    simpa using this

theorem addrs_taken_family (opt : dns_opt_t) (e : Int) :
    ∀ (L : List addr_t) (p : Nat), ∀ a ∈ L.take (addrs_taken opt e L p), a.v = 4 ∨ a.v = 6 := by
  intro L
  induction L with
  | nil => intro p a ha; simp at ha
  | cons b rest ih =>
    intro p a ha
    unfold addrs_taken at ha
    cases hpl : addr_plan opt p e b with
    | none => rw [hpl] at ha; simp at ha
    | some r =>
      rw [hpl] at ha
      simp only [List.take_succ_cons, List.mem_cons] at ha
      rcases ha with ha | ha
      · rw [ha]; exact (addr_plan_some hpl).2.2.1
      · exact ih _ a ha

theorem write_addr_fails (opt : dns_opt_t) (e : Int) (p : Nat) (a : addr_t)
    (h : addr_plan opt p e a = none) (m : Mem) : (write_addr opt e 12 m p a).ret ≠ 0 := by
  have := write_addr_plan opt m p e a
  rw [h] at this
  exact this.2.1

/-- C9. For every accepted query whose callback returns the list `L` of at most
32 addresses, the Answer section of a response is at most one NS record, at
most one SOA record, and then the records of the first `k` entries of `L`, in
order: an A record with the four octets for an entry with `v = 4`, an AAAA
record with the sixteen octets for an entry with `v = 6`, each with class IN and
TTL `datattl`. Either `k` is the length of `L` or the writer for `L[k]` fails at
the cursor where the Answer section ends; the records are part of the response
returned; ANCOUNT is `k` plus the number of NS and SOA records; and when QTYPE
or QCLASS does not ask for addresses `k = 0`. -/
theorem answer_addresses (opt : dns_opt_t) (time : Nat → Nat) (inbuf : List Nat)
    (out0 : Mem) (p : ParseRes) (h : accepted opt inbuf p)
    (hL : (cb_addrs opt (qtype inbuf p.inpos) (cstr p.buf)).length ≤ 32) :
    ∀ resp, (dnshandle opt time inbuf out0).response = some resp →
      ∃ (ma : Int) (m2 : Mem) (ns_recs soa_recs : List (List Nat)) (k : Nat),
        max_auth_size opt time (copy_question inbuf (header_cleared inbuf out0) p.inpos)
          (p.inpos + 4) 12 (qtype inbuf p.inpos) (qclass inbuf p.inpos) = some (ma, m2) ∧
        ns_recs.length ≤ 1 ∧
        (∀ r ∈ ns_recs, ∃ rd, r = ns_record 12 CLASS_IN opt.nsttl rd) ∧
        soa_recs.length ≤ 1 ∧
        (∀ r ∈ soa_recs, ∃ rd, r = soa_record 12 CLASS_IN opt.nsttl rd) ∧
        k ≤ (cb_addrs opt (qtype inbuf p.inpos) (cstr p.buf)).length ∧
        (∀ a ∈ (cb_addrs opt (qtype inbuf p.inpos) (cstr p.buf)).take k, a.v = 4 ∨ a.v = 6) ∧
        (wants_addr (qtype inbuf p.inpos) (qclass inbuf p.inpos) = false → k = 0) ∧
        p.inpos + 4 + (ns_recs ++ soa_recs ++
            ((cb_addrs opt (qtype inbuf p.inpos) (cstr p.buf)).take k).map
              (addr_record opt)).flatten.length ≤ resp.length ∧
        (resp.drop (p.inpos + 4)).take (ns_recs ++ soa_recs ++
            ((cb_addrs opt (qtype inbuf p.inpos) (cstr p.buf)).take k).map
              (addr_record opt)).flatten.length
          = (ns_recs ++ soa_recs ++
              ((cb_addrs opt (qtype inbuf p.inpos) (cstr p.buf)).take k).map
                (addr_record opt)).flatten ∧
        resp.getD 6 0 * 256 + resp.getD 7 0 = k + ns_recs.length + soa_recs.length ∧
        (wants_addr (qtype inbuf p.inpos) (qclass inbuf p.inpos) = true →
          k = (cb_addrs opt (qtype inbuf p.inpos) (cstr p.buf)).length ∨
          ∃ a, (cb_addrs opt (qtype inbuf p.inpos) (cstr p.buf))[k]? = some a ∧
            ∀ m, (write_addr opt ((BUFLEN : Int) - ma) 12 m
              (p.inpos + 4 + (ns_recs ++ soa_recs ++
                ((cb_addrs opt (qtype inbuf p.inpos) (cstr p.buf)).take k).map
                  (addr_record opt)).flatten.length) a).ret ≠ 0) := by
  intro resp hr
  obtain ⟨m2, s, s2, an, au, a1, a2, a3, han, hau, hn, hpos, hbody, h7, hlen, hdrop,
    g6, g7, g8, g9, g10, g11⟩ := accepted_layout opt time inbuf out0 p h resp hr
  have he : (BUFLEN : Int) - auth_reserve opt time (qtype inbuf p.inpos)
      (qclass inbuf p.inpos) (p.inpos + 4) ≤ 512 := by
    have := auth_reserve_nonneg opt time (qtype inbuf p.inpos) (qclass inbuf p.inpos)
      (p.inpos + 4)
    simp only [BUFLEN]; omega
  generalize hE : (BUFLEN : Int) - auth_reserve opt time (qtype inbuf p.inpos)
      (qclass inbuf p.inpos) (p.inpos + 4) = e at han he a2 hn
  generalize hT : qtype inbuf p.inpos = typ at *
  generalize hC : qclass inbuf p.inpos = cls at *
  generalize hN : cstr p.buf = name at *
  generalize hQ : p.inpos + 4 = qend at *
  obtain ⟨n1, n2, _⟩ := answer_ns_recs_facts opt e typ cls qend he
  obtain ⟨o1, o2, _⟩ := answer_soa_recs_facts opt time e typ cls
    (qend + (answer_ns_recs opt e typ cls qend).flatten.length) he
  obtain ⟨f1, f2, _⟩ := answer_recs_facts opt time e typ cls name qend he
  rw [← han] at f2
  have han_len : an.length % 256 = an.length := Nat.mod_eq_of_lt (by omega)
  have hns_rec : ∀ r ∈ answer_ns_recs opt e typ cls qend,
      ∃ rd, r = ns_record 12 CLASS_IN opt.nsttl rd := by
    intro r hr
    unfold answer_ns_recs at hr
    split_ifs at hr
    · rw [Option.mem_toList] at hr
      obtain ⟨rd, _, h2, _⟩ := ns_plan_some hr
      exact ⟨rd, h2⟩
    · simp at hr
  have hsoa_rec : ∀ r ∈ answer_soa_recs opt time e typ cls
      (qend + (answer_ns_recs opt e typ cls qend).flatten.length),
      ∃ rd, r = soa_record 12 CLASS_IN opt.nsttl rd := by
    intro r hr
    unfold answer_soa_recs at hr
    split_ifs at hr
    · rw [Option.mem_toList] at hr
      obtain ⟨rd, _, h2, _⟩ := soa_plan_some hr
      exact ⟨rd, h2⟩
    · simp at hr
  have han2 : an = answer_ns_recs opt e typ cls qend ++
      answer_soa_recs opt time e typ cls
        (qend + (answer_ns_recs opt e typ cls qend).flatten.length) ++
      answer_addr_recs opt e typ cls name
        (qend + (answer_ns_recs opt e typ cls qend).flatten.length +
          (answer_soa_recs opt time e typ cls
            (qend + (answer_ns_recs opt e typ cls qend).flatten.length)).flatten.length) := by
    rw [han]; rfl
  generalize answer_ns_recs opt e typ cls qend = r1 at *
  generalize answer_soa_recs opt time e typ cls (qend + r1.flatten.length) = r2 at *
  have hlen_an : qend + an.flatten.length ≤ resp.length := by
    rw [hlen]; simp
  have htake : (resp.drop qend).take an.flatten.length = an.flatten := by
    rw [hdrop, List.flatten_append, List.take_left]
  have hcount : resp.getD 6 0 * 256 + resp.getD 7 0 = an.length := by
    rw [g6, g7, han_len]; omega
  by_cases hw : wants_addr typ cls = true
  · obtain ⟨t1, _, t3⟩ := addrs_taken_spec opt e (cb_addrs opt typ name)
      (qend + r1.flatten.length + r2.flatten.length)
    have tf := addrs_taken_family opt e (cb_addrs opt typ name)
      (qend + r1.flatten.length + r2.flatten.length)
    have hr3 : answer_addr_recs opt e typ cls name
        (qend + r1.flatten.length + r2.flatten.length)
        = ((cb_addrs opt typ name).take (addrs_taken opt e (cb_addrs opt typ name)
            (qend + r1.flatten.length + r2.flatten.length))).map (addr_record opt) := by
      unfold answer_addr_recs; rw [if_pos hw]
    rw [hr3] at han2
    generalize addrs_taken opt e (cb_addrs opt typ name)
      (qend + r1.flatten.length + r2.flatten.length) = k at *
    refine ⟨_, m2, r1, r2, k, a1, n2, hns_rec, o2, hsoa_rec, t1, tf,
      fun hf => by rw [hw] at hf; simp at hf, ?_, ?_, ?_, fun _ => ?_⟩
    · rw [← han2]; exact hlen_an
    · rw [← han2]; exact htake
    · rw [hcount, han2]; simp; omega
    · rcases t3 with t3 | ⟨a, ha1, ha2⟩
      · exact Or.inl t3
      · refine Or.inr ⟨a, ha1, fun m => ?_⟩
        rw [hE]
        apply write_addr_fails
        have e9 : qend + (r1 ++ r2 ++ List.map (addr_record opt)
            (List.take k (cb_addrs opt typ name))).flatten.length
            = qend + r1.flatten.length + r2.flatten.length +
              (List.map (addr_record opt) (List.take k (cb_addrs opt typ name))).flatten.length := by
          simp; omega
        rw [e9]; exact ha2
  · have hw2 : wants_addr typ cls = false := by simpa using hw
    have hr3 : answer_addr_recs opt e typ cls name
        (qend + r1.flatten.length + r2.flatten.length) = [] := by
      unfold answer_addr_recs; rw [if_neg hw]
    rw [hr3] at han2
    refine ⟨_, m2, r1, r2, 0, a1, n2, hns_rec, o2, hsoa_rec, by omega,
      fun a ha => by simp at ha, fun _ => rfl, ?_, ?_, ?_, fun hf => by rw [hw2] at hf; simp at hf⟩
    · simp only [List.take_zero, List.map_nil]
      rw [← han2]; exact hlen_an
    · simp only [List.take_zero, List.map_nil]
      rw [← han2]; exact htake
    · rw [hcount, han2]; simp

theorem soa_wire_serial {mname : List Nat} {rname : Option (List Nat)}
    {s1 s2 s3 s4 s5 : Nat} {rd : List Nat}
    (h : soa_wire mname rname s1 s2 s3 s4 s5 = some rd) (t : Nat) :
    ∃ mn rn, name_wire mname = some mn ∧ rd.length = mn.length + rn.length + 20 ∧
      soa_wire mname rname t s2 s3 s4 s5 = some (soa_rdata mn rn t s2 s3 s4 s5) ∧
      (soa_rdata mn rn t s2 s3 s4 s5).length = rd.length := by
  obtain ⟨mn, rnm, rn, h1, h2, h3, h4⟩ := soa_wire_some h
  refine ⟨mn, rn, h1, by rw [h4, soa_rdata_length], ?_, by rw [h4, soa_rdata_length,
    soa_rdata_length]⟩
  subst h2
  simp [soa_wire, h1, h3]

/-- C8. For every accepted query whose callback returns at most 32 addresses,
if an NS record and an SOA record each fit between the end of the question and
`outbuf + 512` (both trial writes return 0), a response is produced and the
bytes after the Answer section are: exactly one SOA record, with NSCOUNT = 1,
when ANCOUNT = 0; exactly one NS record, with NSCOUNT = 1, when ANCOUNT > 0 and
`have_ns` is 0; nothing, with NSCOUNT = 0, when `have_ns` is set, in which case
ANCOUNT > 0. The space reserved by `max_auth_size` suffices for the Authority
record whatever the Answer section holds. -/
theorem authority_policy (opt : dns_opt_t) (time : Nat → Nat) (inbuf : List Nat)
    (out0 : Mem) (p : ParseRes) (h : accepted opt inbuf p)
    (hL : (cb_addrs opt (qtype inbuf p.inpos) (cstr p.buf)).length ≤ 32)
    (hns : (write_record_ns (copy_question inbuf (header_cleared inbuf out0) p.inpos)
      (p.inpos + 4) BUFLEN [] 12 CLASS_IN 0 opt.ns).ret = 0)
    (hsoa : (write_record_soa (copy_question inbuf (header_cleared inbuf out0) p.inpos)
      (p.inpos + 4) BUFLEN [] 12 CLASS_IN opt.nsttl opt.ns opt.mbox (time 0)
      604800 86400 2592000 604800).map (fun w => w.ret) = some 0) :
    ∃ (resp : List Nat) (ma : Int) (m2 : Mem) (s : Resp),
      (dnshandle opt time inbuf out0).response = some resp ∧
      max_auth_size opt time (copy_question inbuf (header_cleared inbuf out0) p.inpos)
        (p.inpos + 4) 12 (qtype inbuf p.inpos) (qclass inbuf p.inpos) = some (ma, m2) ∧
      answer_section opt time ((BUFLEN : Int) - ma) 12 (qtype inbuf p.inpos)
        (qclass inbuf p.inpos) (cstr p.buf) ⟨m2, p.inpos + 4, 0⟩ = some s ∧
      s.outpos ≤ resp.length ∧
      (resp.getD 6 0 * 256 + resp.getD 7 0 = 0 →
        resp.getD 8 0 * 256 + resp.getD 9 0 = 1 ∧
        ∃ rd, soa_wire opt.ns opt.mbox (time 2) 604800 86400 2592000 604800 = some rd ∧
          resp.drop s.outpos = soa_record 12 CLASS_IN opt.nsttl rd) ∧
      (0 < resp.getD 6 0 * 256 + resp.getD 7 0 → s.have_ns = 0 →
        resp.getD 8 0 * 256 + resp.getD 9 0 = 1 ∧
        ∃ rd, name_wire opt.ns = some rd ∧
          resp.drop s.outpos = ns_record 12 CLASS_IN opt.nsttl rd) ∧
      (s.have_ns ≠ 0 →
        0 < resp.getD 6 0 * 256 + resp.getD 7 0 ∧
        resp.getD 8 0 * 256 + resp.getD 9 0 = 0 ∧ resp.drop s.outpos = []) := by
  -- what the two trial writes say about the names
  have pns := write_record_ns_plan opt
    (copy_question inbuf (header_cleared inbuf out0) p.inpos) (p.inpos + 4) BUFLEN 0
  obtain ⟨r0, hr0⟩ := Option.isSome_iff_exists.1 (pns.ret_iff_some.1 hns)
  obtain ⟨nrd, hnw, _, hnfit, _⟩ := ns_plan_some hr0
  obtain ⟨w, hw, hwret⟩ : ∃ w, write_record_soa
      (copy_question inbuf (header_cleared inbuf out0) p.inpos)
      (p.inpos + 4) BUFLEN [] 12 CLASS_IN opt.nsttl opt.ns opt.mbox (time 0)
      604800 86400 2592000 604800 = some w ∧ w.ret = 0 := by
    cases hx : write_record_soa (copy_question inbuf (header_cleared inbuf out0) p.inpos)
        (p.inpos + 4) BUFLEN [] 12 CLASS_IN opt.nsttl opt.ns opt.mbox (time 0)
        604800 86400 2592000 604800 with
    | none => rw [hx] at hsoa; simp at hsoa
    | some w => rw [hx] at hsoa; exact ⟨w, rfl, by simpa using hsoa⟩
  have psoa := write_record_soa_plan opt _ _ _ _ w hw
  obtain ⟨q0, hq0⟩ := Option.isSome_iff_exists.1 (psoa.ret_iff_some.1 hwret)
  obtain ⟨srd, hsw, _, hsfit, hq0len⟩ := soa_plan_some hq0
  obtain ⟨mn, rnm, rn, hs1, hs2, hs3, hs4⟩ := soa_wire_some hsw
  have hmn : mn = nrd := by rw [hnw] at hs1; simpa using hs1.symm
  subst hmn
  have hsl : srd.length = mn.length + rn.length + 20 := by rw [hs4, soa_rdata_length]
  have hm : opt.mbox ≠ none := by rw [hs2]; simp
  obtain ⟨resp, hr⟩ := accepted_responds opt time inbuf out0 p h hm
  obtain ⟨m2, s, s2, an, au, a1, a2, a3, han, hau, hn, hpos, hbody, h7, hlen, hdrop,
    g6, g7, g8, g9, g10, g11⟩ := accepted_layout opt time inbuf out0 p h resp hr
  have he : (BUFLEN : Int) - auth_reserve opt time (qtype inbuf p.inpos)
      (qclass inbuf p.inpos) (p.inpos + 4) ≤ 512 := by
    have := auth_reserve_nonneg opt time (qtype inbuf p.inpos) (qclass inbuf p.inpos)
      (p.inpos + 4)
    simp only [BUFLEN]; omega
  obtain ⟨f1, f2, f3⟩ := answer_recs_facts opt time _ (qtype inbuf p.inpos)
    (qclass inbuf p.inpos) (cstr p.buf) (p.inpos + 4) he
  rw [← han] at f1 f2 f3
  have han_len : an.length % 256 = an.length := Nat.mod_eq_of_lt (by omega)
  obtain ⟨k1, k2⟩ := authority_recs_facts opt time s.have_ns (s.out 7) s.outpos
  rw [← hau] at k1 k2
  have hau_len : au.length % 256 = au.length := Nat.mod_eq_of_lt (by omega)
  have hdrop2 : resp.drop s.outpos = au.flatten := by
    have : resp.drop s.outpos = (resp.drop (p.inpos + 4)).drop an.flatten.length := by
      rw [List.drop_drop, hpos]
    rw [this, hdrop, List.flatten_append, List.drop_left]
  have hAN : resp.getD 6 0 * 256 + resp.getD 7 0 = an.length := by
    rw [g6, g7, han_len]; omega
  have hNS : resp.getD 8 0 * 256 + resp.getD 9 0 = au.length := by
    rw [g8, g9, hau_len]; omega
  rw [han_len] at h7
  refine ⟨resp, _, m2, s, hr, a1, a2, by rw [hlen, hpos]; simp, ?_⟩
  rw [hAN, hNS, hdrop2]
  by_cases hwn : wants_ns (qtype inbuf p.inpos) (qclass inbuf p.inpos) = true
  · -- the NS record is in the Answer section
    have hres : auth_reserve opt time (qtype inbuf p.inpos) (qclass inbuf p.inpos)
        (p.inpos + 4) = 0 := by unfold auth_reserve; rw [if_pos hwn]
    have hnr : answer_ns_recs opt ((BUFLEN : Int) - auth_reserve opt time
        (qtype inbuf p.inpos) (qclass inbuf p.inpos) (p.inpos + 4))
        (qtype inbuf p.inpos) (qclass inbuf p.inpos) (p.inpos + 4)
        = [ns_record 12 CLASS_IN opt.nsttl mn] := by
      unfold answer_ns_recs
      rw [if_pos hwn, hres, ns_plan_of_fit opt.nsttl hnw (by simpa using hnfit)]
      rfl
    have hhave : s.have_ns = 1 := by rw [hn, hnr]; rfl
    have hanpos : 0 < an.length := by
      rw [han]; unfold answer_recs; simp only; rw [hnr]; simp
    have hau0 : au = [] := by
      rw [hau]; unfold authority_recs
      rw [if_neg (by omega), if_neg (by omega)]
    refine ⟨fun h0 => by omega, fun _ h0 => by omega, fun _ => ⟨hanpos, ?_, ?_⟩⟩
    · rw [hau0]; rfl
    · rw [hau0]; rfl
  · -- the Authority section carries the NS or the SOA record
    have hwn2 : wants_ns (qtype inbuf p.inpos) (qclass inbuf p.inpos) = false := by
      simpa using hwn
    have hnr : answer_ns_recs opt ((BUFLEN : Int) - auth_reserve opt time
        (qtype inbuf p.inpos) (qclass inbuf p.inpos) (p.inpos + 4))
        (qtype inbuf p.inpos) (qclass inbuf p.inpos) (p.inpos + 4) = [] := by
      unfold answer_ns_recs; rw [if_neg hwn]
    have hhave : s.have_ns = 0 := by rw [hn, hnr]; rfl
    have hres : auth_reserve opt time (qtype inbuf p.inpos) (qclass inbuf p.inpos)
        (p.inpos + 4) = 12 + (srd.length : Int) := by
      unfold auth_reserve
      rw [if_neg hwn, hr0, hq0]
      have e1 : plan_size (some r0) = 12 + (mn.length : Int) := by
        obtain ⟨rd2, hw2, _, _, hl2⟩ := ns_plan_some hr0
        rw [hnw] at hw2
        simp only [Option.some.injEq] at hw2
        subst hw2
        simp [plan_size, hl2]
      have e2 : plan_size (some q0) = 12 + (srd.length : Int) := by
        simp [plan_size, hq0len]
      rw [e1, e2, if_pos (by rw [hsl]; push_cast; omega)]
    have hbound : ((s.outpos : Nat) : Int) ≤ 512 - (srd.length : Int) := by
      have := f3 (by rw [hres]; simp only [BUFLEN] at hsfit ⊢; push_cast at hsfit ⊢; omega)
      rw [hres] at this
      rw [hpos]
      simp only [BUFLEN] at this
      push_cast at this ⊢
      omega
    refine ⟨fun h0 => ?_, fun h0 _ => ?_, fun h0 => absurd hhave h0⟩
    · have han0 : an = [] := List.length_eq_zero.1 h0
      have hs0 : s.outpos = p.inpos + 4 := by rw [hpos, han0]; simp
      obtain ⟨mn2, rn2, y1, y2, y3, y4⟩ := soa_wire_serial hsw (time 2)
      have hplan : soa_plan opt (time 2) s.outpos BUFLEN
          = some (soa_record 12 CLASS_IN opt.nsttl
              (soa_rdata mn2 rn2 (time 2) 604800 86400 2592000 604800)) := by
        unfold soa_plan
        rw [y3]
        simp only
        rw [if_pos (by rw [y4, hs0]; exact hsfit)]
      have hau1 : au = [soa_record 12 CLASS_IN opt.nsttl
          (soa_rdata mn2 rn2 (time 2) 604800 86400 2592000 604800)] := by
        rw [hau]; unfold authority_recs
        rw [if_neg (by rw [h7, h0]; simp), if_pos (by rw [h7, h0]), hplan]
        rfl
      rw [hau1]
      exact ⟨rfl, _, y3, by simp⟩
    · have hplan : ns_plan opt opt.nsttl s.outpos BUFLEN
          = some (ns_record 12 CLASS_IN opt.nsttl mn) :=
        ns_plan_of_fit opt.nsttl hnw (by
          simp only [BUFLEN]; rw [hsl] at hbound; push_cast at hbound ⊢; omega)
      have hau1 : au = [ns_record 12 CLASS_IN opt.nsttl mn] := by
        rw [hau]; unfold authority_recs
        rw [if_pos ⟨hhave, by rw [h7]; omega⟩, hplan]
        rfl
      rw [hau1]
      exact ⟨rfl, _, hnw, by simp⟩

set_option maxRecDepth 100000 in
/-- Scenario S1 on the model: the response to the A query for the apex. -/
theorem s1_reply : (dnshandle zone_s clock0 s1_query zero_mem).response = some s1_response := by
  decide

set_option maxRecDepth 100000 in
/-- Witness of C8 on scenario S1: both records fit after the question, and a
response is produced. -/
theorem authority_policy_witness :
    ∃ (resp : List Nat), (dnshandle zone_s clock0 s1_query zero_mem).response = some resp :=
  (authority_policy zone_s clock0 s1_query zero_mem s1_parse (by decide) (by decide)
    (by decide) (by decide)).imp (fun _ hx => hx.choose_spec.choose_spec.choose_spec.1)

set_option maxRecDepth 100000 in
/-- Witness of C9 on scenario S1: ANCOUNT counts the address records and the
NS and SOA records of the Answer section. -/
theorem answer_addresses_witness :
    ∃ (ns_recs soa_recs : List (List Nat)) (k : Nat),
      s1_response.getD 6 0 * 256 + s1_response.getD 7 0 = k + ns_recs.length + soa_recs.length :=
  (answer_addresses zone_s clock0 s1_query zero_mem s1_parse (by decide) (by decide)
    s1_response (by decide)).elim
    (fun _ h1 => h1.elim (fun _ h2 => h2.elim (fun ns_recs h3 => h3.elim (fun soa_recs h4 =>
      h4.elim (fun k h5 => ⟨ns_recs, soa_recs, k, h5.2.2.2.2.2.2.2.2.2.2.1⟩)))))

set_option maxRecDepth 100000 in
/-- Witness of C10 on scenario S1: reading ANCOUNT + NSCOUNT records after the
question consumes the response. -/
theorem counts_match_records_witness :
    read_records (s1_response.getD 6 0 * 256 + s1_response.getD 7 0 +
      (s1_response.getD 8 0 * 256 + s1_response.getD 9 0))
      (s1_response.drop (s1_parse.inpos + 4)) = some [] :=
  (counts_match_records zone_s clock0 s1_query zero_mem s1_parse (by decide) (by decide)
    s1_response (by decide)).elim
    (fun _ h1 => h1.elim (fun _ h2 => h2.elim (fun _ h3 => h3.2.2.2.2.2.2.2.1)))

/-! ### The early exits -/

theorem set_error_fields (m : Mem) (r : Nat) (hr : r < 16) (h3 : m 3 &&& 15 = 0) :
    (set_error m r).len = some 12 ∧
    ∃ resp, (set_error m r).response = some resp ∧ resp.length = 12 ∧
      resp.getD 3 0 &&& 15 = r ∧ (∀ i, 4 ≤ i → i < 12 → resp.getD i 0 = 0) ∧
      resp.getD 0 0 = m 0 ∧ resp.getD 1 0 = m 1 ∧ resp.getD 2 0 = m 2 := by
  obtain ⟨hl, resp, h1, h2, h4, h5⟩ := set_error_reply m r hr h3
  refine ⟨hl, resp, h1, h2, h4, h5, ?_⟩
  have hresp : resp = bytes_of (put_bytes (poke m 3 (m 3 ||| (r &&& 0xF))) 4
      [0, 0, 0, 0, 0, 0, 0, 0]) 12 := by
    have : (set_error m r).response = some (bytes_of (put_bytes (poke m 3 (m 3 ||| (r &&& 0xF))) 4
      [0, 0, 0, 0, 0, 0, 0, 0]) 12) := rfl
    rw [h1] at this
    simpa using this
  rw [hresp]
  refine ⟨?_, ?_, ?_⟩
  · rw [bytes_of_getD _ _ _ (by omega), put_bytes_below _ _ _ _ (by omega), poke_apply,
      if_neg (by omega)]
  · rw [bytes_of_getD _ _ _ (by omega), put_bytes_below _ _ _ _ (by omega), poke_apply,
      if_neg (by omega)]
  · rw [bytes_of_getD _ _ _ (by omega), put_bytes_below _ _ _ _ (by omega), poke_apply,
      if_neg (by omega)]

theorem dnshandle_early (opt : dns_opt_t) (time : Nat → Nat) (inbuf : List Nat)
    (out0 : Mem) (h12 : 12 ≤ inbuf.length) (r : Nat) (h : early_exit opt inbuf = some r) :
    r < 16 ∧ ∃ m, dnshandle opt time inbuf out0 = set_error m r ∧ m 3 &&& 15 = 0 ∧
      m 0 = inbuf.getD 0 0 ∧ m 1 = inbuf.getD 1 0 ∧
      (m 2 = inbuf.getD 2 0 ∨ m 2 = inbuf.getD 2 0 &&& 0xFD) := by
  obtain ⟨c0, c1, c2, _⟩ := header_copied_val inbuf out0
  obtain ⟨d0, d1, d2, _⟩ := header_cleared_val inbuf out0
  unfold early_exit at h
  by_cases hqr : qr_bit inbuf = 0
  · by_cases hop : opcode inbuf = 0
    · simp only [hqr, hop, ne_eq, not_true_eq_false, if_false] at h
      rw [dnshandle_checked opt time inbuf out0 h12 hqr hop]
      by_cases hq0 : qdcount inbuf = 0
      · simp only [hq0, if_true, Option.some.injEq] at h ⊢
        subst h
        exact ⟨by omega, _, rfl, header_cleared_3 inbuf out0, d0, d1, Or.inr d2⟩
      · by_cases hq1 : qdcount inbuf > 1
        · simp only [hq0, hq1, if_true, if_false, Option.some.injEq] at h ⊢
          subst h
          exact ⟨by omega, _, rfl, header_cleared_3 inbuf out0, d0, d1, Or.inr d2⟩
        · simp only [hq0, hq1, if_false] at h ⊢
          unfold dns_question
          cases hp : parse_name inbuf 12 inbuf.length 256 with
          | none => rw [hp] at h; simp at h
          | some p =>
            rw [hp] at h
            simp only [hp] at h ⊢
            have done : ∀ c, c < 16 → c = r →
                c < 16 ∧ ∃ m, set_error (header_cleared inbuf out0) c = set_error m c ∧
                  m 3 &&& 15 = 0 ∧ m 0 = inbuf.getD 0 0 ∧ m 1 = inbuf.getD 1 0 ∧
                  (m 2 = inbuf.getD 2 0 ∨ m 2 = inbuf.getD 2 0 &&& 0xFD) :=
              fun c hc _ => ⟨hc, _, rfl, header_cleared_3 inbuf out0, d0, d1, Or.inr d2⟩
            by_cases r1 : p.ret = -1
            · rw [if_pos r1] at h ⊢
              simp only [Option.some.injEq] at h
              subst h; exact done 1 (by omega) rfl
            · by_cases r2 : p.ret = -2
              · rw [if_neg r1, if_pos r2] at h ⊢
                simp only [Option.some.injEq] at h
                subst h; exact done 5 (by omega) rfl
              · by_cases r3 : out_of_zone (cstr p.buf) opt.host = true
                · rw [if_neg r1, if_neg r2, if_pos r3] at h ⊢
                  simp only [Option.some.injEq] at h
                  subst h; exact done 5 (by omega) rfl
                · by_cases r4 : (inbuf.length : Int) - (p.inpos : Int) < 4
                  · rw [if_neg r1, if_neg r2, if_neg r3, if_pos r4] at h ⊢
                    simp only [Option.some.injEq] at h
                    subst h; exact done 1 (by omega) rfl
                  · rw [if_neg r1, if_neg r2, if_neg r3, if_neg r4] at h
                    simp at h
    · simp only [hqr, hop, ne_eq, not_true_eq_false, not_false_eq_true, if_true, if_false,
        Option.some.injEq] at h
      subst h
      exact ⟨by omega, _, dnshandle_opcode opt time inbuf out0 h12 hqr hop,
        header_copied_3 inbuf out0, c0, c1, Or.inl c2⟩
  · simp only [hqr, ne_eq, not_false_eq_true, if_true, Option.some.injEq] at h
    subst h
    exact ⟨by omega, _, dnshandle_qr opt time inbuf out0 h12 hqr,
      header_copied_3 inbuf out0, c0, c1, Or.inl c2⟩

theorem early_exit_none (opt : dns_opt_t) (inbuf : List Nat) (h12 : 12 ≤ inbuf.length)
    (h : early_exit opt inbuf = none) : ∃ p, accepted opt inbuf p := by
  obtain ⟨p, hp, hret, _⟩ := parse_name_total inbuf 12 inbuf.length 256 h12
  unfold early_exit at h
  rw [hp] at h
  simp only at h
  split_ifs at h with h1 h2 h3 h4 h5 h6 h7 h8
  refine ⟨p, h12, by simpa using h1, by simpa using h2, by omega, hp, ?_, by simpa using h7,
    by omega⟩
  rcases hret with hr | hr | hr
  · exact hr
  · exact absurd hr h5
  · exact absurd hr h6

/-- C5. For every datagram of at least 12 bytes on which `dnshandle` takes the
early exit with code `r`, the return value is 12, the low four bits of output
byte 3 are `r`, output bytes 4..11 are zero, output bytes 0..1 are the request
ID, and the QR, OPCODE and RD bits of output byte 2 are those of the request.
A datagram that takes no early exit is an accepted query. Consequently every
response whose RCODE is not zero has length 12 and all four counts zero. -/
theorem early_exit_reply (opt : dns_opt_t) (time : Nat → Nat) (inbuf : List Nat)
    (out0 : Mem) (h12 : 12 ≤ inbuf.length) :
    (∀ r, early_exit opt inbuf = some r →
      (dnshandle opt time inbuf out0).len = some 12 ∧
      ∃ resp, (dnshandle opt time inbuf out0).response = some resp ∧ resp.length = 12 ∧
        resp.getD 3 0 &&& 15 = r ∧ (∀ i, 4 ≤ i → i < 12 → resp.getD i 0 = 0) ∧
        resp.getD 0 0 = inbuf.getD 0 0 ∧ resp.getD 1 0 = inbuf.getD 1 0 ∧
        resp.getD 2 0 &&& 0x80 = inbuf.getD 2 0 &&& 0x80 ∧
        resp.getD 2 0 &&& 0x78 = inbuf.getD 2 0 &&& 0x78 ∧
        resp.getD 2 0 &&& 1 = inbuf.getD 2 0 &&& 1) ∧
    (early_exit opt inbuf = none → ∃ p, accepted opt inbuf p) ∧
    (∀ resp, (dnshandle opt time inbuf out0).response = some resp →
      resp.getD 3 0 &&& 15 ≠ 0 →
      resp.length = 12 ∧ ∀ i, 4 ≤ i → i < 12 → resp.getD i 0 = 0) := by
  have first : ∀ r, early_exit opt inbuf = some r →
      (dnshandle opt time inbuf out0).len = some 12 ∧
      ∃ resp, (dnshandle opt time inbuf out0).response = some resp ∧ resp.length = 12 ∧
        resp.getD 3 0 &&& 15 = r ∧ (∀ i, 4 ≤ i → i < 12 → resp.getD i 0 = 0) ∧
        resp.getD 0 0 = inbuf.getD 0 0 ∧ resp.getD 1 0 = inbuf.getD 1 0 ∧
        resp.getD 2 0 &&& 0x80 = inbuf.getD 2 0 &&& 0x80 ∧
        resp.getD 2 0 &&& 0x78 = inbuf.getD 2 0 &&& 0x78 ∧
        resp.getD 2 0 &&& 1 = inbuf.getD 2 0 &&& 1 := by
    intro r hr
    obtain ⟨hr16, m, hm, m3, m0, m1, m2⟩ := dnshandle_early opt time inbuf out0 h12 r hr
    obtain ⟨hl, resp, e1, e2, e3, e4, e5, e6, e7⟩ := set_error_fields m r hr16 m3
    rw [hm]
    refine ⟨hl, resp, e1, e2, e3, e4, e5.trans m0, e6.trans m1, ?_, ?_, ?_⟩
    · rcases m2 with m2 | m2
      · rw [e7, m2]
      · rw [e7, m2, and_and_lit _ 0xFD 0x80 0x80 rfl]
    · rcases m2 with m2 | m2
      · rw [e7, m2]
      · rw [e7, m2, and_and_lit _ 0xFD 0x78 0x78 rfl]
    · rcases m2 with m2 | m2
      · rw [e7, m2]
      · rw [e7, m2, and_and_lit _ 0xFD 1 1 rfl]
  refine ⟨first, early_exit_none opt inbuf h12, fun resp hresp hne => ?_⟩
  cases he : early_exit opt inbuf with
  | none =>
    obtain ⟨p, hp⟩ := early_exit_none opt inbuf h12 he
    have := ((accepted_fields opt time inbuf out0 p hp).2 resp hresp).2.2.2.2.1
    exact absurd this hne
  | some r =>
    obtain ⟨_, resp2, e1, e2, _, e4, _⟩ := first r he
    rw [hresp] at e1
    simp only [Option.some.injEq] at e1
    subst e1
    exact ⟨e2, e4⟩

/-- Witness of C5 on scenario S4: the exit with code 4. -/
theorem early_exit_reply_witness :
    early_exit zone_s s4_query = some 4 ∧
    (dnshandle zone_s clock0 s4_query zero_mem).len = some 12 :=
  ⟨by decide,
   ((early_exit_reply zone_s clock0 s4_query zero_mem (by decide)).1 4 (by decide)).1⟩

/-! ### The zone test -/

theorem tolower_ne_zero {c : Nat} (h : c ≠ 0) : tolower c ≠ 0 := by
  unfold tolower; split_ifs <;> omega

theorem tolower_eq_46 {c : Nat} : tolower c = 46 ↔ c = 46 := by
  unfold tolower; split_ifs <;> omega

theorem strcasecmp_eq_zero : ∀ (a b : List Nat), (∀ c ∈ a, c ≠ 0) → (∀ c ∈ b, c ≠ 0) →
    (strcasecmp a b = 0 ↔ ci_eq a b) := by
  intro a
  induction a with
  | nil =>
    intro b _ hb
    cases b with
    | nil => simp [strcasecmp, ci_eq]
    | cons y ys =>
      have := tolower_ne_zero (hb y (by simp))
      simp [strcasecmp, ci_eq]
      omega
  | cons x xs ih =>
    intro b ha hb
    cases b with
    | nil =>
      have := tolower_ne_zero (ha x (by simp))
      simp [strcasecmp, ci_eq]
      omega
    | cons y ys =>
      have ih2 := ih ys (fun c hc => ha c (by simp [hc])) (fun c hc => hb c (by simp [hc]))
      unfold strcasecmp
      by_cases hxy : tolower x = tolower y
      · rw [if_pos hxy, ih2]
        simp [ci_eq, hxy]
      · rw [if_neg hxy]
        simp only [ci_eq, List.map_cons, List.cons.injEq, hxy, false_and, iff_false]
        omega

theorem ci_eq_length {a b : List Nat} (h : ci_eq a b) : a.length = b.length := by
  have := congrArg List.length h
  simpa using this

theorem cstr_ne_zero (buf : List Nat) : ∀ c ∈ cstr buf, c ≠ 0 := by
  intro c hc
  have := List.mem_takeWhile_imp hc
  simpa using this

theorem cstr_head (buf : List Nat) (h : buf.head? ≠ some 46) : (cstr buf).head? ≠ some 46 := by
  cases buf with
  | nil => simp [cstr]
  | cons x xs =>
    unfold cstr
    rw [List.takeWhile_cons]
    split_ifs
    · simpa using h
    · simp

theorem out_of_zone_iff (n h : List Nat) (hn : ∀ c ∈ n, c ≠ 0) (hh : ∀ c ∈ h, c ≠ 0)
    (hhead : n.head? ≠ some 46) : out_of_zone n h = true ↔ ¬ in_zone n h := by
  have e1 := strcasecmp_eq_zero n h hn hh
  have e2 := strcasecmp_eq_zero (n.drop (n.length - h.length)) h
    (fun c hc => hn c (List.mem_of_mem_drop hc)) hh
  unfold out_of_zone in_zone
  simp only [decide_eq_true_eq, ne_eq, e1, e2]
  have key : (∃ pre suf, n = pre ++ 46 :: suf ∧ ci_eq suf h) ↔
      ¬ ((n.length : Int) < (h.length : Int) + 2 ∨ ¬ n.getD (n.length - h.length - 1) 0 = 46 ∨
        ¬ ci_eq (n.drop (n.length - h.length)) h) := by
    constructor
    · rintro ⟨pre, suf, hnn, hci⟩
      have hl := ci_eq_length hci
      have hpre : pre ≠ [] := by
        intro hp
        rw [hnn, hp] at hhead
        simp at hhead
      have hpl : 0 < pre.length := List.length_pos.2 hpre
      have hnl : n.length = pre.length + 1 + h.length := by rw [hnn, ← hl]; simp; omega
      push_neg
      refine ⟨by omega, ?_, ?_⟩
      · rw [show n.length - h.length - 1 = pre.length by omega, hnn,
          List.getD_eq_getElem?_getD, List.getElem?_append_right (le_refl _)]
        simp
      · rw [show n.length - h.length = pre.length + 1 by omega, hnn]
        simpa using hci
    · intro hc
      push_neg at hc
      obtain ⟨c1, c2, c3⟩ := hc
      refine ⟨n.take (n.length - h.length - 1), n.drop (n.length - h.length), ?_, c3⟩
      have hk : n.length - h.length - 1 < n.length := by omega
      have hget : n[n.length - h.length - 1] = 46 := by
        rw [List.getD_eq_getElem _ _ hk] at c2
        exact c2
      have := List.take_append_drop (n.length - h.length - 1) n
      conv_lhs => rw [← this]
      congr 1
      rw [List.drop_eq_getElem_cons hk, hget]
      congr 2
      omega
  rw [key]
  tauto

set_option maxRecDepth 100000 in
/-- Scenario S3 on the model: RCODE 5 and all counts zero, 12 bytes. -/
theorem s3_reply :
    (dnshandle zone_s clock0 s3_query zero_mem).response
      = some [0x12, 0x34, 0x01, 0x05, 0, 0, 0, 0, 0, 0, 0, 0] := by
  decide

set_option maxRecDepth 100000 in
/-- The names `X.Example` and `a.x.example` are accepted in the zone of the
scenarios: RCODE 0 with two answers and one authority record. -/
theorem in_zone_replies :
    (dnshandle zone_s clock0 (mk_query 0x01 0x00 1 ["X", "Example"] 1 1) zero_mem).response.map
      (fun r => r.take 12) = some [0x12, 0x34, 0x85, 0x00, 0, 1, 0, 2, 0, 1, 0, 0] ∧
    (dnshandle zone_s clock0 (mk_query 0x01 0x00 1 ["a", "x", "example"] 1 1)
      zero_mem).response.map (fun r => r.take 12)
      = some [0x12, 0x34, 0x85, 0x00, 0, 1, 0, 2, 0, 1, 0, 0] := by
  decide

/-! ### The malformed name -/

theorem copy_label_run (inbuf : List Nat) (inend bufsize : Nat) :
    ∀ (k octet inpos : Nat) (buf : List Nat), k ≤ octet → inpos + k ≤ inend →
      (∀ i, i < k → inbuf.getD (inpos + i) 0 ≠ 46) → buf.length + k < bufsize →
      ∃ t, t.length = k ∧
        copy_label inbuf inend bufsize octet inpos buf
          = copy_label inbuf inend bufsize (octet - k) (inpos + k) (buf ++ t) := by
  intro k
  induction k with
  | zero => intro octet inpos buf _ _ _ _; exact ⟨[], rfl, by simp⟩
  | succ k ih =>
    intro octet inpos buf hk hin hch hroom
    obtain ⟨o, rfl⟩ : ∃ o, octet = o + 1 := ⟨octet - 1, by omega⟩
    have h0 := hch 0 (by omega)
    simp only [Nat.add_zero] at h0
    obtain ⟨t, ht, he⟩ := ih o (inpos + 1) (buf ++ [inbuf.getD inpos 0]) (by omega) (by omega)
      (fun i hi => by
        have := hch (i + 1) (by omega)
        rwa [show inpos + (i + 1) = inpos + 1 + i by omega] at this)
      (by simp; omega)
    refine ⟨inbuf.getD inpos 0 :: t, by simp [ht], ?_⟩
    rw [copy_label, if_neg (by omega), if_neg (by omega)]
    simp only [h0, if_false]
    rw [he]
    simp only [List.append_assoc, List.singleton_append, Nat.add_sub_add_right]
    rw [show inpos + 1 + k = inpos + (k + 1) by omega]

theorem dot_buf_length (init : Bool) (buf : List Nat) :
    (if init = false then buf ++ [46] else buf).length = buf.length + dot_len init := by
  cases init <;> simp [dot_len]

theorem dot_fits {init : Bool} {buf : List Nat} {room bufsize : Nat}
    (h : dot_len init < room) (hb : buf.length + room = bufsize) :
    ¬ (init = false ∧ buf.length + 1 = bufsize) := by
  cases init with
  | false => simp [dot_len] at h ⊢; omega
  | true => simp

theorem dot_full {init : Bool} {buf : List Nat} {room bufsize : Nat}
    (h : dot_len init = room) (hr : 1 ≤ room) (hb : buf.length + room = bufsize) :
    init = false ∧ buf.length + 1 = bufsize := by
  cases init with
  | false => simp [dot_len] at h ⊢; omega
  | true => simp [dot_len] at h; omega

theorem reaches_run (inbuf : List Nat) (h12 : 12 ≤ inbuf.length) {inpos inend room : Nat}
    {init : Bool} (h : Reaches inbuf inpos inend room init) :
    inpos ≤ inend ∧ 1 ≤ room ∧
    ∃ (fuel bufsize : Nat) (buf : List Nat), buf.length + room = bufsize ∧
      inend * inend + (inend - inpos) < fuel ∧
      (parse_name inbuf 12 inbuf.length 256).map ParseRes.ret
        = (parse_name_fuel inbuf fuel inpos inend bufsize buf init).map ParseRes.ret := by
  induction h with
  | start =>
    refine ⟨h12, by omega, parse_fuel inbuf.length, 256, [], rfl, ?_, rfl⟩
    unfold parse_fuel; omega
  | @label inpos inend room init _ ho hp h63 hend hch hroom ih =>
    obtain ⟨hle, hr1, fuel, bufsize, buf, hb, hf, he⟩ := ih
    obtain ⟨f, rfl⟩ : ∃ f, fuel = f + 1 := ⟨fuel - 1, by omega⟩
    have hdl := dot_buf_length init buf
    obtain ⟨t, ht, hc⟩ := copy_label_run inbuf inend bufsize (inbuf.getD inpos 0)
      (inbuf.getD inpos 0) (inpos + 1) (if init = false then buf ++ [46] else buf)
      (le_refl _) hend hch (by rw [hdl]; omega)
    refine ⟨by omega, by omega, f, bufsize,
      (if init = false then buf ++ [46] else buf) ++ t, ?_, by omega, ?_⟩
    · rw [List.length_append, hdl, ht]; omega
    · rw [he, parse_name_fuel, if_neg (by omega)]
      simp only [ho, if_false]
      rw [if_neg (dot_fits (by omega) hb)]
      simp only [hp, if_false]
      rw [if_neg (by omega)]
      simp only [hc, Nat.sub_self, copy_label, ne_eq, not_true_eq_false, if_false]
  | @pointer inpos inend room init _ hend hp hroom href ih =>
    obtain ⟨hle, hr1, fuel, bufsize, buf, hb, hf, he⟩ := ih
    obtain ⟨f, rfl⟩ : ∃ f, fuel = f + 1 := ⟨fuel - 1, by omega⟩
    have ho : inbuf.getD inpos 0 ≠ 0 := by
      intro h0; rw [h0] at hp; simp at hp
    have hmeas : inpos * inpos + (inpos - ptr_target inbuf inpos) < f := by
      have h8 : inpos * inpos + inpos < inend * inend := by nlinarith
      omega
    have hdl := dot_buf_length init buf
    refine ⟨by omega, by omega, f, bufsize - (if init = false then buf ++ [46] else buf).length,
      [], ?_, hmeas, ?_⟩
    · rw [hdl]; simp only [List.length_nil]; omega
    · rw [he, parse_name_fuel, if_neg (by omega)]
      simp only [ho, if_false]
      rw [if_neg (dot_fits hroom hb)]
      simp only [hp, if_true]
      rw [if_neg (by omega)]
      have e1 : inpos + 1 + 1 - 2 = inpos := by omega
      unfold ptr_target at href ⊢
      rw [e1, if_neg (by omega)]
      cases parse_name_fuel inbuf f ((inbuf.getD inpos 0 - 192) <<< 8 + inbuf.getD (inpos + 1) 0)
        inpos (bufsize - (if init = false then buf ++ [46] else buf).length) [] true <;> rfl

theorem malformed_ret (inbuf : List Nat) (f bufsize : Nat) (buf : List Nat)
    {inpos inend room : Nat} {init : Bool} (hb : buf.length + room = bufsize)
    (hm : Malformed inbuf inpos inend room init) :
    (parse_name_fuel inbuf (f + 1) inpos inend bufsize buf init).map ParseRes.ret
      = some (-1) := by
  rcases hm with hm | ⟨hlt, hroom, hm⟩
  · rw [parse_name_fuel, if_pos hm]; rfl
  · have hdl := dot_buf_length init buf
    rcases hm with ⟨hp, h63⟩ | ⟨hp, hend⟩ | ⟨hp, hend, href⟩ | ⟨ho, hp, h63, k, hk, hin, hch, hkr, hev⟩
    · rw [parse_name_fuel, if_neg (by omega)]
      simp only
      rw [if_neg (by omega), if_neg (dot_fits hroom hb), if_neg hp, if_pos h63]
      rfl
    · have ho : inbuf.getD inpos 0 ≠ 0 := by
        intro h0; rw [h0] at hp; simp at hp
      rw [parse_name_fuel, if_neg (by omega)]
      simp only
      rw [if_neg ho, if_neg (dot_fits hroom hb), if_pos hp, if_pos hend]
      rfl
    · have ho : inbuf.getD inpos 0 ≠ 0 := by
        intro h0; rw [h0] at hp; simp at hp
      rw [parse_name_fuel, if_neg (by omega)]
      simp only
      rw [if_neg ho, if_neg (dot_fits hroom hb), if_pos hp, if_neg (by omega)]
      unfold ptr_target at href
      rw [if_pos (by omega)]
      rfl
    · rw [parse_name_fuel, if_neg (by omega)]
      simp only
      rw [if_neg ho, if_neg (dot_fits hroom hb), if_neg hp, if_neg (by omega)]
      obtain ⟨t, ht, hc⟩ := copy_label_run inbuf inend bufsize k
        (inbuf.getD inpos 0) (inpos + 1) (if init = false then buf ++ [46] else buf)
        (by omega) hin hch (by rw [hdl]; omega)
      rw [hc]
      obtain ⟨o, ho2⟩ : ∃ o, inbuf.getD inpos 0 - k = o + 1 :=
        ⟨inbuf.getD inpos 0 - k - 1, by omega⟩
      rw [ho2, copy_label]
      by_cases hpe : inpos + 1 + k = inend
      · rw [if_pos hpe]; rfl
      · rcases hev with hev | ⟨hev1, hev2⟩
        · exact absurd hev hpe
        · have hnf : ¬ ((if init = false then buf ++ [46] else buf) ++ t).length + 1
              = bufsize := by
            rw [List.length_append, hdl, ht]; omega
          rw [if_neg hpe, if_neg hnf]
          simp only [hev2, if_true]
          rfl

theorem exhausted_ret (inbuf : List Nat) (f bufsize : Nat) (buf : List Nat)
    {inpos inend room : Nat} {init : Bool} (hb : buf.length + room = bufsize)
    (hr : 1 ≤ room) (hx : Exhausted inbuf inpos inend room init) :
    (parse_name_fuel inbuf (f + 1) inpos inend bufsize buf init).map ParseRes.ret
      = some (-2) := by
  obtain ⟨hlt, ho, hx⟩ := hx
  have hdl := dot_buf_length init buf
  rcases hx with hfull | ⟨hroom, hp, h63, k, hk, hin, hch, hkr⟩
  · rw [parse_name_fuel, if_neg (by omega)]
    simp only
    rw [if_neg ho, if_pos (dot_full hfull hr hb)]
    rfl
  · rw [parse_name_fuel, if_neg (by omega)]
    simp only
    rw [if_neg ho, if_neg (dot_fits hroom hb), if_neg hp, if_neg (by omega)]
    obtain ⟨t, ht, hc⟩ := copy_label_run inbuf inend bufsize k
      (inbuf.getD inpos 0) (inpos + 1) (if init = false then buf ++ [46] else buf)
      (by omega) (by omega) hch (by rw [hdl]; omega)
    rw [hc]
    obtain ⟨o, ho2⟩ : ∃ o, inbuf.getD inpos 0 - k = o + 1 :=
      ⟨inbuf.getD inpos 0 - k - 1, by omega⟩
    have hpe : ¬ inpos + 1 + k = inend := by omega
    have hfl : ((if init = false then buf ++ [46] else buf) ++ t).length + 1 = bufsize := by
      rw [List.length_append, hdl, ht]; omega
    rw [ho2, copy_label, if_neg hpe, if_pos hfl]
    rfl

theorem dns_question_ret (opt : dns_opt_t) (time : Nat → Nat) (inbuf : List Nat)
    (out0 : Mem) (h12 : 12 ≤ inbuf.length) (hqr : qr_bit inbuf = 0)
    (hop : opcode inbuf = 0) (hqd : qdcount inbuf = 1) :
    ((parse_name inbuf 12 inbuf.length 256).map ParseRes.ret = some (-1) →
      (dnshandle opt time inbuf out0).rcode_reply 1) ∧
    ((parse_name inbuf 12 inbuf.length 256).map ParseRes.ret = some (-2) →
      (dnshandle opt time inbuf out0).rcode_reply 5) := by
  have hd : dnshandle opt time inbuf out0 =
      dns_question opt time inbuf (header_cleared inbuf out0) := by
    rw [dnshandle_checked opt time inbuf out0 h12 hqr hop, if_neg (by omega),
      if_neg (by omega)]
  rw [hd]
  unfold dns_question
  constructor
  · intro h
    cases hp : parse_name inbuf 12 inbuf.length 256 with
    | none => rw [hp] at h; simp at h
    | some p =>
      rw [hp] at h
      simp only [Option.map_some', Option.some.injEq] at h
      simp only [hp]
      rw [if_pos h]
      exact set_error_reply _ 1 (by omega) (header_cleared_3 inbuf out0)
  · intro h
    cases hp : parse_name inbuf 12 inbuf.length 256 with
    | none => rw [hp] at h; simp at h
    | some p =>
      rw [hp] at h
      simp only [Option.map_some', Option.some.injEq] at h
      simp only [hp]
      have hne : ¬ p.ret = -1 := by rw [h]; decide
      rw [if_neg hne, if_pos h]
      exact set_error_reply _ 5 (by omega) (header_cleared_3 inbuf out0)

/-- C3, as amended. For every datagram that passes header validation: if reading
the QNAME from offset 12 meets, while the name buffer has room for what is
stored first, a premature end of input, a length octet above 63 that is not a
pointer, a dot inside a label, or a pointer whose target is not below its own
first byte, the reply is a 12-byte header with RCODE 1; if instead the name
buffer is exhausted at that point (the dot before the length octet, or a byte of
the label, does not fit in the 255 characters), the reply has RCODE 5; and if
the name parses and is in the zone but fewer than four bytes follow it, the
reply has RCODE 1. -/
theorem qname_error_replies (opt : dns_opt_t) (time : Nat → Nat) (inbuf : List Nat)
    (out0 : Mem) (h12 : 12 ≤ inbuf.length) (hqr : qr_bit inbuf = 0)
    (hop : opcode inbuf = 0) (hqd : qdcount inbuf = 1) :
    (∀ inpos inend room init, Reaches inbuf inpos inend room init →
      Malformed inbuf inpos inend room init →
      (dnshandle opt time inbuf out0).rcode_reply 1) ∧
    (∀ inpos inend room init, Reaches inbuf inpos inend room init →
      Exhausted inbuf inpos inend room init →
      (dnshandle opt time inbuf out0).rcode_reply 5) ∧
    (∀ p, parse_name inbuf 12 inbuf.length 256 = some p → p.ret = 0 →
      (∀ c ∈ opt.host, c ≠ 0) → in_zone (cstr p.buf) opt.host →
      inbuf.length < p.inpos + 4 →
      (dnshandle opt time inbuf out0).rcode_reply 1) := by
  obtain ⟨k1, k5⟩ := dns_question_ret opt time inbuf out0 h12 hqr hop hqd
  refine ⟨fun inpos inend room init hre hm => ?_, fun inpos inend room init hre hx => ?_,
    fun p hp hret hhost hz hshort => ?_⟩
  · obtain ⟨_, _, fuel, bufsize, buf, hb, hf, he⟩ := reaches_run inbuf h12 hre
    obtain ⟨f, rfl⟩ : ∃ f, fuel = f + 1 := ⟨fuel - 1, by omega⟩
    exact k1 (he.trans (malformed_ret inbuf f bufsize buf hb hm))
  · obtain ⟨_, hr1, fuel, bufsize, buf, hb, hf, he⟩ := reaches_run inbuf h12 hre
    obtain ⟨f, rfl⟩ : ∃ f, fuel = f + 1 := ⟨fuel - 1, by omega⟩
    exact k5 (he.trans (exhausted_ret inbuf f bufsize buf hb hr1 hx))
  · obtain ⟨r, hr, _, hz2⟩ := parse_name_total inbuf 12 inbuf.length 256 h12
    rw [hp] at hr
    simp only [Option.some.injEq] at hr
    subst hr
    obtain ⟨_, _, _, hhead⟩ := hz2 hret
    have hoz : out_of_zone (cstr p.buf) opt.host = false := by
      have := out_of_zone_iff (cstr p.buf) opt.host (cstr_ne_zero _) hhost (cstr_head _ hhead)
      cases hc : out_of_zone (cstr p.buf) opt.host with
      | false => rfl
      | true => exact absurd hz (this.1 hc)
    rw [dnshandle_checked opt time inbuf out0 h12 hqr hop, if_neg (by omega),
      if_neg (by omega)]
    unfold dns_question
    simp only [hp, hret, hoz]
    have hs : (inbuf.length : Int) - (p.inpos : Int) < 4 := by omega
    simp only [hs, if_true]
    exact set_error_reply _ 1 (by omega) (header_cleared_3 inbuf out0)

set_option maxRecDepth 100000 in
/-- Witness of C3 on scenario S6: the first length octet is 64, and the reply
is RCODE 1. -/
theorem qname_error_replies_witness :
    (dnshandle zone_s clock0 s6_query zero_mem).rcode_reply 1 :=
  (qname_error_replies zone_s clock0 s6_query zero_mem (by decide) (by decide) (by decide)
    (by decide)).1 12 s6_query.length 256 true Reaches.start
    (Or.inr ⟨by decide, by decide, Or.inl ⟨by decide, by decide⟩⟩)

set_option maxRecDepth 100000 in
/-- C3, the counterexample. The datagram `full_name_query` passes header
validation; reading its QNAME gets past four labels of 63 characters to offset
268 with one byte of room left; the octet there is 64, a length above 63 that
is not a pointer; and the reply is RCODE 5, not RCODE 1: line 89 tests the room
for the dot before line 103 tests the length. -/
theorem full_name_bad_length_refused :
    qr_bit full_name_query = 0 ∧ opcode full_name_query = 0 ∧ qdcount full_name_query = 1 ∧
    Reaches full_name_query 268 full_name_query.length 1 false ∧
    full_name_query.getD 268 0 = 64 ∧ (64 &&& 0xC0 ≠ 0xC0) ∧
    (dnshandle zone_s clock0 full_name_query zero_mem).response
      = some [0x12, 0x34, 0x01, 0x05, 0, 0, 0, 0, 0, 0, 0, 0] := by
  have s0 : Reaches full_name_query 12 full_name_query.length 256 true := Reaches.start
  have s1 : Reaches full_name_query 76 full_name_query.length 193 false :=
    Reaches.label s0 (by decide) (by decide) (by decide) (by decide) (by decide) (by decide)
  have s2 : Reaches full_name_query 140 full_name_query.length 129 false :=
    Reaches.label s1 (by decide) (by decide) (by decide) (by decide) (by decide) (by decide)
  have s3 : Reaches full_name_query 204 full_name_query.length 65 false :=
    Reaches.label s2 (by decide) (by decide) (by decide) (by decide) (by decide) (by decide)
  have s4 : Reaches full_name_query 268 full_name_query.length 1 false :=
    Reaches.label s3 (by decide) (by decide) (by decide) (by decide) (by decide) (by decide)
  exact ⟨by decide, by decide, by decide, s4, by decide, by decide, by decide⟩

/-! ### Further scenarios -/

set_option maxRecDepth 100000 in
/-- Scenario S2 on the model: an NS query for the apex gives ANCOUNT = 1 (the NS
record in the Answer section) and NSCOUNT = 0. -/
theorem s2_reply :
    (dnshandle zone_s clock0 (mk_query 0x01 0x00 1 ["x", "example"] 2 1) zero_mem).response
      = some [18, 52, 133, 0, 0, 1, 0, 1, 0, 0, 0, 0,
          1, 120, 7, 101, 120, 97, 109, 112, 108, 101, 0, 0, 2, 0, 1,
          192, 12, 0, 2, 0, 1, 0, 1, 81, 128, 0, 14,
          2, 110, 115, 1, 120, 7, 101, 120, 97, 109, 112, 108, 101, 0] := by
  decide

set_option maxRecDepth 100000 in
/-- Scenario S5 on the model: an AAAA query when the callback has no IPv6
address gives ANCOUNT = 0 and NSCOUNT = 1, the SOA record. -/
theorem s5_reply :
    (dnshandle zone_s clock0 (mk_query 0x01 0x00 1 ["x", "example"] 28 1) zero_mem).response
      = some [18, 52, 133, 0, 0, 1, 0, 0, 0, 1, 0, 0,
          1, 120, 7, 101, 120, 97, 109, 112, 108, 101, 0, 0, 28, 0, 1,
          192, 12, 0, 6, 0, 1, 0, 1, 81, 128, 0, 50,
          2, 110, 115, 1, 120, 7, 101, 120, 97, 109, 112, 108, 101, 0,
          4, 114, 111, 111, 116, 1, 120, 7, 101, 120, 97, 109, 112, 108, 101, 0,
          0, 0, 0, 0, 0, 9, 58, 128, 0, 1, 81, 128, 0, 39, 141, 0, 0, 9, 58, 128] := by
  decide

/-- The fuel of the label loop of `write_name` is never the reason it stops:
any fuel of at least the length of the name gives the same result. -/
theorem write_name_labels_fuel (fuel : Nat) : ∀ (m : Mem) (p : Nat) (e : Int)
    (name : List Nat) (extra : Nat), name.length ≤ fuel →
    write_name_labels (fuel + extra) m p e name = write_name_labels fuel m p e name := by
  induction fuel with
  | zero =>
    intro m p e name extra h
    have hn : name = [] := List.length_eq_zero.1 (by omega)
    subst hn
    cases extra <;> simp [write_name_labels]
  | succ fuel ih =>
    intro m p e name extra h
    rw [show fuel + 1 + extra = (fuel + extra) + 1 by omega]
    unfold write_name_labels
    by_cases hn : name = []
    · simp [hn]
    · simp only [hn, if_false]
      split_ifs
      · rfl
      · rfl
      · rfl
      · cases hd : name.dropWhile (fun c => c != 46) with
        | nil => rfl
        | cons d rest =>
          simp only
          apply ih
          have h1 := congrArg List.length (List.takeWhile_append_dropWhile
            (fun c => c != 46) name)
          rw [List.length_append, hd] at h1
          simp only [List.length_cons] at h1
          omega

/-! ### The Answer section and the Authority reserve (C11) -/

set_option maxRecDepth 100000 in
/-- C11, the failing input. The zone whose callback returns 32 IPv6 addresses
and an AAAA query for `seed1.x.example` (33 bytes, the name ends at offset 29):
the trial SOA record takes 62 bytes, so `max_auth_size` is 62 and the Answer
section has to end by offset 450. Fourteen AAAA records bring the cursor to
425; for the fifteenth the writer tests for 6 free bytes after the ten of the
record head (16 in all, 25 are free) and stores 28, so the Answer section ends
at offset 453, three bytes inside the reserve. The response is 479 bytes. -/
theorem answer_section_overruns_reserve :
    parse_name aaaa_query 12 aaaa_query.length 256
      = some ⟨0, 29, str "seed1.x.example" ++ [0]⟩ ∧
    qtype aaaa_query 29 = 28 ∧ qclass aaaa_query 29 = 1 ∧
    (max_auth_size zone_v6 clock0 (copy_question aaaa_query
        (header_cleared aaaa_query zero_mem) 29) 33 12 28 1).bind
      (fun r => (answer_section zone_v6 clock0 ((BUFLEN : Int) - r.1) 12 28 1
        (str "seed1.x.example") ⟨r.2, 33, 0⟩).map (fun s => (r.1, s.outpos)))
      = some (62, 453) ∧
    (dnshandle zone_v6 clock0 aaaa_query zero_mem).len = some 479 := by
  decide

/-! ### A zone without a mailbox (C19) -/

set_option maxRecDepth 100000 in
/-- C19, the failing input. The zone of the scenarios with `mbox` null and the A
query of scenario S1: the trial SOA record of line 352 hands the null `mbox` to
`write_name`, which reads `*name`. No response is produced. -/
theorem null_mbox_dereferenced :
    (dnshandle zone_nombox clock0 s1_query zero_mem).null_mbox = true ∧
    (dnshandle zone_nombox clock0 s1_query zero_mem).response = none := by
  decide

/-! ### A name that ends in a pointer to a zero octet (C16) -/

set_option maxRecDepth 100000 in
/-- C16, the failing input. The QNAME of `root_ptr_query` is the labels `x` and
`example` and then a pointer to offset 6, where a zero octet stands: line 91
stores the dot before line 95 looks at the pointer, and the name read at the
target is empty, so `parse_name` returns 0 with `x.example.` in the buffer, a
name with a trailing dot. `dnshandle` then finds it out of the zone `x.example`
and answers RCODE 5. -/
theorem parse_name_trailing_dot :
    parse_name root_ptr_query 12 root_ptr_query.length 256
      = some ⟨0, 24, str "x.example." ++ [0]⟩ ∧
    (dnshandle zone_s clock0 root_ptr_query zero_mem).response
      = some [0x12, 0x34, 0x01, 0x05, 0, 0, 0, 0, 0, 0, 0, 0] := by
  decide

/-! ### Termination of `parse_name` (C15) -/

/-- C15. `parse_name` returns on every input whose start position is not past
the input end: the fuel `parse_fuel inend` of the model suffices, and so does
any fuel above `inend * inend + (inend - inpos)`, whatever the buffer state.
The reason is the shape of the recursive call: when the octet at `inpos` is a
compression pointer that is followed (second conjunct), the call reads from the
target with the input end set to `inpos`, the position of the pointer's first
byte, where `target < inpos` and `inpos < inend`; and a pointer whose target is
not below its own first byte (a self reference, a forward reference) is not
followed but returns -1 (third conjunct). -/
theorem parse_name_terminates (inbuf : List Nat) (inpos inend bufsize : Nat)
    (h : inpos ≤ inend) :
    ((∃ r, parse_name inbuf inpos inend bufsize = some r) ∧
      ∀ (fuel : Nat) (buf : List Nat) (init : Bool),
        inend * inend + (inend - inpos) < fuel →
        ∃ r, parse_name_fuel inbuf fuel inpos inend bufsize buf init = some r) ∧
    (∀ (fuel : Nat) (buf : List Nat) (init : Bool),
      inpos + 2 ≤ inend → inbuf.getD inpos 0 &&& 0xC0 = 0xC0 →
      ¬ (init = false ∧ buf.length + 1 = bufsize) →
      ptr_target inbuf inpos < inpos →
      parse_name_fuel inbuf (fuel + 1) inpos inend bufsize buf init =
        (parse_name_fuel inbuf fuel (ptr_target inbuf inpos) inpos
          (bufsize - (if init = false then buf ++ [46] else buf).length) [] true).map
          (fun r => ⟨r.ret, inpos + 2, (if init = false then buf ++ [46] else buf) ++ r.buf⟩) ∧
      ptr_target inbuf inpos < inpos ∧ inpos < inend) ∧
    (∀ (fuel : Nat) (buf : List Nat) (init : Bool),
      inpos + 2 ≤ inend → inbuf.getD inpos 0 &&& 0xC0 = 0xC0 →
      ¬ (init = false ∧ buf.length + 1 = bufsize) →
      inpos ≤ ptr_target inbuf inpos →
      parse_name_fuel inbuf (fuel + 1) inpos inend bufsize buf init =
        some ⟨-1, inpos + 2, if init = false then buf ++ [46] else buf⟩) := by
  have hoct : ∀ {x : Nat}, x &&& 0xC0 = 0xC0 → x ≠ 0 := by
    intro x hx h0
    rw [h0] at hx
    exact absurd hx (by decide)
  refine ⟨⟨?_, ?_⟩, ?_, ?_⟩
  · obtain ⟨r, hr, _⟩ := parse_name_total inbuf inpos inend bufsize h
    exact ⟨r, hr⟩
  · intro fuel buf init hf
    obtain ⟨r, hr, _⟩ := parse_name_fuel_spec inbuf fuel inpos inend bufsize buf init h hf
    exact ⟨r, hr⟩
  · intro fuel buf init h2 hptr hroom htgt
    have hne : ¬ inpos = inend := by omega
    have hne1 : ¬ inpos + 1 = inend := by omega
    have h0 : ¬ inbuf.getD inpos 0 = 0 := hoct hptr
    have hge : ¬ ((inbuf.getD inpos 0 - 0xC0) <<< 8) + inbuf.getD (inpos + 1) 0
        ≥ inpos + 1 + 1 - 2 := by
      have := htgt
      unfold ptr_target at this
      omega
    refine ⟨?_, htgt, by omega⟩
    generalize hq : parse_name_fuel inbuf fuel (ptr_target inbuf inpos) inpos
      (bufsize - (if init = false then buf ++ [46] else buf).length) [] true = q
    unfold ptr_target at hq
    unfold parse_name_fuel
    simp only [if_neg hne, if_neg h0, if_neg hroom, if_pos hptr, if_neg hne1, if_neg hge]
    have e1 : inpos + 1 + 1 - 2 = inpos := by omega
    have e2 : inpos + 1 + 1 = inpos + 2 := by omega
    rw [e1, e2, hq]
    cases q with
    | none => rfl
    | some r => rfl
  · intro fuel buf init h2 hptr hroom htgt
    have hne : ¬ inpos = inend := by omega
    have hne1 : ¬ inpos + 1 = inend := by omega
    have h0 : ¬ inbuf.getD inpos 0 = 0 := hoct hptr
    have hge : ((inbuf.getD inpos 0 - 0xC0) <<< 8) + inbuf.getD (inpos + 1) 0
        ≥ inpos + 1 + 1 - 2 := by
      have := htgt
      unfold ptr_target at this
      omega
    unfold parse_name_fuel
    simp only [if_neg hne, if_neg h0, if_neg hroom, if_pos hptr, if_neg hne1, if_pos hge]

/-- C15 at a concrete input: a datagram whose QNAME is a pointer to itself. The
parse returns -1. -/
theorem parse_name_terminates_witness :
    (12 : Nat) ≤ 14 ∧
    ∃ r, parse_name ([0, 0, 0, 0, 0, 1, 0, 0, 0, 0, 0, 0] ++ [0xC0, 12]) 12 14 256 = some r :=
  ⟨by decide, (parse_name_terminates ([0, 0, 0, 0, 0, 1, 0, 0, 0, 0, 0, 0] ++ [0xC0, 12])
    12 14 256 (by decide)).1.1⟩

/-! ### Atomicity of the record writers (C13) -/

theorem write_record_rewinds (m : Mem) (p : Nat) (e : Int) (name : List Nat)
    (offset : Int) (typ cls : Nat) (ttl : Int)
    (h : (write_record m p e name offset typ cls ttl).ret ≠ 0) :
    (write_record m p e name offset typ cls ttl).outpos = p := by
  unfold write_record at h ⊢
  dsimp only at h ⊢
  split
  · rfl
  · split
    · rfl
    · rename_i h1 h2
      rw [if_neg h1, if_neg h2] at h
      exact absurd rfl h

theorem write_record_a_rewinds (m : Mem) (p : Nat) (e : Int) (name : List Nat)
    (offset : Int) (cls : Nat) (ttl : Int) (ip : addr_t)
    (h : (write_record_a m p e name offset cls ttl ip).ret ≠ 0) :
    (write_record_a m p e name offset cls ttl ip).outpos = p := by
  unfold write_record_a at h ⊢
  dsimp only at h ⊢
  split
  · rfl
  · split
    · rename_i h1 h2
      exact write_record_rewinds m p e name offset TYPE_A cls ttl h2
    · split
      · rfl
      · rename_i h1 h2 h3
        rw [if_neg h1, if_neg h2, if_neg h3] at h
        exact absurd rfl h

theorem write_record_aaaa_rewinds (m : Mem) (p : Nat) (e : Int) (name : List Nat)
    (offset : Int) (cls : Nat) (ttl : Int) (ip : addr_t)
    (h : (write_record_aaaa m p e name offset cls ttl ip).ret ≠ 0) :
    (write_record_aaaa m p e name offset cls ttl ip).outpos = p := by
  unfold write_record_aaaa at h ⊢
  dsimp only at h ⊢
  split
  · rfl
  · split
    · rename_i h1 h2
      exact write_record_rewinds m p e name offset TYPE_AAAA cls ttl h2
    · split
      · rfl
      · rename_i h1 h2 h3
        rw [if_neg h1, if_neg h2, if_neg h3] at h
        exact absurd rfl h

theorem write_record_ns_rewinds (m : Mem) (p : Nat) (e : Int) (name : List Nat)
    (offset : Int) (cls : Nat) (ttl : Int) (ns : List Nat)
    (h : (write_record_ns m p e name offset cls ttl ns).ret ≠ 0) :
    (write_record_ns m p e name offset cls ttl ns).outpos = p := by
  unfold write_record_ns at h ⊢
  dsimp only at h ⊢
  split
  · rename_i h1
    exact write_record_rewinds m p e name offset TYPE_NS cls ttl h1
  · split
    · rfl
    · split
      · rfl
      · rename_i h1 h2 h3
        rw [if_neg h1, if_neg h2, if_neg h3] at h
        exact absurd rfl h

theorem write_record_soa_rewinds (m : Mem) (p : Nat) (e : Int) (name : List Nat)
    (offset : Int) (cls : Nat) (ttl : Int) (mname : List Nat) (rname : Option (List Nat))
    (s1 s2 s3 s4 s5 : Nat) (w : Wr)
    (hw : write_record_soa m p e name offset cls ttl mname rname s1 s2 s3 s4 s5 = some w)
    (h : w.ret ≠ 0) : w.outpos = p := by
  unfold write_record_soa at hw
  dsimp only at hw
  split at hw
  · rename_i h1
    cases hw
    exact write_record_rewinds m p e name offset TYPE_SOA cls ttl h1
  · split at hw
    · cases hw; rfl
    · split at hw
      · cases hw; rfl
      · cases rname with
        | none => cases hw
        | some rn =>
          dsimp only at hw
          split at hw
          · cases hw; rfl
          · split at hw
            · cases hw; rfl
            · cases hw
              exact absurd rfl h

theorem answer_ns_keeps (opt : dns_opt_t) (e : Int) (typ cls : Nat) (s : Resp)
    (h9 : 9 < s.outpos)
    (hf : (write_record_ns s.out s.outpos e [] 12 CLASS_IN opt.nsttl opt.ns).ret ≠ 0) :
    (answer_ns opt e 12 typ cls s).outpos = s.outpos ∧
    (answer_ns opt e 12 typ cls s).out 7 = s.out 7 ∧
    (answer_ns opt e 12 typ cls s).out 9 = s.out 9 := by
  have hp := write_record_ns_plan opt s.out s.outpos e opt.nsttl
  have hpos := write_record_ns_rewinds s.out s.outpos e [] 12 CLASS_IN opt.nsttl opt.ns hf
  unfold answer_ns
  dsimp only
  by_cases hw : wants_ns typ cls = true
  · rw [if_pos hw, if_neg hf]
    exact ⟨hpos, hp.1 7 (by omega), hp.1 9 (by omega)⟩
  · rw [if_neg hw]
    exact ⟨rfl, rfl, rfl⟩

theorem answer_soa_keeps (opt : dns_opt_t) (time : Nat → Nat) (e : Int) (typ cls : Nat)
    (s s2 : Resp) (w : Wr) (h9 : 9 < s.outpos)
    (hs : answer_soa opt time e 12 typ cls s = some s2)
    (hw : write_record_soa s.out s.outpos e [] 12 CLASS_IN opt.nsttl opt.ns opt.mbox
      (time 1) 604800 86400 2592000 604800 = some w)
    (hf : w.ret ≠ 0) :
    s2.outpos = s.outpos ∧ s2.out 7 = s.out 7 ∧ s2.out 9 = s.out 9 := by
  have hp := write_record_soa_plan opt s.out s.outpos e (time 1) w hw
  have hpos := write_record_soa_rewinds s.out s.outpos e [] 12 CLASS_IN opt.nsttl opt.ns
    opt.mbox (time 1) 604800 86400 2592000 604800 w hw hf
  unfold answer_soa at hs
  split at hs
  · rw [hw] at hs
    dsimp only at hs
    rw [if_neg hf] at hs
    cases hs
    exact ⟨hpos, hp.1 7 (by omega), hp.1 9 (by omega)⟩
  · cases hs
    exact ⟨rfl, rfl, rfl⟩

theorem answer_addrs_keeps (opt : dns_opt_t) (e : Int) (a : addr_t) (rest : List addr_t)
    (m : Mem) (p : Nat) (h9 : 9 < p) (hf : (write_addr opt e 12 m p a).ret ≠ 0) :
    (answer_addrs opt e 12 (a :: rest) m p).2 = p ∧
    (answer_addrs opt e 12 (a :: rest) m p).1 7 = m 7 ∧
    (answer_addrs opt e 12 (a :: rest) m p).1 9 = m 9 := by
  have hp := write_addr_plan opt m p e a
  have hn : addr_plan opt p e a = none := by
    cases hq : addr_plan opt p e a with
    | none => rfl
    | some r =>
      rw [hq] at hp
      exact absurd hp.2.1 hf
  rw [hn] at hp
  unfold answer_addrs
  dsimp only
  rw [if_neg hf]
  exact ⟨hp.2.2, hp.1 7 (by omega), hp.1 9 (by omega)⟩

theorem authority_ns_keeps (opt : dns_opt_t) (time : Nat → Nat) (s s2 : Resp)
    (h9 : 9 < s.outpos) (hs : authority_section opt time 12 s = some s2)
    (hb : s.have_ns = 0 ∧ s.out 7 ≠ 0)
    (hf : (write_record_ns s.out s.outpos BUFLEN [] 12 CLASS_IN opt.nsttl opt.ns).ret ≠ 0) :
    s2.outpos = s.outpos ∧ s2.out 7 = s.out 7 ∧ s2.out 9 = s.out 9 := by
  have hp := write_record_ns_plan opt s.out s.outpos BUFLEN opt.nsttl
  have hpos := write_record_ns_rewinds s.out s.outpos BUFLEN [] 12 CLASS_IN opt.nsttl opt.ns hf
  unfold authority_section at hs
  dsimp only at hs
  rw [if_pos hb, if_neg hf] at hs
  cases hs
  exact ⟨hpos, hp.1 7 (by omega), hp.1 9 (by omega)⟩

theorem authority_soa_keeps (opt : dns_opt_t) (time : Nat → Nat) (s s2 : Resp) (w : Wr)
    (h9 : 9 < s.outpos) (hs : authority_section opt time 12 s = some s2)
    (hb : s.out 7 = 0)
    (hw : write_record_soa s.out s.outpos BUFLEN [] 12 CLASS_IN opt.nsttl opt.ns opt.mbox
      (time 2) 604800 86400 2592000 604800 = some w)
    (hf : w.ret ≠ 0) :
    s2.outpos = s.outpos ∧ s2.out 7 = s.out 7 ∧ s2.out 9 = s.out 9 := by
  have hp := write_record_soa_plan opt s.out s.outpos BUFLEN (time 2) w hw
  have hpos := write_record_soa_rewinds s.out s.outpos BUFLEN [] 12 CLASS_IN opt.nsttl opt.ns
    opt.mbox (time 2) 604800 86400 2592000 604800 w hw hf
  have hnb : ¬ (s.have_ns = 0 ∧ s.out 7 ≠ 0) := fun hc => hc.2 hb
  unfold authority_section at hs
  dsimp only at hs
  rw [if_neg hnb, if_pos hb, hw] at hs
  dsimp only at hs
  rw [if_neg hf] at hs
  cases hs
  exact ⟨hpos, hp.1 7 (by omega), hp.1 9 (by omega)⟩

/-- C13. A record writer that returns a non-zero code leaves the write cursor
where it was on entry, whatever the cursor, end, owner name, offset and other
arguments (for `write_record_soa`: whenever it returns). And in `dnshandle` a
failed writer changes neither the cursor nor the counters: the NS and the SOA
step of the Answer section, a turn of the address loop, and the NS and the SOA
branch of the Authority section each leave the cursor, ANCOUNT (byte 7) and
NSCOUNT (byte 9) as they were when their writer returns non-zero. -/
theorem writers_atomic (m : Mem) (p : Nat) (e : Int) (name : List Nat) (offset : Int)
    (typ cls : Nat) (ttl : Int) (ip : addr_t) (ns mname : List Nat)
    (rname : Option (List Nat)) (s1 s2 s3 s4 s5 : Nat)
    (opt : dns_opt_t) (time : Nat → Nat) (qtyp qcls : Nat) (s : Resp) (h9 : 9 < s.outpos) :
    (((write_record m p e name offset typ cls ttl).ret ≠ 0 →
        (write_record m p e name offset typ cls ttl).outpos = p) ∧
      ((write_record_a m p e name offset cls ttl ip).ret ≠ 0 →
        (write_record_a m p e name offset cls ttl ip).outpos = p) ∧
      ((write_record_aaaa m p e name offset cls ttl ip).ret ≠ 0 →
        (write_record_aaaa m p e name offset cls ttl ip).outpos = p) ∧
      ((write_record_ns m p e name offset cls ttl ns).ret ≠ 0 →
        (write_record_ns m p e name offset cls ttl ns).outpos = p) ∧
      (∀ w, write_record_soa m p e name offset cls ttl mname rname s1 s2 s3 s4 s5 = some w →
        w.ret ≠ 0 → w.outpos = p)) ∧
    ((write_record_ns s.out s.outpos e [] 12 CLASS_IN opt.nsttl opt.ns).ret ≠ 0 →
      (answer_ns opt e 12 qtyp qcls s).outpos = s.outpos ∧
      (answer_ns opt e 12 qtyp qcls s).out 7 = s.out 7 ∧
      (answer_ns opt e 12 qtyp qcls s).out 9 = s.out 9) ∧
    (∀ t w, answer_soa opt time e 12 qtyp qcls s = some t →
      write_record_soa s.out s.outpos e [] 12 CLASS_IN opt.nsttl opt.ns opt.mbox
        (time 1) 604800 86400 2592000 604800 = some w → w.ret ≠ 0 →
      t.outpos = s.outpos ∧ t.out 7 = s.out 7 ∧ t.out 9 = s.out 9) ∧
    (∀ a rest, (write_addr opt e 12 s.out s.outpos a).ret ≠ 0 →
      (answer_addrs opt e 12 (a :: rest) s.out s.outpos).2 = s.outpos ∧
      (answer_addrs opt e 12 (a :: rest) s.out s.outpos).1 7 = s.out 7 ∧
      (answer_addrs opt e 12 (a :: rest) s.out s.outpos).1 9 = s.out 9) ∧
    (∀ t, authority_section opt time 12 s = some t → s.have_ns = 0 ∧ s.out 7 ≠ 0 →
      (write_record_ns s.out s.outpos BUFLEN [] 12 CLASS_IN opt.nsttl opt.ns).ret ≠ 0 →
      t.outpos = s.outpos ∧ t.out 7 = s.out 7 ∧ t.out 9 = s.out 9) ∧
    (∀ t w, authority_section opt time 12 s = some t → s.out 7 = 0 →
      write_record_soa s.out s.outpos BUFLEN [] 12 CLASS_IN opt.nsttl opt.ns opt.mbox
        (time 2) 604800 86400 2592000 604800 = some w → w.ret ≠ 0 →
      t.outpos = s.outpos ∧ t.out 7 = s.out 7 ∧ t.out 9 = s.out 9) :=
  ⟨⟨write_record_rewinds m p e name offset typ cls ttl,
    write_record_a_rewinds m p e name offset cls ttl ip,
    write_record_aaaa_rewinds m p e name offset cls ttl ip,
    write_record_ns_rewinds m p e name offset cls ttl ns,
    fun w hw hf => write_record_soa_rewinds m p e name offset cls ttl mname rname
      s1 s2 s3 s4 s5 w hw hf⟩,
   answer_ns_keeps opt e qtyp qcls s h9,
   fun t w ht hw hf => answer_soa_keeps opt time e qtyp qcls s t w h9 ht hw hf,
   fun a rest hf => answer_addrs_keeps opt e a rest s.out s.outpos h9 hf,
   fun t ht hb hf => authority_ns_keeps opt time s t h9 ht hb hf,
   fun t w ht hb hw hf => authority_soa_keeps opt time s t w h9 ht hb hw hf⟩

set_option maxRecDepth 100000 in
/-- C13 at a concrete input: an A record asked for at offset 500 of a 512-byte
buffer. The record head fits, the six bytes of RDLENGTH and RDATA do not; the
writer returns -5 and the cursor is back at 500. -/
theorem writers_atomic_witness :
    (write_record_a zero_mem 500 512 [] 12 CLASS_IN 60 ⟨4, [1, 2, 3, 4]⟩).ret = -5 ∧
    (write_record_a zero_mem 500 512 [] 12 CLASS_IN 60 ⟨4, [1, 2, 3, 4]⟩).outpos = 500 :=
  ⟨by decide,
   (writers_atomic zero_mem 500 512 [] 12 TYPE_A CLASS_IN 60 ⟨4, [1, 2, 3, 4]⟩ [] []
      none 0 0 0 0 0 zone_s clock0 1 1 ⟨zero_mem, 27, 0⟩ (by decide)).1.2.1 (by decide)⟩

/-! ### `parse_name` stays inside its buffers (C20) -/

theorem copy_label_log_fst (inbuf : List Nat) (inend bufsize : Nat) :
    ∀ (octet inpos : Nat) (buf rd : List Nat),
      (copy_label_log inbuf inend bufsize octet inpos buf rd).1
        = copy_label inbuf inend bufsize octet inpos buf := by
  intro octet
  induction octet with
  | zero => intro inpos buf rd; rfl
  | succ n ih =>
    intro inpos buf rd
    unfold copy_label_log copy_label
    by_cases h1 : inpos = inend
    · rw [if_pos h1, if_pos h1]
    · rw [if_neg h1, if_neg h1]
      by_cases h2 : buf.length + 1 = bufsize
      · rw [if_pos h2, if_pos h2]
      · rw [if_neg h2, if_neg h2]
        dsimp only
        by_cases h3 : inbuf.getD inpos 0 = 46
        · rw [if_pos h3, if_pos h3]
        · rw [if_neg h3, if_neg h3]
          exact ih _ _ _

theorem copy_label_log_reads (inbuf : List Nat) (inend bufsize B : Nat) (hB : inend ≤ B) :
    ∀ (octet inpos : Nat) (buf rd : List Nat), inpos ≤ inend → (∀ i ∈ rd, i < B) →
      ∀ i ∈ (copy_label_log inbuf inend bufsize octet inpos buf rd).2, i < B := by
  intro octet
  induction octet with
  | zero => intro inpos buf rd _ hrd; exact hrd
  | succ n ih =>
    intro inpos buf rd hle hrd
    unfold copy_label_log
    by_cases h1 : inpos = inend
    · rw [if_pos h1]; exact hrd
    · rw [if_neg h1]
      by_cases h2 : buf.length + 1 = bufsize
      · rw [if_pos h2]; exact hrd
      · rw [if_neg h2]
        dsimp only
        have hrd2 : ∀ i ∈ rd ++ [inpos], i < B := by
          intro i hi
          rcases List.mem_append.mp hi with h | h
          · exact hrd i h
          · rw [List.mem_singleton] at h; omega
        by_cases h3 : inbuf.getD inpos 0 = 46
        · rw [if_pos h3]; exact hrd2
        · rw [if_neg h3]; exact ih _ _ _ (by omega) hrd2

theorem copy_label_room (inbuf : List Nat) (inend bufsize : Nat) :
    ∀ (octet inpos : Nat) (buf : List Nat), buf.length < bufsize →
      (copy_label inbuf inend bufsize octet inpos buf).buf.length < bufsize ∧
      ∃ t, (copy_label inbuf inend bufsize octet inpos buf).buf = buf ++ t := by
  intro octet
  induction octet with
  | zero => intro inpos buf hb; exact ⟨hb, [], by simp [copy_label]⟩
  | succ n ih =>
    intro inpos buf hb
    unfold copy_label
    by_cases h1 : inpos = inend
    · rw [if_pos h1]; exact ⟨hb, [], by simp⟩
    · rw [if_neg h1]
      by_cases h2 : buf.length + 1 = bufsize
      · rw [if_pos h2]; exact ⟨hb, [], by simp⟩
      · rw [if_neg h2]
        dsimp only
        by_cases h3 : inbuf.getD inpos 0 = 46
        · rw [if_pos h3]; exact ⟨hb, [], by simp⟩
        · rw [if_neg h3]
          have hb2 : (buf ++ [inbuf.getD inpos 0]).length < bufsize := by
            rw [List.length_append, List.length_singleton]; omega
          obtain ⟨hl, t, ht⟩ := ih (inpos + 1) (buf ++ [inbuf.getD inpos 0]) hb2
          exact ⟨hl, inbuf.getD inpos 0 :: t, by rw [ht, List.append_assoc]; rfl⟩

theorem mem_snoc_lt {rd : List Nat} {x B : Nat} (hrd : ∀ i ∈ rd, i < B) (hx : x < B) :
    ∀ i ∈ rd ++ [x], i < B := by
  intro i hi
  rcases List.mem_append.mp hi with h | h
  · exact hrd i h
  · rw [List.mem_singleton] at h; omega

theorem parse_name_log_fst (inbuf : List Nat) :
    ∀ (fuel inpos inend bufsize : Nat) (buf : List Nat) (init : Bool) (rd : List Nat),
      (parse_name_log inbuf fuel inpos inend bufsize buf init rd).map Prod.fst
        = parse_name_fuel inbuf fuel inpos inend bufsize buf init := by
  intro fuel
  induction fuel with
  | zero => intro inpos inend bufsize buf init rd; rfl
  | succ n ih =>
    intro inpos inend bufsize buf init rd
    unfold parse_name_log parse_name_fuel
    by_cases h1 : inpos = inend
    · rw [if_pos h1, if_pos h1]; rfl
    · rw [if_neg h1, if_neg h1]
      dsimp only
      by_cases h2 : inbuf.getD inpos 0 = 0
      · rw [if_pos h2, if_pos h2]; rfl
      · rw [if_neg h2, if_neg h2]
        by_cases h3 : init = false ∧ buf.length + 1 = bufsize
        · rw [if_pos h3, if_pos h3]; rfl
        · rw [if_neg h3, if_neg h3]
          by_cases h4 : inbuf.getD inpos 0 &&& 0xC0 = 0xC0
          · rw [if_pos h4, if_pos h4]
            by_cases h5 : inpos + 1 = inend
            · rw [if_pos h5, if_pos h5]; rfl
            · rw [if_neg h5, if_neg h5]
              by_cases h6 : ((inbuf.getD inpos 0 - 0xC0) <<< 8) + inbuf.getD (inpos + 1) 0
                  ≥ inpos + 1 + 1 - 2
              · rw [if_pos h6, if_pos h6]; rfl
              · rw [if_neg h6, if_neg h6]
                rw [← ih]
                cases parse_name_log inbuf n
                  (((inbuf.getD inpos 0 - 0xC0) <<< 8) + inbuf.getD (inpos + 1) 0)
                  (inpos + 1 + 1 - 2)
                  (bufsize - (if init = false then buf ++ [46] else buf).length) [] true
                  (rd ++ [inpos] ++ [inpos + 1]) with
                | none => rfl
                | some q => rfl
          · rw [if_neg h4, if_neg h4]
            by_cases h5 : inbuf.getD inpos 0 > 63
            · rw [if_pos h5, if_pos h5]; rfl
            · rw [if_neg h5, if_neg h5]
              rw [copy_label_log_fst]
              by_cases h6 : (copy_label inbuf inend bufsize (inbuf.getD inpos 0) (inpos + 1)
                  (if init = false then buf ++ [46] else buf)).ret ≠ 0
              · rw [if_pos h6, if_pos h6]
                simp only [Option.map_some']
                rw [copy_label_log_fst]
              · rw [if_neg h6, if_neg h6]
                rw [ih]

theorem parse_name_log_bounds (inbuf : List Nat) (B : Nat) :
    ∀ (fuel inpos inend bufsize : Nat) (buf : List Nat) (init : Bool) (rd : List Nat)
      (r : ParseRes) (rd2 : List Nat),
      parse_name_log inbuf fuel inpos inend bufsize buf init rd = some (r, rd2) →
      inpos ≤ inend → inend ≤ B → (∀ i ∈ rd, i < B) → buf.length < bufsize →
      (∀ i ∈ rd2, i < B) ∧ r.buf.length ≤ bufsize ∧
      (r.ret = 0 → ∃ t, r.buf = buf ++ t ++ [0]) := by
  intro fuel
  induction fuel with
  | zero => intro inpos inend bufsize buf init rd r rd2 h; cases h
  | succ n ih =>
    intro inpos inend bufsize buf init rd r rd2 h hle hB hrd hb
    have neg1 : ¬ ((-1 : Int) = 0) := by decide
    have neg2 : ¬ ((-2 : Int) = 0) := by decide
    unfold parse_name_log at h
    by_cases h1 : inpos = inend
    · rw [if_pos h1] at h
      cases h
      exact ⟨hrd, by dsimp only; omega, fun h0 => absurd h0 neg1⟩
    · rw [if_neg h1] at h
      dsimp only at h
      have hrd1 : ∀ i ∈ rd ++ [inpos], i < B := mem_snoc_lt hrd (by omega)
      by_cases h2 : inbuf.getD inpos 0 = 0
      · rw [if_pos h2] at h
        cases h
        refine ⟨hrd1, ?_, fun _ => ⟨[], by simp⟩⟩
        dsimp only
        rw [List.length_append, List.length_singleton]
        omega
      · rw [if_neg h2] at h
        by_cases h3 : init = false ∧ buf.length + 1 = bufsize
        · rw [if_pos h3] at h
          cases h
          exact ⟨hrd1, by dsimp only; omega, fun h0 => absurd h0 neg2⟩
        · rw [if_neg h3] at h
          have hb2 : (if init = false then buf ++ [46] else buf).length < bufsize := by
            rw [dot_buf_length]
            cases init with
            | true => simp [dot_len]; exact hb
            | false =>
              have : ¬ buf.length + 1 = bufsize := fun hc => h3 ⟨rfl, hc⟩
              simp [dot_len]; omega
          have hpre : ∃ d, (if init = false then buf ++ [46] else buf) = buf ++ d := by
            cases init with
            | true => exact ⟨[], by simp⟩
            | false => exact ⟨[46], by simp⟩
          obtain ⟨d, hd⟩ := hpre
          by_cases h4 : inbuf.getD inpos 0 &&& 0xC0 = 0xC0
          · rw [if_pos h4] at h
            by_cases h5 : inpos + 1 = inend
            · rw [if_pos h5] at h
              cases h
              exact ⟨hrd1, by dsimp only; omega, fun h0 => absurd h0 neg1⟩
            · rw [if_neg h5] at h
              have hrd3 : ∀ i ∈ rd ++ [inpos] ++ [inpos + 1], i < B :=
                mem_snoc_lt hrd1 (by omega)
              by_cases h6 : ((inbuf.getD inpos 0 - 0xC0) <<< 8) + inbuf.getD (inpos + 1) 0
                  ≥ inpos + 1 + 1 - 2
              · rw [if_pos h6] at h
                cases h
                exact ⟨hrd3, by dsimp only; omega, fun h0 => absurd h0 neg1⟩
              · rw [if_neg h6] at h
                cases hq : parse_name_log inbuf n
                  (((inbuf.getD inpos 0 - 0xC0) <<< 8) + inbuf.getD (inpos + 1) 0)
                  (inpos + 1 + 1 - 2)
                  (bufsize - (if init = false then buf ++ [46] else buf).length) [] true
                  (rd ++ [inpos] ++ [inpos + 1]) with
                | none => rw [hq] at h; cases h
                | some q =>
                  obtain ⟨q1, q2⟩ := q
                  rw [hq] at h
                  cases h
                  obtain ⟨a1, a2, a3⟩ := ih _ _ _ _ _ _ _ _ hq (by omega) (by omega) hrd3
                    (by simp only [List.length_nil]; omega)
                  refine ⟨a1, ?_, ?_⟩
                  · dsimp only
                    rw [List.length_append]
                    omega
                  · intro h0
                    obtain ⟨t, ht⟩ := a3 h0
                    refine ⟨d ++ t, ?_⟩
                    dsimp only
                    rw [ht, hd]
                    simp
          · rw [if_neg h4] at h
            by_cases h5 : inbuf.getD inpos 0 > 63
            · rw [if_pos h5] at h
              cases h
              exact ⟨hrd1, by dsimp only; omega, fun h0 => absurd h0 neg1⟩
            · rw [if_neg h5] at h
              have hfst := copy_label_log_fst inbuf inend bufsize (inbuf.getD inpos 0)
                (inpos + 1) (if init = false then buf ++ [46] else buf) (rd ++ [inpos])
              have hreads := copy_label_log_reads inbuf inend bufsize B hB
                (inbuf.getD inpos 0) (inpos + 1)
                (if init = false then buf ++ [46] else buf) (rd ++ [inpos]) (by omega) hrd1
              obtain ⟨hroom, t, ht⟩ := copy_label_room inbuf inend bufsize
                (inbuf.getD inpos 0) (inpos + 1) (if init = false then buf ++ [46] else buf) hb2
              have hspec := copy_label_spec inbuf inend bufsize (inbuf.getD inpos 0)
                (inpos + 1) (if init = false then buf ++ [46] else buf) (by omega)
              rw [← hfst] at hroom ht hspec
              generalize copy_label_log inbuf inend bufsize (inbuf.getD inpos 0)
                (inpos + 1) (if init = false then buf ++ [46] else buf) (rd ++ [inpos]) = cl
                at h hreads hroom ht hspec
              obtain ⟨c1, c2⟩ := cl
              dsimp only at h hreads hroom ht hspec
              by_cases h6 : c1.ret ≠ 0
              · rw [if_pos h6] at h
                cases h
                exact ⟨hreads, by omega, fun h0 => absurd h0 h6⟩
              · rw [if_neg h6] at h
                have h0 : c1.ret = 0 := by
                  by_contra hc; exact h6 hc
                obtain ⟨e1, e2, _⟩ := hspec.2 h0
                obtain ⟨a1, a2, a3⟩ := ih _ _ _ _ _ _ _ _ h (by omega) hB hreads hroom
                refine ⟨a1, a2, ?_⟩
                intro hr0
                obtain ⟨t2, ht2⟩ := a3 hr0
                refine ⟨d ++ t ++ t2, ?_⟩
                rw [ht2, ht, hd]
                simp

theorem cstr_terminated (name : List Nat) : (cstr (name ++ [0])).length ≤ name.length := by
  induction name with
  | nil => simp [cstr]
  | cons a t ih =>
    unfold cstr at ih ⊢
    rw [List.cons_append, List.takeWhile_cons]
    by_cases ha : (a != 0) = true
    · rw [if_pos ha, List.length_cons, List.length_cons]
      omega
    · rw [if_neg ha]
      simp

/-- C20. For every input buffer, every start position not past the input end
and every output buffer of at least one byte, `parse_name` returns, every index
it reads (the log `rd` of the instrumented function, whose result is the one of
`parse_name`) is below `inend`, also on the reads made through compression
pointers, and the bytes it stores (the list `r.buf`, stored from index 0 on)
number at most `bufsize`. On success the stored bytes are a name of at most
`bufsize - 1` characters followed by the zero byte, so the C string in the
buffer has at most `bufsize - 1` characters. -/
theorem parse_name_in_bounds (inbuf : List Nat) (inpos inend bufsize : Nat)
    (h : inpos ≤ inend) (hb : 1 ≤ bufsize) :
    ∃ r rd, parse_name_log inbuf (parse_fuel inend) inpos inend bufsize [] true []
        = some (r, rd) ∧
      parse_name inbuf inpos inend bufsize = some r ∧
      (∀ i ∈ rd, i < inend) ∧
      r.buf.length ≤ bufsize ∧
      (r.ret = 0 → ∃ name, r.buf = name ++ [0] ∧ name.length ≤ bufsize - 1 ∧
        (cstr r.buf).length ≤ bufsize - 1) := by
  obtain ⟨r, hr, _⟩ := parse_name_total inbuf inpos inend bufsize h
  have hf := parse_name_log_fst inbuf (parse_fuel inend) inpos inend bufsize [] true []
  unfold parse_name at hr
  rw [hr] at hf
  cases hq : parse_name_log inbuf (parse_fuel inend) inpos inend bufsize [] true [] with
  | none => rw [hq] at hf; cases hf
  | some q =>
    obtain ⟨q1, q2⟩ := q
    rw [hq] at hf
    simp only [Option.map_some', Option.some.injEq] at hf
    subst hf
    obtain ⟨a1, a2, a3⟩ := parse_name_log_bounds inbuf inend _ _ _ _ _ _ _ _ _ hq h
      (Nat.le_refl _) (by intro i hi; cases hi) (by simp only [List.length_nil]; omega)
    refine ⟨q1, q2, rfl, hr, a1, a2, ?_⟩
    intro h0
    obtain ⟨t, ht⟩ := a3 h0
    rw [List.nil_append] at ht
    have hl : t.length + 1 = q1.buf.length := by rw [ht]; simp
    refine ⟨t, ht, by omega, ?_⟩
    have := cstr_terminated t
    rw [← ht] at this
    omega

set_option maxRecDepth 100000 in
/-- C20 at the query of scenario S1, with the 256-byte buffer of `dnshandle`:
the name read has at most 255 characters. -/
theorem parse_name_in_bounds_witness :
    ∃ r, parse_name s1_query 12 s1_query.length 256 = some r ∧ r.buf.length ≤ 256 ∧
      (r.ret = 0 → (cstr r.buf).length ≤ 255) := by
  obtain ⟨r, _, _, h1, _, h2, h3⟩ :=
    parse_name_in_bounds s1_query 12 s1_query.length 256 (by decide) (by decide)
  exact ⟨r, h1, h2, fun h0 => (h3 h0).elim fun _ hn => hn.2.2⟩

/-! ### The result classes of `write_name` (C17) -/

theorem label_bytes_cons (l : List Nat) (ls : List (List Nat)) :
    label_bytes (l :: ls) = l.length :: l ++ label_bytes ls := by
  simp [label_bytes]

theorem label_bytes_length (ls : List (List Nat)) :
    (label_bytes ls).length = (ls.map (fun l => l.length + 1)).sum := by
  induction ls with
  | nil => rfl
  | cons l t ih =>
    rw [label_bytes_cons, List.map_cons, List.sum_cons, List.length_append,
      List.length_cons, ih]

theorem name_labels_eq (fuel : Nat) : ∀ (name bs : List Nat),
    name_labels fuel name = some bs → label_bytes (labels_of fuel name) = bs := by
  induction fuel with
  | zero =>
    intro name bs h
    simp only [name_labels, Option.some.injEq] at h
    subst h
    rfl
  | succ fuel ih =>
    intro name bs h
    unfold name_labels at h
    unfold labels_of
    by_cases hn : name = []
    · rw [if_pos hn] at h ⊢
      simp only [Option.some.injEq] at h
      subst h
      rfl
    · rw [if_neg hn] at h ⊢
      dsimp only at h
      split at h
      · cases h
      · cases hd : name.dropWhile (fun c => c != 46) with
        | nil =>
          rw [hd] at h
          simp only [Option.some.injEq] at h
          subst h
          simp [label_bytes]
        | cons d rest =>
          rw [hd] at h
          dsimp only at h ⊢
          cases hr : name_labels fuel rest with
          | none => rw [hr] at h; cases h
          | some t =>
            rw [hr] at h
            simp only [Option.some.injEq] at h
            subst h
            rw [label_bytes_cons, ih rest t hr]

theorem write_name_labels_class (offset : Int) (fuel : Nat) :
    ∀ (m : Mem) (p : Nat) (e : Int) (name : List Nat),
      ((write_name_labels fuel m p e name).ret ≠ 0 →
        name_class 1 offset (labels_of fuel name) (e - p)
          = (write_name_labels fuel m p e name).ret) ∧
      ((write_name_labels fuel m p e name).ret = 0 →
        name_class 1 offset (labels_of fuel name) (e - p)
          = name_class 1 offset [] (e - (write_name_labels fuel m p e name).outpos) ∧
        (write_name_labels fuel m p e name).outpos
          = p + (label_bytes (labels_of fuel name)).length ∧
        ((p : Int) ≤ e → ((write_name_labels fuel m p e name).outpos : Int) ≤ e)) := by
  induction fuel with
  | zero =>
    intro m p e name
    simp [write_name_labels, labels_of, label_bytes]
  | succ fuel ih =>
    intro m p e name
    by_cases hn : name = []
    · simp [write_name_labels, labels_of, hn, label_bytes]
    · simp only [write_name_labels, labels_of, hn, if_false]
      generalize hl : name.takeWhile (fun c => c != 46) = label
      generalize hd : name.dropWhile (fun c => c != 46) = dot
      have hcls : ∀ (rest : List (List Nat)),
          name_class 1 offset (label :: rest) (e - p) =
            if label.length > 63 then -1 else if label.length = 0 then -3
            else if e - (p : Int) < (label.length : Int) + 2 then -2
            else name_class 1 offset rest (e - p - ((label.length : Int) + 1)) := by
        intro rest
        rw [name_class]
        have e1 : (label.length : Int) + 1 + 1 = (label.length : Int) + 2 := by omega
        rw [e1]
      by_cases h63 : label.length > 63
      · cases dot <;> simp [hcls, h63]
      · by_cases h0 : label.length = 0
        · cases dot <;> simp [hcls, h0]
        · by_cases hroom : e - (p : Int) < (label.length : Int) + 2
          · cases dot <;> simp [hcls, h63, h0, hroom]
          · simp only [h63, h0, hroom, if_false]
            cases dot with
            | nil =>
              simp only [hcls, h63, h0, hroom, if_false]
              refine ⟨fun h => absurd rfl h, fun _ => ⟨?_, ?_, ?_⟩⟩
              · congr 1
                push_cast
                omega
              · simp [label_bytes]; omega
              · intro _; push_cast; omega
            | cons d rest =>
              simp only [hcls, h63, h0, hroom, if_false]
              obtain ⟨i1, i2⟩ := ih (put_bytes (poke m p label.length) (p + 1) label)
                (p + 1 + label.length) e rest
              have e2 : e - ((p + 1 + label.length : Nat) : Int)
                  = e - p - ((label.length : Int) + 1) := by push_cast; omega
              rw [e2] at i1 i2
              refine ⟨i1, fun h => ?_⟩
              obtain ⟨j1, j2, j3⟩ := i2 h
              refine ⟨j1, ?_, ?_⟩
              · rw [j2, label_bytes_cons]
                simp; omega
              · intro _
                exact j3 (by push_cast; omega)

/-- The bytes that end a name: the zero octet for `offset < 0`, the pointer to
`offset` otherwise. -/
theorem name_tail_length (offset : Int) :
    (if offset < 0 then [0] else name_ptr offset).length = if offset < 0 then 1 else 2 := by
  by_cases h : offset < 0
  · rw [if_pos h, if_pos h]; rfl
  · rw [if_neg h, if_neg h]; rfl

theorem write_name_spec (m : Mem) (p : Nat) (e : Int) (name : List Nat) (offset : Int)
    (hpe : (p : Int) ≤ e) :
    (write_name m p e name offset).ret
      = name_class 1 offset (labels_of name.length name) (e - p) ∧
    Agree m (write_name m p e name offset).out p ∧
    ((write_name m p e name offset).ret = 0 →
      (write_name m p e name offset).outpos
        = p + (label_bytes (labels_of name.length name) ++
            (if offset < 0 then [0] else name_ptr offset)).length ∧
      body_of (write_name m p e name offset).out p
          (p + (label_bytes (labels_of name.length name) ++
            (if offset < 0 then [0] else name_ptr offset)).length)
        = label_bytes (labels_of name.length name) ++
            (if offset < 0 then [0] else name_ptr offset) ∧
      ((write_name m p e name offset).outpos : Int) ≤ e) := by
  obtain ⟨ha, hs⟩ := write_name_labels_spec name.length m p e name
  obtain ⟨c1, c2⟩ := write_name_labels_class offset name.length m p e name
  have neg2 : ¬ ((-2 : Int) = 0) := by decide
  unfold write_name
  generalize write_name_labels name.length m p e name = r at ha hs c1 c2
  dsimp only
  by_cases hr : r.ret = 0
  · obtain ⟨k1, k2, k3⟩ := c2 hr
    have k3 := k3 hpe
    have hne : ¬ r.ret ≠ 0 := fun hc => hc hr
    rw [if_neg hne]
    cases hl : name_labels name.length name with
    | none =>
      rw [hl] at hs
      exact absurd hr hs
    | some bs =>
      rw [hl] at hs
      dsimp only at hs
      have hbs := name_labels_eq name.length name bs hl
      rw [hbs] at k2 ⊢
      have hbody : body_of r.out p (p + bs.length) = bs := by
        by_cases hc : bs = [] ∨ (p : Int) + bs.length + 1 ≤ e
        · rw [if_pos hc] at hs; exact hs.2.2
        · rw [if_neg hc] at hs; exact absurd hr hs
      rw [k1]
      unfold name_class
      by_cases ho : offset < 0
      · simp only [if_pos ho]
        by_cases he : e = (r.outpos : Int)
        · rw [if_pos he]
          have : e - (r.outpos : Int) < 1 := by omega
          rw [if_pos this]
          exact ⟨rfl, ha, fun h => absurd h neg2⟩
        · rw [if_neg he]
          have : ¬ e - (r.outpos : Int) < 1 := by omega
          rw [if_neg this]
          refine ⟨rfl, ?_, fun _ => ⟨?_, ?_, ?_⟩⟩
          · exact Agree.trans ha (agree_poke r.out p r.outpos 0 (by omega)) (le_refl _)
          · dsimp only
            rw [k2, List.length_append, List.length_singleton]
            omega
          · dsimp only
            rw [k2]
            exact body_put_append r.out p bs [0] hbody
          · dsimp only
            push_cast
            omega
      · simp only [if_neg ho]
        by_cases he : e - (r.outpos : Int) < 2
        · rw [if_pos he, if_pos he]
          exact ⟨rfl, ha, fun h => absurd h neg2⟩
        · rw [if_neg he, if_neg he]
          refine ⟨rfl, ?_, fun _ => ⟨?_, ?_, ?_⟩⟩
          · exact Agree.trans ha (agree_put_bytes r.out p r.outpos _ (by omega)) (le_refl _)
          · dsimp only
            rw [k2, List.length_append]
            simp [name_ptr]
            omega
          · dsimp only
            rw [k2]
            exact body_put_append r.out p bs (name_ptr offset) hbody
          · dsimp only
            push_cast
            omega
  · have hne : r.ret ≠ 0 := hr
    rw [if_pos hne]
    exact ⟨(c1 hne).symm, ha, fun h => absurd h hr⟩

/-- C17, as amended. For every name, offset and window `[p, e)` with `p ≤ e`,
`write_name` returns the class of the labels read left to right: -1 at the
first label longer than 63 characters, -3 at the first empty label, -2 at the
first label for which the window has fewer than its length + 2 bytes left, -2
after the last label when the terminator (1 byte, `offset < 0`) or the pointer
(2 bytes) does not fit, and 0 otherwise. On success the cursor has advanced by
the sum over the labels of length + 1, plus 1 for `offset < 0` and 2 otherwise,
and the bytes stored are each label's length octet and characters, then the
zero octet or the two pointer bytes. The bytes below the cursor are left
alone. -/
theorem write_name_classified (m : Mem) (p : Nat) (e : Int) (name : List Nat)
    (offset : Int) (hpe : (p : Int) ≤ e) :
    (write_name m p e name offset).ret
      = name_class 1 offset (labels_of name.length name) (e - p) ∧
    Agree m (write_name m p e name offset).out p ∧
    ((write_name m p e name offset).ret = 0 →
      (write_name m p e name offset).outpos
        = p + ((labels_of name.length name).map (fun l => l.length + 1)).sum +
            (if offset < 0 then 1 else 2) ∧
      body_of (write_name m p e name offset).out p (write_name m p e name offset).outpos
        = label_bytes (labels_of name.length name) ++
            (if offset < 0 then [0]
             else [((offset.toNat >>> 8) ||| 0xC0) % 256, offset.toNat &&& 0xFF])) := by
  obtain ⟨h1, h2, h3⟩ := write_name_spec m p e name offset hpe
  refine ⟨h1, h2, fun h0 => ?_⟩
  obtain ⟨k1, k2, _⟩ := h3 h0
  constructor
  · rw [k1, List.length_append, label_bytes_length, name_tail_length]
    omega
  · rw [k1]
    exact k2

set_option maxRecDepth 100000 in
/-- C17 at a concrete input: the name `ns.x.example` written without a pointer
into a window of 14 bytes takes all of them. -/
theorem write_name_classified_witness :
    (write_name zero_mem 0 14 (str "ns.x.example") (-1)).ret = 0 ∧
    (write_name zero_mem 0 14 (str "ns.x.example") (-1)).outpos = 14 := by
  have h := write_name_classified zero_mem 0 14 (str "ns.x.example") (-1) (by decide)
  have h0 : (write_name zero_mem 0 14 (str "ns.x.example") (-1)).ret = 0 := by
    rw [h.1]; decide
  refine ⟨h0, ?_⟩
  rw [(h.2.2 h0).1]
  decide

set_option maxRecDepth 100000 in
/-- C17, the counterexample. The name `a..b` and a window of two bytes: the
label `a` takes two bytes and the window holds them, so by the wording of the
specification (`extra = 0`) the first offending label is the empty one that
follows and the class is -3; `write_name` asks for three free bytes at line
130 and returns -2. -/
theorem write_name_spare_byte :
    labels_of 4 (str "a..b") = [[97], [], [98]] ∧
    name_class 0 (-1) (labels_of 4 (str "a..b")) 2 = -3 ∧
    (write_name zero_mem 0 2 (str "a..b") (-1)).ret = -2 := by
  decide

/-! ### Record framing (C18) -/

theorem and_255 (n : Nat) : n &&& 0xFF = n % 256 := Nat.and_pow_two_sub_one_eq_mod n 8

theorem be16_of_shift (n : Nat) (h : n < 65536) : [n >>> 8, n &&& 0xFF] = be16 n := by
  rw [and_255, Nat.shiftRight_eq_div_pow]
  have h2 : n / 2 ^ 8 < 256 := by
    rw [Nat.div_lt_iff_lt_mul (by norm_num)]; omega
  unfold be16
  have h3 : n / 256 % 256 = n / 2 ^ 8 := by
    rw [show (2 : Nat) ^ 8 = 256 from rfl] at h2 ⊢
    exact Nat.mod_eq_of_lt h2
  rw [h3]

theorem rdlength_be16 (n : Nat) : rdlength n = be16 n := by
  unfold rdlength be16
  rw [and_255, Nat.shiftRight_eq_div_pow]

theorem be32_be32_of (x : Nat) : be32 x = be32_of (x % 4294967296) := by
  unfold be32 be32_of
  simp only [and_255, Nat.shiftRight_eq_div_pow]
  have e : (2 : Nat) ^ 32 = 4294967296 := rfl
  rw [e]

theorem int_be32_be32_of (x : Int) : int_be32 x = be32_of (x % 4294967296).toNat := by
  unfold int_be32 be32_of int_byte
  simp only [Int.shiftRight_eq_div_pow]
  norm_num
  refine ⟨?_, ?_, ?_, ?_⟩ <;> omega

theorem rr_fixed_length (typ cls : Nat) (ttl : Int) : (rr_fixed typ cls ttl).length = 8 := rfl

theorem write_record_ok (m : Mem) (p : Nat) (e : Int) (name : List Nat) (offset : Int)
    (typ cls : Nat) (ttl : Int) (hpe : (p : Int) ≤ e)
    (h0 : (write_record m p e name offset typ cls ttl).ret = 0) :
    (write_record m p e name offset typ cls ttl).outpos
      = p + (owner_bytes name offset ++ rr_fixed typ cls ttl).length ∧
    body_of (write_record m p e name offset typ cls ttl).out p
      (p + (owner_bytes name offset ++ rr_fixed typ cls ttl).length)
      = owner_bytes name offset ++ rr_fixed typ cls ttl ∧
    Agree m (write_record m p e name offset typ cls ttl).out p ∧
    ((write_record m p e name offset typ cls ttl).outpos : Int) ≤ e := by
  obtain ⟨_, ha, hs⟩ := write_name_spec m p e name offset hpe
  unfold write_record at h0 ⊢
  dsimp only at h0 ⊢
  generalize write_name m p e name offset = r at ha hs h0
  by_cases hr : r.ret ≠ 0
  · rw [if_pos hr] at h0
    exact absurd h0 hr
  · rw [if_neg hr] at h0 ⊢
    have hr0 : r.ret = 0 := by
      by_contra hc; exact hr hc
    obtain ⟨k1, k2, _⟩ := hs hr0
    by_cases h8 : e - (r.outpos : Int) < 8
    · rw [if_pos h8] at h0
      exact absurd h0 (show ¬ ((-4 : Int) = 0) by decide)
    · rw [if_neg h8]
      dsimp only
      have k1b : r.outpos = p + (owner_bytes name offset).length := k1
      refine ⟨?_, ?_, ?_, ?_⟩
      · rw [k1b, List.length_append, rr_fixed_length]
        omega
      · rw [k1b]
        exact body_put_append r.out p (owner_bytes name offset) (rr_fixed typ cls ttl) k2
      · exact Agree.trans ha (agree_put_bytes r.out p r.outpos _ (by omega)) (le_refl _)
      · push_cast
        omega

theorem write_record_a_ok (m : Mem) (p : Nat) (e : Int) (name : List Nat) (offset : Int)
    (cls : Nat) (ttl : Int) (ip : addr_t) (hpe : (p : Int) ≤ e)
    (h0 : (write_record_a m p e name offset cls ttl ip).ret = 0) :
    ip.v = 4 ∧
    (write_record_a m p e name offset cls ttl ip).outpos
      = p + (owner_bytes name offset ++ rr_fixed TYPE_A cls ttl ++
          ([0, 4] ++ (List.range 4).map ip.byte)).length ∧
    body_of (write_record_a m p e name offset cls ttl ip).out p
      (p + (owner_bytes name offset ++ rr_fixed TYPE_A cls ttl ++
          ([0, 4] ++ (List.range 4).map ip.byte)).length)
      = owner_bytes name offset ++ rr_fixed TYPE_A cls ttl ++
          ([0, 4] ++ (List.range 4).map ip.byte) := by
  unfold write_record_a at h0 ⊢
  by_cases hv : ip.v ≠ 4
  · rw [if_pos hv] at h0
    exact absurd h0 (show ¬ ((-6 : Int) = 0) by decide)
  · rw [if_neg hv] at h0 ⊢
    dsimp only at h0 ⊢
    have hv4 : ip.v = 4 := by
      by_contra hc; exact hv hc
    by_cases hr : (write_record m p e name offset TYPE_A cls ttl).ret ≠ 0
    · rw [if_pos hr] at h0
      exact absurd h0 hr
    · rw [if_neg hr] at h0 ⊢
      have hr0 : (write_record m p e name offset TYPE_A cls ttl).ret = 0 := by
        by_contra hc; exact hr hc
      obtain ⟨k1, k2, _, _⟩ := write_record_ok m p e name offset TYPE_A cls ttl hpe hr0
      generalize write_record m p e name offset TYPE_A cls ttl = r at k1 k2 h0
      by_cases h6 : e - (r.outpos : Int) < 6
      · rw [if_pos h6] at h0
        exact absurd h0 (show ¬ ((-5 : Int) = 0) by decide)
      · rw [if_neg h6]
        dsimp only
        refine ⟨hv4, ?_, ?_⟩
        · rw [k1, List.length_append (owner_bytes name offset ++ rr_fixed TYPE_A cls ttl)]
          simp
          omega
        · rw [k1]
          exact body_put_append r.out p _ _ k2

theorem write_record_aaaa_ok (m : Mem) (p : Nat) (e : Int) (name : List Nat) (offset : Int)
    (cls : Nat) (ttl : Int) (ip : addr_t) (hpe : (p : Int) ≤ e)
    (h0 : (write_record_aaaa m p e name offset cls ttl ip).ret = 0) :
    ip.v = 6 ∧
    (write_record_aaaa m p e name offset cls ttl ip).outpos
      = p + (owner_bytes name offset ++ rr_fixed TYPE_AAAA cls ttl ++
          ([0, 16] ++ (List.range 16).map ip.byte)).length ∧
    body_of (write_record_aaaa m p e name offset cls ttl ip).out p
      (p + (owner_bytes name offset ++ rr_fixed TYPE_AAAA cls ttl ++
          ([0, 16] ++ (List.range 16).map ip.byte)).length)
      = owner_bytes name offset ++ rr_fixed TYPE_AAAA cls ttl ++
          ([0, 16] ++ (List.range 16).map ip.byte) := by
  unfold write_record_aaaa at h0 ⊢
  by_cases hv : ip.v ≠ 6
  · rw [if_pos hv] at h0
    exact absurd h0 (show ¬ ((-6 : Int) = 0) by decide)
  · rw [if_neg hv] at h0 ⊢
    dsimp only at h0 ⊢
    have hv6 : ip.v = 6 := by
      by_contra hc; exact hv hc
    by_cases hr : (write_record m p e name offset TYPE_AAAA cls ttl).ret ≠ 0
    · rw [if_pos hr] at h0
      exact absurd h0 hr
    · rw [if_neg hr] at h0 ⊢
      have hr0 : (write_record m p e name offset TYPE_AAAA cls ttl).ret = 0 := by
        by_contra hc; exact hr hc
      obtain ⟨k1, k2, _, _⟩ := write_record_ok m p e name offset TYPE_AAAA cls ttl hpe hr0
      generalize write_record m p e name offset TYPE_AAAA cls ttl = r at k1 k2 h0
      by_cases h6 : e - (r.outpos : Int) < 6
      · rw [if_pos h6] at h0
        exact absurd h0 (show ¬ ((-5 : Int) = 0) by decide)
      · rw [if_neg h6]
        dsimp only
        refine ⟨hv6, ?_, ?_⟩
        · rw [k1, List.length_append (owner_bytes name offset ++ rr_fixed TYPE_AAAA cls ttl)]
          simp
          omega
        · rw [k1]
          exact body_put_append r.out p _ _ k2

theorem write_record_ns_ok (m : Mem) (p : Nat) (e : Int) (name : List Nat) (offset : Int)
    (cls : Nat) (ttl : Int) (ns : List Nat) (hpe : (p : Int) ≤ e)
    (h0 : (write_record_ns m p e name offset cls ttl ns).ret = 0) :
    (write_record_ns m p e name offset cls ttl ns).outpos
      = p + (owner_bytes name offset ++ rr_fixed TYPE_NS cls ttl ++
          (rdlength (owner_bytes ns (-1)).length ++ owner_bytes ns (-1))).length ∧
    body_of (write_record_ns m p e name offset cls ttl ns).out p
      (p + (owner_bytes name offset ++ rr_fixed TYPE_NS cls ttl ++
          (rdlength (owner_bytes ns (-1)).length ++ owner_bytes ns (-1))).length)
      = owner_bytes name offset ++ rr_fixed TYPE_NS cls ttl ++
          (rdlength (owner_bytes ns (-1)).length ++ owner_bytes ns (-1)) ∧
    ((write_record_ns m p e name offset cls ttl ns).outpos : Int) ≤ e := by
  unfold write_record_ns at h0 ⊢
  dsimp only at h0 ⊢
  by_cases hr : (write_record m p e name offset TYPE_NS cls ttl).ret ≠ 0
  · rw [if_pos hr] at h0
    exact absurd h0 hr
  · rw [if_neg hr] at h0 ⊢
    have hr0 : (write_record m p e name offset TYPE_NS cls ttl).ret = 0 := by
      by_contra hc; exact hr hc
    obtain ⟨k1, k2, _, _⟩ := write_record_ok m p e name offset TYPE_NS cls ttl hpe hr0
    generalize write_record m p e name offset TYPE_NS cls ttl = r at k1 k2 h0
    by_cases h2 : e - (r.outpos : Int) < 2
    · rw [if_pos h2] at h0
      exact absurd h0 (show ¬ ((-5 : Int) = 0) by decide)
    · rw [if_neg h2] at h0 ⊢
      obtain ⟨_, wa, ws⟩ := write_name_spec r.out (r.outpos + 2) e ns (-1)
        (by push_cast; omega)
      generalize write_name r.out (r.outpos + 2) e ns (-1) = w at wa ws h0
      by_cases hw : w.ret ≠ 0
      · rw [if_pos hw] at h0
        exact absurd h0 hw
      · rw [if_neg hw]
        have hw0 : w.ret = 0 := by
          by_contra hc; exact hw hc
        obtain ⟨w1, w2, w3⟩ := ws hw0
        have w1b : w.outpos = r.outpos + 2 + (owner_bytes ns (-1)).length := w1
        have w2b : body_of w.out (r.outpos + 2) (r.outpos + 2 + (owner_bytes ns (-1)).length)
            = owner_bytes ns (-1) := w2
        dsimp only
        have hn : w.outpos - (r.outpos + 2) = (owner_bytes ns (-1)).length := by omega
        rw [hn]
        have hb := body_patched p (owner_bytes ns (-1)).length
          (owner_bytes name offset ++ rr_fixed TYPE_NS cls ttl) (owner_bytes ns (-1))
          r.out w.out k2 (by rw [← k1]; exact wa) (by rw [← k1]; exact w2b)
        rw [← k1] at hb
        refine ⟨?_, hb, w3⟩
        rw [w1b, k1, List.length_append
          (owner_bytes name offset ++ rr_fixed TYPE_NS cls ttl)]
        simp [rdlength]
        omega

theorem write_record_soa_ok (m : Mem) (p : Nat) (e : Int) (name : List Nat) (offset : Int)
    (cls : Nat) (ttl : Int) (mname : List Nat) (rname : Option (List Nat))
    (s1 s2 s3 s4 s5 : Nat) (w : Wr) (hpe : (p : Int) ≤ e)
    (hw : write_record_soa m p e name offset cls ttl mname rname s1 s2 s3 s4 s5 = some w)
    (h0 : w.ret = 0) :
    ∃ rn, rname = some rn ∧
      w.outpos = p + (owner_bytes name offset ++ rr_fixed TYPE_SOA cls ttl ++
        (rdlength (soa_rdata (owner_bytes mname (-1)) (owner_bytes rn (-1))
            s1 s2 s3 s4 s5).length ++
          soa_rdata (owner_bytes mname (-1)) (owner_bytes rn (-1)) s1 s2 s3 s4 s5)).length ∧
      body_of w.out p w.outpos
        = owner_bytes name offset ++ rr_fixed TYPE_SOA cls ttl ++
          (rdlength (soa_rdata (owner_bytes mname (-1)) (owner_bytes rn (-1))
              s1 s2 s3 s4 s5).length ++
            soa_rdata (owner_bytes mname (-1)) (owner_bytes rn (-1)) s1 s2 s3 s4 s5) ∧
      (w.outpos : Int) ≤ e := by
  unfold write_record_soa at hw
  dsimp only at hw
  by_cases hr : (write_record m p e name offset TYPE_SOA cls ttl).ret ≠ 0
  · rw [if_pos hr] at hw
    cases hw
    exact absurd h0 hr
  · rw [if_neg hr] at hw
    have hr0 : (write_record m p e name offset TYPE_SOA cls ttl).ret = 0 := by
      by_contra hc; exact hr hc
    obtain ⟨k1, k2, _, _⟩ := write_record_ok m p e name offset TYPE_SOA cls ttl hpe hr0
    generalize write_record m p e name offset TYPE_SOA cls ttl = r at k1 k2 hw
    by_cases h2 : e - (r.outpos : Int) < 2
    · rw [if_pos h2] at hw
      cases hw
      exact absurd h0 (show ¬ ((-5 : Int) = 0) by decide)
    · rw [if_neg h2] at hw
      obtain ⟨_, wa, ws⟩ := write_name_spec r.out (r.outpos + 2) e mname (-1)
        (by push_cast; omega)
      generalize write_name r.out (r.outpos + 2) e mname (-1) = w1 at wa ws hw
      by_cases hw1 : w1.ret ≠ 0
      · rw [if_pos hw1] at hw
        cases hw
        exact absurd h0 hw1
      · rw [if_neg hw1] at hw
        have hw10 : w1.ret = 0 := by
          by_contra hc; exact hw1 hc
        obtain ⟨a1, a2, a3⟩ := ws hw10
        have a1b : w1.outpos = r.outpos + 2 + (owner_bytes mname (-1)).length := a1
        have a2b : body_of w1.out (r.outpos + 2)
            (r.outpos + 2 + (owner_bytes mname (-1)).length) = owner_bytes mname (-1) := a2
        cases rname with
        | none => cases hw
        | some rn =>
          dsimp only at hw
          obtain ⟨_, wb, wt⟩ := write_name_spec w1.out w1.outpos e rn (-1) a3
          generalize write_name w1.out w1.outpos e rn (-1) = w2 at wb wt hw
          by_cases hw2 : w2.ret ≠ 0
          · rw [if_pos hw2] at hw
            cases hw
            exact absurd h0 hw2
          · rw [if_neg hw2] at hw
            have hw20 : w2.ret = 0 := by
              by_contra hc; exact hw2 hc
            obtain ⟨b1, b2, b3⟩ := wt hw20
            have b1b : w2.outpos = w1.outpos + (owner_bytes rn (-1)).length := b1
            have b2b : body_of w2.out w1.outpos (w1.outpos + (owner_bytes rn (-1)).length)
                = owner_bytes rn (-1) := b2
            by_cases h20 : e - (w2.outpos : Int) < 20
            · rw [if_pos h20] at hw
              cases hw
              exact absurd h0 (show ¬ ((-5 : Int) = 0) by decide)
            · rw [if_neg h20] at hw
              cases hw
              dsimp only
              refine ⟨rn, rfl, ?_⟩
              have q1 : body_of w2.out (r.outpos + 2)
                  (r.outpos + 2 + (owner_bytes mname (-1) ++ owner_bytes rn (-1)).length)
                  = owner_bytes mname (-1) ++ owner_bytes rn (-1) := by
                apply body_extend w1.out w2.out (r.outpos + 2) _ _ a2b
                · rw [← a1b]; exact wb
                · rw [← a1b]; exact b2b
              have q2 := body_put_append w2.out (r.outpos + 2)
                (owner_bytes mname (-1) ++ owner_bytes rn (-1))
                (be32 s1 ++ be32 s2 ++ be32 s3 ++ be32 s4 ++ be32 s5) q1
              have e5 : r.outpos + 2 + (owner_bytes mname (-1) ++ owner_bytes rn (-1)).length
                  = w2.outpos := by
                rw [b1b, a1b, List.length_append]; omega
              rw [e5] at q2
              have e6 : (owner_bytes mname (-1) ++ owner_bytes rn (-1) ++
                  (be32 s1 ++ be32 s2 ++ be32 s3 ++ be32 s4 ++ be32 s5))
                  = soa_rdata (owner_bytes mname (-1)) (owner_bytes rn (-1))
                      s1 s2 s3 s4 s5 := by
                simp [soa_rdata]
              rw [e6] at q2
              have hlen := soa_rdata_length (owner_bytes mname (-1)) (owner_bytes rn (-1))
                s1 s2 s3 s4 s5
              have hn : w2.outpos + 20 - (r.outpos + 2)
                  = (soa_rdata (owner_bytes mname (-1)) (owner_bytes rn (-1))
                      s1 s2 s3 s4 s5).length := by
                rw [hlen]; omega
              rw [hn]
              have hag : Agree r.out (put_bytes w2.out w2.outpos
                  (be32 s1 ++ be32 s2 ++ be32 s3 ++ be32 s4 ++ be32 s5))
                  (p + (owner_bytes name offset ++ rr_fixed TYPE_SOA cls ttl).length + 2) := by
                rw [← k1]
                exact Agree.trans (Agree.trans wa wb (by omega))
                  (agree_put_bytes _ _ _ _ (by omega)) (le_refl _)
              have hb := body_patched p
                (soa_rdata (owner_bytes mname (-1)) (owner_bytes rn (-1))
                  s1 s2 s3 s4 s5).length
                (owner_bytes name offset ++ rr_fixed TYPE_SOA cls ttl)
                (soa_rdata (owner_bytes mname (-1)) (owner_bytes rn (-1)) s1 s2 s3 s4 s5)
                r.out _ k2 hag (by rw [← k1]; exact q2)
              rw [← k1] at hb
              have hpos : w2.outpos + 20 = p + (owner_bytes name offset ++
                  rr_fixed TYPE_SOA cls ttl ++
                  (rdlength (soa_rdata (owner_bytes mname (-1)) (owner_bytes rn (-1))
                      s1 s2 s3 s4 s5).length ++
                    soa_rdata (owner_bytes mname (-1)) (owner_bytes rn (-1))
                      s1 s2 s3 s4 s5)).length := by
                rw [List.length_append
                  (owner_bytes name offset ++ rr_fixed TYPE_SOA cls ttl),
                  List.length_append (rdlength _), hlen]
                simp only [rdlength, List.length_cons, List.length_nil]
                omega
              refine ⟨hpos, ?_, ?_⟩
              · rw [hpos]
                exact hb
              · push_cast
                omega

theorem rr_fixed_be (typ cls : Nat) (ttl : Int) (ht : typ < 65536) (hc : cls < 65536) :
    rr_fixed typ cls ttl = be16 typ ++ be16 cls ++ be32_of (ttl % 4294967296).toNat := by
  have h1 := be16_of_shift typ ht
  have h2 := be16_of_shift cls hc
  have h3 := int_be32_be32_of ttl
  unfold rr_fixed
  rw [h3]
  unfold be16 at h1 h2 ⊢
  simp only [List.cons.injEq, and_true] at h1 h2
  rw [h1.1, h1.2, h2.1, h2.2]
  rfl

theorem rdlength_len (n : Nat) : (rdlength n).length = 2 := rfl

theorem frame_eq (owner : List Nat) (typ cls : Nat) (ttl : Int) (rd : List Nat)
    (ht : typ < 65536) (hc : cls < 65536) :
    owner ++ rr_fixed typ cls ttl ++ (rdlength rd.length ++ rd)
      = rr_frame owner typ cls ttl rd := by
  unfold rr_frame
  rw [rr_fixed_be typ cls ttl ht hc, rdlength_be16]
  simp only [List.append_assoc]

/-- C18. For every window `[p, e)` with `p ≤ e ≤ 65536`, every owner name and
offset, and every class below 65536: a record writer that returns 0 has stored,
from the entry cursor to the cursor it leaves, exactly the owner name encoding,
TYPE, CLASS, TTL, RDLENGTH and RDATA with the integers big-endian and RDLENGTH
the number of bytes of RDATA. `write_record` stores the owner name, TYPE, CLASS
and TTL. `write_record_a` returns -6 for an address that is not IPv4 and
otherwise stores TYPE 1 and the four address octets as RDATA;
`write_record_aaaa` returns -6 for an address that is not IPv6 and otherwise
stores TYPE 28 and the sixteen octets; `write_record_ns` stores TYPE 2 and the
uncompressed encoding of `ns`; `write_record_soa` stores TYPE 6 and the
uncompressed MNAME, the uncompressed RNAME, then SERIAL, REFRESH, RETRY, EXPIRE
and MINIMUM as 32-bit fields in that order. -/
theorem record_framing (m : Mem) (p : Nat) (e : Int) (name : List Nat) (offset : Int)
    (typ cls : Nat) (ttl : Int) (ip : addr_t) (ns mname : List Nat)
    (rname : Option (List Nat)) (s1 s2 s3 s4 s5 : Nat)
    (hpe : (p : Int) ≤ e) (he : e ≤ 65536) (htyp : typ < 65536) (hcls : cls < 65536) :
    ((write_record m p e name offset typ cls ttl).ret = 0 →
      body_of (write_record m p e name offset typ cls ttl).out p
          (write_record m p e name offset typ cls ttl).outpos
        = owner_bytes name offset ++
            (be16 typ ++ be16 cls ++ be32_of (ttl % 4294967296).toNat)) ∧
    (ip.v ≠ 4 → (write_record_a m p e name offset cls ttl ip).ret = -6) ∧
    ((write_record_a m p e name offset cls ttl ip).ret = 0 →
      ip.v = 4 ∧
      body_of (write_record_a m p e name offset cls ttl ip).out p
          (write_record_a m p e name offset cls ttl ip).outpos
        = rr_frame (owner_bytes name offset) 1 cls ttl
            [ip.byte 0, ip.byte 1, ip.byte 2, ip.byte 3]) ∧
    (ip.v ≠ 6 → (write_record_aaaa m p e name offset cls ttl ip).ret = -6) ∧
    ((write_record_aaaa m p e name offset cls ttl ip).ret = 0 →
      ip.v = 6 ∧
      body_of (write_record_aaaa m p e name offset cls ttl ip).out p
          (write_record_aaaa m p e name offset cls ttl ip).outpos
        = rr_frame (owner_bytes name offset) 28 cls ttl ((List.range 16).map ip.byte)) ∧
    ((write_record_ns m p e name offset cls ttl ns).ret = 0 →
      (owner_bytes ns (-1)).length < 65536 ∧
      body_of (write_record_ns m p e name offset cls ttl ns).out p
          (write_record_ns m p e name offset cls ttl ns).outpos
        = rr_frame (owner_bytes name offset) 2 cls ttl (owner_bytes ns (-1))) ∧
    (∀ w, write_record_soa m p e name offset cls ttl mname rname s1 s2 s3 s4 s5 = some w →
      w.ret = 0 →
      ∃ rn, rname = some rn ∧
        (owner_bytes mname (-1) ++ owner_bytes rn (-1)).length + 20 < 65536 ∧
        body_of w.out p w.outpos
          = rr_frame (owner_bytes name offset) 6 cls ttl
              (owner_bytes mname (-1) ++ owner_bytes rn (-1) ++
                be32_of (s1 % 4294967296) ++ be32_of (s2 % 4294967296) ++
                be32_of (s3 % 4294967296) ++ be32_of (s4 % 4294967296) ++
                be32_of (s5 % 4294967296))) := by
  refine ⟨?_, ?_, ?_, ?_, ?_, ?_, ?_⟩
  · intro h0
    obtain ⟨k1, k2, _, _⟩ := write_record_ok m p e name offset typ cls ttl hpe h0
    rw [k1, k2, rr_fixed_be typ cls ttl htyp hcls]
  · intro hv
    unfold write_record_a
    rw [if_pos hv]
  · intro h0
    obtain ⟨k0, k1, k2⟩ := write_record_a_ok m p e name offset cls ttl ip hpe h0
    refine ⟨k0, ?_⟩
    have e1 : ([0, 4] ++ List.map ip.byte (List.range 4))
        = rdlength [ip.byte 0, ip.byte 1, ip.byte 2, ip.byte 3].length ++
          [ip.byte 0, ip.byte 1, ip.byte 2, ip.byte 3] := by
      simp [rdlength, List.range_succ, show (4 : Nat) &&& 255 = 4 from by decide]
    rw [k1, k2, e1]
    exact frame_eq (owner_bytes name offset) TYPE_A cls ttl
      [ip.byte 0, ip.byte 1, ip.byte 2, ip.byte 3] (by decide) hcls
  · intro hv
    unfold write_record_aaaa
    rw [if_pos hv]
  · intro h0
    obtain ⟨k0, k1, k2⟩ := write_record_aaaa_ok m p e name offset cls ttl ip hpe h0
    refine ⟨k0, ?_⟩
    have e1 : ([0, 16] ++ List.map ip.byte (List.range 16))
        = rdlength (List.map ip.byte (List.range 16)).length ++
          List.map ip.byte (List.range 16) := by
      simp [rdlength, show (16 : Nat) &&& 255 = 16 from by decide]
    rw [k1, k2, e1]
    exact frame_eq (owner_bytes name offset) TYPE_AAAA cls ttl
      ((List.range 16).map ip.byte) (by decide) hcls
  · intro h0
    obtain ⟨k1, k2, k3⟩ := write_record_ns_ok m p e name offset cls ttl ns hpe h0
    constructor
    · rw [k1] at k3
      simp only [List.length_append, rdlength_len] at k3
      push_cast at k3
      omega
    · rw [k1, k2]
      exact frame_eq (owner_bytes name offset) TYPE_NS cls ttl (owner_bytes ns (-1))
        (by decide) hcls
  · intro w hw h0
    obtain ⟨rn, hrn, k1, k2, k3⟩ := write_record_soa_ok m p e name offset cls ttl mname rname
      s1 s2 s3 s4 s5 w hpe hw h0
    have hlen := soa_rdata_length (owner_bytes mname (-1)) (owner_bytes rn (-1))
      s1 s2 s3 s4 s5
    refine ⟨rn, hrn, ?_, ?_⟩
    · rw [k1] at k3
      simp only [List.length_append, rdlength_len, hlen] at k3
      rw [List.length_append]
      push_cast at k3
      omega
    · rw [k2, frame_eq (owner_bytes name offset) TYPE_SOA cls ttl _ (by decide) hcls]
      congr 1
      unfold soa_rdata
      simp only [be32_be32_of, List.append_assoc]

set_option maxRecDepth 100000 in
/-- C18 at a concrete input: the A record for 1.2.3.4 with the owner pointer to
offset 12, class IN and TTL 60, written at offset 27 of a 512-byte buffer. -/
theorem record_framing_witness :
    (write_record_a zero_mem 27 512 [] 12 1 60 ⟨4, [1, 2, 3, 4]⟩).ret = 0 ∧
    body_of (write_record_a zero_mem 27 512 [] 12 1 60 ⟨4, [1, 2, 3, 4]⟩).out 27
        (write_record_a zero_mem 27 512 [] 12 1 60 ⟨4, [1, 2, 3, 4]⟩).outpos
      = [192, 12, 0, 1, 0, 1, 0, 0, 0, 60, 0, 4, 1, 2, 3, 4] := by
  have h0 : (write_record_a zero_mem 27 512 [] 12 1 60 ⟨4, [1, 2, 3, 4]⟩).ret = 0 := by
    decide
  refine ⟨h0, ?_⟩
  rw [((record_framing zero_mem 27 512 [] 12 1 1 60 ⟨4, [1, 2, 3, 4]⟩ [] [] none 0 0 0 0 0
    (by decide) (by decide) (by decide) (by decide)).2.2.1 h0).2]
  decide

/-! ### Writing a name and reading it back (C12) -/

theorem getD_at (pre : List Nat) (x : Nat) (post : List Nat) :
    (pre ++ x :: post).getD pre.length 0 = x := by
  induction pre with
  | nil => rfl
  | cons a t ih => exact ih

theorem copy_label_exact (inend bufsize : Nat) :
    ∀ (l pre post buf : List Nat), (∀ c ∈ l, c ≠ 46) → pre.length + l.length ≤ inend →
      buf.length + l.length < bufsize →
      copy_label (pre ++ l ++ post) inend bufsize l.length pre.length buf
        = ⟨0, pre.length + l.length, buf ++ l⟩ := by
  intro l
  induction l with
  | nil =>
    intro pre post buf _ _ _
    simp [copy_label]
  | cons c t ih =>
    intro pre post buf hc hle hb
    rw [List.length_cons] at hle hb
    rw [List.length_cons]
    unfold copy_label
    have h1 : ¬ pre.length = inend := by omega
    have h2 : ¬ buf.length + 1 = bufsize := by omega
    have hg : (pre ++ c :: t ++ post).getD pre.length 0 = c := by
      rw [List.append_assoc, List.cons_append]
      exact getD_at pre c (t ++ post)
    have h3 : ¬ c = 46 := hc c (List.mem_cons_self c t)
    rw [if_neg h1, if_neg h2]
    dsimp only
    rw [hg, if_neg h3]
    have e1 : pre ++ c :: t ++ post = (pre ++ [c]) ++ t ++ post := by simp
    have e2 : pre.length + 1 = (pre ++ [c]).length := by simp
    rw [e1, e2, ih (pre ++ [c]) post (buf ++ [c])
      (fun x hx => hc x (List.mem_cons_of_mem c hx)) (by simp; omega) (by simp; omega)]
    simp
    omega

theorem small_not_ptr {n : Nat} (h : n ≤ 63) : ¬ n &&& 0xC0 = 0xC0 := by
  have := @Nat.and_le_left n 0xC0
  omega

theorem parse_labels (inbuf : List Nat) (bufsize : Nat) :
    ∀ (ls : List (List Nat)) (fuel : Nat) (pre buf : List Nat) (init : Bool),
      inbuf = pre ++ label_bytes ls ++ [0] →
      (∀ l ∈ ls, 1 ≤ l.length ∧ l.length ≤ 63 ∧ ∀ c ∈ l, c ≠ 46) →
      ls.length < fuel →
      buf.length + (if ls = [] then 0 else dot_len init + (join_labels ls).length) < bufsize →
      parse_name_fuel inbuf fuel pre.length inbuf.length bufsize buf init
        = some ⟨0, inbuf.length,
            buf ++ (if ls = [] then [] else if init = false then [46] else []) ++
              join_labels ls ++ [0]⟩ := by
  intro ls
  induction ls with
  | nil =>
    intro fuel pre buf init hin _ hf _
    obtain ⟨f, rfl⟩ : ∃ f, fuel = f + 1 := ⟨fuel - 1, by simp at hf; omega⟩
    have hlen : inbuf.length = pre.length + 1 := by rw [hin]; simp [label_bytes]
    have hg : inbuf.getD pre.length 0 = 0 := by
      rw [hin]
      simp only [label_bytes, List.map_nil, List.flatten_nil, List.append_nil]
      exact getD_at pre 0 []
    unfold parse_name_fuel
    rw [if_neg (by omega)]
    dsimp only
    rw [hg, if_pos rfl, hlen]
    simp [join_labels]
  | cons l rest ih =>
    intro fuel pre buf init hin hls hf hroom
    obtain ⟨f, rfl⟩ : ∃ f, fuel = f + 1 := ⟨fuel - 1, by simp at hf; omega⟩
    obtain ⟨hl1, hl63, hl46⟩ := hls l (List.mem_cons_self l rest)
    rw [label_bytes_cons] at hin
    have hlen : inbuf.length = pre.length + 1 + l.length + (label_bytes rest).length + 1 := by
      rw [hin]; simp; omega
    have hg : inbuf.getD pre.length 0 = l.length := by
      rw [hin]
      have := getD_at pre l.length (l ++ label_bytes rest ++ [0])
      simpa using this
    have hjoin : (join_labels (l :: rest)).length
        = l.length + (if rest = [] then 0 else 1 + (join_labels rest).length) := by
      cases rest with
      | nil => simp [join_labels]
      | cons r rs => simp [join_labels]; omega
    rw [if_neg (List.cons_ne_nil l rest), hjoin] at hroom
    have hdotroom : ¬ (init = false ∧ buf.length + 1 = bufsize) := by
      intro hc
      rw [hc.1] at hroom
      simp [dot_len] at hroom
      omega
    have hbl := dot_buf_length init buf
    have hcl : copy_label inbuf inbuf.length bufsize l.length (pre.length + 1)
        (if init = false then buf ++ [46] else buf)
        = ⟨0, pre.length + 1 + l.length, (if init = false then buf ++ [46] else buf) ++ l⟩ := by
      have := copy_label_exact inbuf.length bufsize l (pre ++ [l.length])
        (label_bytes rest ++ [0]) (if init = false then buf ++ [46] else buf) hl46
        (by simp; omega) (by rw [hbl]; omega)
      have e1 : pre ++ [l.length] ++ l ++ (label_bytes rest ++ [0]) = inbuf := by
        rw [hin]; simp
      rw [e1] at this
      simpa using this
    have hrec := ih f (pre ++ l.length :: l) ((if init = false then buf ++ [46] else buf) ++ l)
      false (by rw [hin]; simp)
      (fun x hx => hls x (List.mem_cons_of_mem l hx))
      (by simp at hf; omega)
      (by
        rw [List.length_append, hbl]
        by_cases hr : rest = []
        · rw [if_pos hr] at hroom ⊢; omega
        · rw [if_neg hr] at hroom ⊢; simp only [dot_len] at hroom ⊢; simp; omega)
    have e2 : (pre ++ l.length :: l).length = pre.length + 1 + l.length := by
      simp; omega
    rw [e2] at hrec
    unfold parse_name_fuel
    rw [if_neg (by omega)]
    dsimp only
    rw [hg, if_neg (by omega), if_neg hdotroom, if_neg (small_not_ptr hl63),
      if_neg (by omega), hcl]
    dsimp only
    rw [if_neg (by simp), hrec]
    congr 2
    cases rest with
    | nil => cases init <;> simp [join_labels]
    | cons r rs => cases init <;> simp [join_labels]

theorem name_class_zero (extra offset : Int) :
    ∀ (ls : List (List Nat)) (room : Int), name_class extra offset ls room = 0 →
      ∀ l ∈ ls, 1 ≤ l.length ∧ l.length ≤ 63 := by
  intro ls
  induction ls with
  | nil => intro room _ l hl; cases hl
  | cons a t ih =>
    intro room h l hl
    unfold name_class at h
    by_cases h63 : a.length > 63
    · rw [if_pos h63] at h; exact absurd h (by decide)
    · rw [if_neg h63] at h
      by_cases h0 : a.length = 0
      · rw [if_pos h0] at h; exact absurd h (by decide)
      · rw [if_neg h0] at h
        by_cases hr : room < (a.length : Int) + 1 + extra
        · rw [if_pos hr] at h; exact absurd h (by decide)
        · rw [if_neg hr] at h
          rcases List.mem_cons.mp hl with rfl | hm
          · omega
          · exact ih _ h l hm

theorem labels_of_no_dot (fuel : Nat) : ∀ (name : List Nat),
    ∀ l ∈ labels_of fuel name, ∀ c ∈ l, c ≠ 46 := by
  induction fuel with
  | zero => intro name l hl; cases hl
  | succ f ih =>
    intro name l hl
    unfold labels_of at hl
    by_cases hn : name = []
    · rw [if_pos hn] at hl; cases hl
    · rw [if_neg hn] at hl
      have htw : ∀ c ∈ name.takeWhile (fun c => c != 46), c ≠ 46 := by
        intro c hc
        have := List.mem_takeWhile_imp hc
        simpa using this
      cases hd : name.dropWhile (fun c => c != 46) with
      | nil =>
        rw [hd] at hl
        dsimp only at hl
        rw [List.mem_singleton] at hl
        subst hl
        exact htw
      | cons d rest =>
        rw [hd] at hl
        dsimp only at hl
        rcases List.mem_cons.mp hl with rfl | hm
        · exact htw
        · exact ih rest l hm

theorem labels_of_ne_nil (fuel : Nat) (name : List Nat) (hn : name ≠ []) :
    labels_of (fuel + 1) name ≠ [] := by
  unfold labels_of
  rw [if_neg hn]
  cases name.dropWhile (fun c => c != 46) with
  | nil => exact List.cons_ne_nil _ _
  | cons d rest => exact List.cons_ne_nil _ _

theorem join_labels_cons (l : List Nat) (ls : List (List Nat)) (h : ls ≠ []) :
    join_labels (l :: ls) = l ++ 46 :: join_labels ls := by
  cases ls with
  | nil => exact absurd rfl h
  | cons a t => rfl

theorem join_labels_of (fuel : Nat) : ∀ (name : List Nat), name.length ≤ fuel →
    name.getLast? ≠ some 46 → join_labels (labels_of fuel name) = name := by
  induction fuel with
  | zero =>
    intro name hl _
    have : name = [] := List.length_eq_zero.mp (by omega)
    subst this
    rfl
  | succ f ih =>
    intro name hl hlast
    by_cases hn : name = []
    · subst hn; rfl
    · unfold labels_of
      rw [if_neg hn]
      have hsplit := List.takeWhile_append_dropWhile (fun c => c != 46) name
      cases hd : name.dropWhile (fun c => c != 46) with
      | nil =>
        rw [hd, List.append_nil] at hsplit
        dsimp only
        exact hsplit
      | cons d rest =>
        rw [hd] at hsplit
        dsimp only
        have hd46 : d = 46 := by
          have h1 : (d :: rest) ≠ [] := List.cons_ne_nil _ _
          have := List.head_dropWhile_not (fun c => c != 46) name (by rw [hd]; exact h1)
          simp only [hd, List.head_cons] at this
          simpa using this
        subst hd46
        have hlen : rest.length + 1 ≤ name.length := by
          rw [← hsplit]; simp
        have hrest : rest ≠ [] := by
          intro hc
          subst hc
          apply hlast
          rw [← hsplit]
          simp
        have hlast2 : rest.getLast? ≠ some 46 := by
          intro hc
          apply hlast
          have e : (46 :: rest).getLast? = some 46 := by
            cases rest with
            | nil => exact absurd rfl hrest
            | cons a t => rw [List.getLast?_cons_cons]; exact hc
          rw [← hsplit, List.getLast?_append, e]
          rfl
        obtain ⟨g, rfl⟩ : ∃ g, f = g + 1 := by
          refine ⟨f - 1, ?_⟩
          have : 0 < rest.length := List.length_pos.mpr hrest
          omega
        rw [join_labels_cons _ _ (labels_of_ne_nil g rest hrest),
          ih rest (by omega) hlast2]
        exact hsplit

theorem labels_count_le (ls : List (List Nat)) : ls.length ≤ (label_bytes ls).length := by
  induction ls with
  | nil => exact Nat.le_refl _
  | cons l t ih =>
    rw [label_bytes_cons, List.length_append, List.length_cons, List.length_cons]
    omega


theorem cstr_of_name (name : List Nat) (h : ∀ c ∈ name, c ≠ 0) : cstr (name ++ [0]) = name := by
  induction name with
  | nil => simp [cstr]
  | cons a t ih =>
    have ha : a ≠ 0 := h a (List.mem_cons_self a t)
    have := ih (fun c hc => h c (List.mem_cons_of_mem a hc))
    unfold cstr at this ⊢
    rw [List.cons_append, List.takeWhile_cons, if_pos (by simpa using ha), this]

/-- C12, as amended. For every name without a dot at its end and of at most 255
characters for which `write_name` with `offset = -1` succeeds in a window
`[p, e)`: `parse_name` over exactly the bytes written, with a 256-byte output
buffer, returns 0, leaves the read cursor at the end of those bytes, and has
stored the name, character for character, followed by the zero byte; for a name
without a NUL byte the C string in the buffer is the name. -/
theorem name_round_trip (m : Mem) (p : Nat) (e : Int) (name : List Nat)
    (hpe : (p : Int) ≤ e) (hdot : name.getLast? ≠ some 46) (hlen : name.length ≤ 255)
    (hw : (write_name m p e name (-1)).ret = 0) :
    parse_name
        (body_of (write_name m p e name (-1)).out p (write_name m p e name (-1)).outpos)
        0 ((write_name m p e name (-1)).outpos - p) 256
      = some ⟨0, (write_name m p e name (-1)).outpos - p, name ++ [0]⟩ ∧
    ((∀ c ∈ name, c ≠ 0) → cstr (name ++ [0]) = name) := by
  refine ⟨?_, cstr_of_name name⟩
  obtain ⟨hc, _, hs⟩ := write_name_spec m p e name (-1) hpe
  obtain ⟨k1, k2, _⟩ := hs hw
  have hneg : (-1 : Int) < 0 := by decide
  rw [if_pos hneg] at k1 k2
  rw [k1, k2]
  have hfacts := name_class_zero 1 (-1) _ _ (hc ▸ hw)
  have hnodot := labels_of_no_dot name.length name
  have hjoin := join_labels_of name.length name (Nat.le_refl _) hdot
  have hcount := labels_count_le (labels_of name.length name)
  generalize labels_of name.length name = ls at hfacts hnodot hjoin hcount
  have e1 : p + (label_bytes ls ++ [0]).length - p = (label_bytes ls ++ [0]).length := by
    omega
  rw [e1]
  have hP := parse_labels (label_bytes ls ++ [0]) 256 ls
    (parse_fuel (label_bytes ls ++ [0]).length) [] [] true (by simp)
    (fun l hl => ⟨(hfacts l hl).1, (hfacts l hl).2, hnodot l hl⟩)
    (by
      unfold parse_fuel
      rw [List.length_append, List.length_singleton]
      have : 0 ≤ ((label_bytes ls).length + 1) * ((label_bytes ls).length + 1) :=
        Nat.zero_le _
      omega)
    (by
      rw [hjoin]
      by_cases hl : ls = []
      · rw [if_pos hl]; simp
      · rw [if_neg hl]; simp [dot_len]; omega)
  unfold parse_name
  rw [List.length_nil] at hP
  rw [hP, hjoin]
  simp

set_option maxRecDepth 100000 in
/-- C12 at a concrete input: the name `ns.x.example` written at offset 0 of a
512-byte buffer and read back. -/
theorem name_round_trip_witness :
    (write_name zero_mem 0 512 (str "ns.x.example") (-1)).ret = 0 ∧
    parse_name
        (body_of (write_name zero_mem 0 512 (str "ns.x.example") (-1)).out 0
          (write_name zero_mem 0 512 (str "ns.x.example") (-1)).outpos)
        0 ((write_name zero_mem 0 512 (str "ns.x.example") (-1)).outpos - 0) 256
      = some ⟨0, (write_name zero_mem 0 512 (str "ns.x.example") (-1)).outpos - 0,
          str "ns.x.example" ++ [0]⟩ :=
  ⟨by decide,
   (name_round_trip zero_mem 0 512 (str "ns.x.example") (by decide) (by decide) (by decide)
     (by decide)).1⟩

set_option maxRecDepth 100000 in
/-- C12, the counterexample. `write_name` with `offset = -1` succeeds for the
name `a.`, whose last character is a dot, and stores `1 a 0`; `parse_name` over
these three bytes returns 0 with the name `a`, not `a.`. It also succeeds for
`long_name`, 257 characters in labels of at most 63, and stores the 259 bytes
`long_wire`; `parse_name` over them with the 256-byte buffer returns -2. -/
theorem round_trip_fails :
    (write_name zero_mem 0 512 (str "a.") (-1)).ret = 0 ∧
    body_of (write_name zero_mem 0 512 (str "a.") (-1)).out 0
      (write_name zero_mem 0 512 (str "a.") (-1)).outpos = [1, 97, 0] ∧
    parse_name [1, 97, 0] 0 3 256 = some ⟨0, 3, str "a" ++ [0]⟩ ∧
    long_name.length = 257 ∧ (∀ c ∈ long_name, c ≠ 0) ∧
    (write_name zero_mem 0 512 long_name (-1)).ret = 0 ∧
    (write_name zero_mem 0 512 long_name (-1)).outpos = 259 ∧
    body_of (write_name zero_mem 0 512 long_name (-1)).out 0 259 = long_wire ∧
    (parse_name long_wire 0 259 256).map ParseRes.ret = some (-2) := by
  decide

/-! ### Compression safety (C14) -/

theorem question_ptr_backward (inbuf msg : List Nat) :
    ∀ (F inpos inend bufsize : Nat) (buf : List Nat) (init : Bool) (r : ParseRes),
      parse_name_fuel inbuf F inpos inend bufsize buf init = some r → r.ret = 0 →
      inpos ≤ inend →
      inpos < r.inpos ∧
      ((∀ j, inpos ≤ j → j < r.inpos → msg.getD j 0 = inbuf.getD j 0) →
        ∀ fuel q, name_ptr_at msg fuel inpos = some q →
          inpos ≤ q ∧ q + 2 = r.inpos ∧ ptr_target msg q < q) := by
  intro F
  induction F with
  | zero => intro inpos inend bufsize buf init r h; cases h
  | succ n ih =>
    intro inpos inend bufsize buf init r h hr hle
    have neg1 : ¬ ((-1 : Int) = 0) := by decide
    have neg2 : ¬ ((-2 : Int) = 0) := by decide
    unfold parse_name_fuel at h
    by_cases h1 : inpos = inend
    · rw [if_pos h1] at h; cases h; exact absurd hr neg1
    · rw [if_neg h1] at h
      dsimp only at h
      by_cases h2 : inbuf.getD inpos 0 = 0
      · rw [if_pos h2] at h
        cases h
        refine ⟨by dsimp only; omega, ?_⟩
        intro hag fuel q hq
        have hm : msg.getD inpos 0 = 0 := by
          rw [hag inpos (Nat.le_refl _) (by dsimp only; omega)]; exact h2
        cases fuel with
        | zero => cases hq
        | succ f =>
          unfold name_ptr_at at hq
          rw [if_pos hm] at hq
          cases hq
      · rw [if_neg h2] at h
        by_cases h3 : init = false ∧ buf.length + 1 = bufsize
        · rw [if_pos h3] at h; cases h; exact absurd hr neg2
        · rw [if_neg h3] at h
          by_cases h4 : inbuf.getD inpos 0 &&& 0xC0 = 0xC0
          · rw [if_pos h4] at h
            by_cases h5 : inpos + 1 = inend
            · rw [if_pos h5] at h; cases h; exact absurd hr neg1
            · rw [if_neg h5] at h
              by_cases h6 : ((inbuf.getD inpos 0 - 0xC0) <<< 8) + inbuf.getD (inpos + 1) 0
                  ≥ inpos + 1 + 1 - 2
              · rw [if_pos h6] at h; cases h; exact absurd hr neg1
              · rw [if_neg h6] at h
                cases hq : parse_name_fuel inbuf n
                  (((inbuf.getD inpos 0 - 0xC0) <<< 8) + inbuf.getD (inpos + 1) 0)
                  (inpos + 1 + 1 - 2)
                  (bufsize - (if init = false then buf ++ [46] else buf).length) [] true with
                | none => rw [hq] at h; cases h
                | some q1 =>
                  rw [hq] at h
                  cases h
                  refine ⟨by dsimp only; omega, ?_⟩
                  dsimp only
                  intro hag fuel q hq2
                  have hm0 : msg.getD inpos 0 = inbuf.getD inpos 0 :=
                    hag inpos (Nat.le_refl _) (by omega)
                  have hm1 : msg.getD (inpos + 1) 0 = inbuf.getD (inpos + 1) 0 :=
                    hag (inpos + 1) (by omega) (by omega)
                  cases fuel with
                  | zero => cases hq2
                  | succ f =>
                    unfold name_ptr_at at hq2
                    rw [hm0, if_neg h2, if_pos h4] at hq2
                    cases hq2
                    refine ⟨Nat.le_refl _, by omega, ?_⟩
                    unfold ptr_target
                    rw [hm0, hm1]
                    omega
          · rw [if_neg h4] at h
            by_cases h5 : inbuf.getD inpos 0 > 63
            · rw [if_pos h5] at h; cases h; exact absurd hr neg1
            · rw [if_neg h5] at h
              have hspec := copy_label_spec inbuf inend bufsize (inbuf.getD inpos 0)
                (inpos + 1) (if init = false then buf ++ [46] else buf) (by omega)
              generalize copy_label inbuf inend bufsize (inbuf.getD inpos 0)
                (inpos + 1) (if init = false then buf ++ [46] else buf) = cl at h hspec
              by_cases h6 : cl.ret ≠ 0
              · rw [if_pos h6] at h
                cases h
                exact absurd hr h6
              · rw [if_neg h6] at h
                have hc0 : cl.ret = 0 := by
                  by_contra hc; exact h6 hc
                obtain ⟨e1, e2, _⟩ := hspec.2 hc0
                obtain ⟨a1, a2⟩ := ih _ _ _ _ _ _ h hr (by omega)
                refine ⟨by omega, ?_⟩
                intro hag fuel q hq2
                have hm0 : msg.getD inpos 0 = inbuf.getD inpos 0 :=
                  hag inpos (Nat.le_refl _) (by omega)
                cases fuel with
                | zero => cases hq2
                | succ f =>
                  unfold name_ptr_at at hq2
                  rw [hm0, if_neg h2, if_neg h4, ← e1] at hq2
                  obtain ⟨b1, b2, b3⟩ := a2 (fun j hj1 hj2 => hag j (by omega) hj2) f q hq2
                  exact ⟨by omega, b2, b3⟩

theorem name_ptr_12 : name_ptr 12 = [0xC0, 0x0C] := by decide

theorem rr_head_take (typ cls : Nat) (ttl : Int) (tail : List Nat) :
    (rr_head 12 typ cls ttl ++ tail).take 2 = [0xC0, 0x0C] := by
  unfold rr_head
  rw [name_ptr_12]
  rfl

theorem plain_label_bytes : ∀ (ls : List (List Nat)),
    (∀ l ∈ ls, 1 ≤ l.length ∧ l.length ≤ 63) → ∀ fuel, ls.length < fuel →
    plain_name fuel (label_bytes ls ++ [0]) = true := by
  intro ls
  induction ls with
  | nil =>
    intro _ fuel hf
    obtain ⟨f, rfl⟩ : ∃ f, fuel = f + 1 := ⟨fuel - 1, by simp at hf; omega⟩
    rfl
  | cons l t ih =>
    intro hls fuel hf
    obtain ⟨f, rfl⟩ : ∃ f, fuel = f + 1 := ⟨fuel - 1, by simp at hf; omega⟩
    obtain ⟨h1, h63⟩ := hls l (List.mem_cons_self l t)
    have e1 : label_bytes (l :: t) ++ [0] = l.length :: (l ++ (label_bytes t ++ [0])) := by
      rw [label_bytes_cons]; simp
    rw [e1]
    unfold plain_name
    rw [if_neg (by omega), if_neg (by omega), if_neg (by simp), List.drop_left]
    exact ih (fun x hx => hls x (List.mem_cons_of_mem l hx)) f (by simp at hf; omega)

theorem name_labels_facts (fuel : Nat) : ∀ (name bs : List Nat),
    name_labels fuel name = some bs →
    ∀ l ∈ labels_of fuel name, 1 ≤ l.length ∧ l.length ≤ 63 := by
  induction fuel with
  | zero => intro name bs _ l hl; cases hl
  | succ fuel ih =>
    intro name bs h l hl
    unfold name_labels at h
    unfold labels_of at hl
    by_cases hn : name = []
    · rw [if_pos hn] at hl; cases hl
    · rw [if_neg hn] at h hl
      dsimp only at h
      by_cases hc : (name.takeWhile (fun c => c != 46)).length > 63 ∨
          (name.takeWhile (fun c => c != 46)).length = 0
      · rw [if_pos hc] at h; cases h
      · rw [if_neg hc] at h
        cases hd : name.dropWhile (fun c => c != 46) with
        | nil =>
          rw [hd] at hl
          dsimp only at hl
          rw [List.mem_singleton] at hl
          subst hl
          omega
        | cons d rest =>
          rw [hd] at h hl
          dsimp only at h hl
          cases hr : name_labels fuel rest with
          | none => rw [hr] at h; cases h
          | some t =>
            rcases List.mem_cons.mp hl with rfl | hm
            · omega
            · exact ih rest t hr l hm

theorem name_wire_plain {name rd : List Nat} (h : name_wire name = some rd) :
    plain_name rd.length rd = true := by
  unfold name_wire at h
  cases hl : name_labels name.length name with
  | none => rw [hl] at h; cases h
  | some bs =>
    rw [hl] at h
    simp only [Option.some.injEq] at h
    subst h
    have hb := name_labels_eq name.length name bs hl
    have hf := name_labels_facts name.length name bs hl
    rw [← hb]
    apply plain_label_bytes _ hf
    have := labels_count_le (labels_of name.length name)
    rw [List.length_append, List.length_singleton]
    omega

theorem safe_ns_plan {opt : dns_opt_t} {ttl : Int} {p : Nat} {e : Int} {r : List Nat}
    (h : ns_plan opt ttl p e = some r) : SafeRec r := by
  obtain ⟨rd, hw, hr, _, _⟩ := ns_plan_some h
  subst hr
  refine ⟨?_, Or.inr (Or.inl ⟨CLASS_IN, ttl, rd, rfl, name_wire_plain hw⟩)⟩
  unfold ns_record
  exact rr_head_take _ _ _ _

theorem safe_soa_plan {opt : dns_opt_t} {serial : Nat} {p : Nat} {e : Int} {r : List Nat}
    (h : soa_plan opt serial p e = some r) : SafeRec r := by
  obtain ⟨rd, hw, hr, _, _⟩ := soa_plan_some h
  obtain ⟨mn, rnm, rn, h1, _, h3, h4⟩ := soa_wire_some hw
  subst hr
  subst h4
  refine ⟨?_, Or.inr (Or.inr ⟨CLASS_IN, opt.nsttl, mn, rn, serial, 604800, 86400, 2592000,
    604800, rfl, name_wire_plain h1, name_wire_plain h3⟩)⟩
  unfold soa_record
  exact rr_head_take _ _ _ _

theorem safe_addr (opt : dns_opt_t) (a : addr_t) : SafeRec (addr_record opt a) := by
  unfold addr_record
  by_cases h : a.v = 4
  · rw [if_pos h]
    refine ⟨?_, Or.inl ⟨CLASS_IN, opt.datattl, a, Or.inl rfl⟩⟩
    unfold a_record
    exact rr_head_take _ _ _ _
  · rw [if_neg h]
    refine ⟨?_, Or.inl ⟨CLASS_IN, opt.datattl, a, Or.inr rfl⟩⟩
    unfold aaaa_record
    exact rr_head_take _ _ _ _

theorem safe_answer_recs (opt : dns_opt_t) (time : Nat → Nat) (e : Int)
    (typ cls : Nat) (name : List Nat) (qend : Nat) :
    ∀ r ∈ answer_recs opt time e typ cls name qend, SafeRec r := by
  intro r hr
  unfold answer_recs at hr
  simp only [List.mem_append] at hr
  rcases hr with (hr | hr) | hr
  · unfold answer_ns_recs at hr
    split at hr
    · cases hpl : ns_plan opt opt.nsttl qend e with
      | none => rw [hpl] at hr; cases hr
      | some x =>
        rw [hpl] at hr
        simp at hr
        subst hr
        exact safe_ns_plan hpl
    · cases hr
  · unfold answer_soa_recs at hr
    split at hr
    · generalize qend + (answer_ns_recs opt e typ cls qend).flatten.length = p1 at hr
      cases hpl : soa_plan opt (time 1) p1 e with
      | none => rw [hpl] at hr; cases hr
      | some x =>
        rw [hpl] at hr
        simp at hr
        subst hr
        exact safe_soa_plan hpl
    · cases hr
  · unfold answer_addr_recs at hr
    split at hr
    · obtain ⟨a, _, ha⟩ := List.mem_map.1 hr
      rw [← ha]
      exact safe_addr opt a
    · cases hr

theorem safe_authority_recs (opt : dns_opt_t) (time : Nat → Nat) (have_ns ancount p : Nat) :
    ∀ r ∈ authority_recs opt time have_ns ancount p, SafeRec r := by
  intro r hr
  unfold authority_recs at hr
  split at hr
  · cases hpl : ns_plan opt opt.nsttl p BUFLEN with
    | none => rw [hpl] at hr; cases hr
    | some x =>
      rw [hpl] at hr
      simp at hr
      subst hr
      exact safe_ns_plan hpl
  · split at hr
    · cases hpl : soa_plan opt (time 2) p BUFLEN with
      | none => rw [hpl] at hr; cases hr
      | some x =>
        rw [hpl] at hr
        simp at hr
        subst hr
        exact safe_soa_plan hpl
    · cases hr

theorem getD_drop_add (l : List Nat) : ∀ (a i : Nat), (l.drop a).getD i 0 = l.getD (a + i) 0 := by
  induction l with
  | nil => intro a i; simp
  | cons x t ih =>
    intro a i
    cases a with
    | zero => simp
    | succ n =>
      rw [List.drop_succ_cons, ih n i]
      have e : n + 1 + i = (n + i) + 1 := by omega
      rw [e]
      rfl

theorem take_two_eq {r : List Nat} {a b : Nat} (h : r.take 2 = [a, b]) :
    ∃ t, r = a :: b :: t := by
  cases r with
  | nil => cases h
  | cons x t =>
    cases t with
    | nil => cases h
    | cons y t2 =>
      simp only [List.take_succ_cons, List.take_zero, List.cons.injEq, and_true] at h
      exact ⟨t2, by rw [h.1, h.2]⟩

theorem chain_backward (inbuf msg : List Nat) (lo B : Nat) :
    ∀ (F inpos inend bufsize : Nat) (buf : List Nat) (init : Bool) (r : ParseRes),
      parse_name_fuel inbuf F inpos inend bufsize buf init = some r → r.ret = 0 →
      inpos ≤ inend →
      inpos < r.inpos ∧ r.inpos ≤ inend ∧
      (lo ≤ inpos → r.inpos ≤ B →
        (∀ j, lo ≤ j → j < B → msg.getD j 0 = inbuf.getD j 0) →
        ∀ fuel q, q ∈ ptr_chain msg lo fuel inpos →
          lo ≤ q ∧ q + 2 ≤ B ∧ ptr_target msg q < q) := by
  intro F
  induction F with
  | zero => intro inpos inend bufsize buf init r h; cases h
  | succ n ih =>
    intro inpos inend bufsize buf init r h hr hle
    have neg1 : ¬ ((-1 : Int) = 0) := by decide
    have neg2 : ¬ ((-2 : Int) = 0) := by decide
    unfold parse_name_fuel at h
    by_cases h1 : inpos = inend
    · rw [if_pos h1] at h; cases h; exact absurd hr neg1
    · rw [if_neg h1] at h
      dsimp only at h
      by_cases h2 : inbuf.getD inpos 0 = 0
      · rw [if_pos h2] at h
        cases h
        refine ⟨by dsimp only; omega, by dsimp only; omega, ?_⟩
        dsimp only
        intro hlo hB hag fuel q hq
        have hm : msg.getD inpos 0 = 0 := by
          rw [hag inpos hlo (by omega)]; exact h2
        cases fuel with
        | zero => cases hq
        | succ f =>
          unfold ptr_chain at hq
          rw [if_pos hm] at hq
          cases hq
      · rw [if_neg h2] at h
        by_cases h3 : init = false ∧ buf.length + 1 = bufsize
        · rw [if_pos h3] at h; cases h; exact absurd hr neg2
        · rw [if_neg h3] at h
          by_cases h4 : inbuf.getD inpos 0 &&& 0xC0 = 0xC0
          · rw [if_pos h4] at h
            by_cases h5 : inpos + 1 = inend
            · rw [if_pos h5] at h; cases h; exact absurd hr neg1
            · rw [if_neg h5] at h
              by_cases h6 : ((inbuf.getD inpos 0 - 0xC0) <<< 8) + inbuf.getD (inpos + 1) 0
                  ≥ inpos + 1 + 1 - 2
              · rw [if_pos h6] at h; cases h; exact absurd hr neg1
              · rw [if_neg h6] at h
                cases hq : parse_name_fuel inbuf n
                  (((inbuf.getD inpos 0 - 0xC0) <<< 8) + inbuf.getD (inpos + 1) 0)
                  (inpos + 1 + 1 - 2)
                  (bufsize - (if init = false then buf ++ [46] else buf).length) [] true with
                | none => rw [hq] at h; cases h
                | some q1 =>
                  rw [hq] at h
                  cases h
                  obtain ⟨_, a2, a3⟩ := ih _ _ _ _ _ _ hq hr (by omega)
                  refine ⟨by dsimp only; omega, by dsimp only; omega, ?_⟩
                  dsimp only
                  intro hlo hB hag fuel q hq2
                  have hm0 : msg.getD inpos 0 = inbuf.getD inpos 0 :=
                    hag inpos hlo (by omega)
                  have hm1 : msg.getD (inpos + 1) 0 = inbuf.getD (inpos + 1) 0 :=
                    hag (inpos + 1) (by omega) (by omega)
                  have ht : ptr_target msg inpos
                      = ((inbuf.getD inpos 0 - 0xC0) <<< 8) + inbuf.getD (inpos + 1) 0 := by
                    unfold ptr_target
                    rw [hm0, hm1]
                  cases fuel with
                  | zero => cases hq2
                  | succ f =>
                    unfold ptr_chain at hq2
                    rw [hm0, if_neg h2, if_pos h4] at hq2
                    by_cases hc : lo ≤ ptr_target msg inpos ∧ ptr_target msg inpos < inpos
                    · rw [if_pos hc] at hq2
                      rcases List.mem_cons.mp hq2 with rfl | hin
                      · exact ⟨hlo, by omega, hc.2⟩
                      · rw [ht] at hin hc
                        exact a3 hc.1 (by omega) hag f q hin
                    · rw [if_neg hc] at hq2
                      rw [List.mem_singleton] at hq2
                      subst hq2
                      exact ⟨hlo, by omega, by rw [ht]; omega⟩
          · rw [if_neg h4] at h
            by_cases h5 : inbuf.getD inpos 0 > 63
            · rw [if_pos h5] at h; cases h; exact absurd hr neg1
            · rw [if_neg h5] at h
              have hspec := copy_label_spec inbuf inend bufsize (inbuf.getD inpos 0)
                (inpos + 1) (if init = false then buf ++ [46] else buf) (by omega)
              generalize copy_label inbuf inend bufsize (inbuf.getD inpos 0)
                (inpos + 1) (if init = false then buf ++ [46] else buf) = cl at h hspec
              by_cases h6 : cl.ret ≠ 0
              · rw [if_pos h6] at h
                cases h
                exact absurd hr h6
              · rw [if_neg h6] at h
                have hc0 : cl.ret = 0 := by
                  by_contra hc; exact h6 hc
                obtain ⟨e1, e2, _⟩ := hspec.2 hc0
                obtain ⟨a1, a2, a3⟩ := ih _ _ _ _ _ _ h hr (by omega)
                refine ⟨by omega, a2, ?_⟩
                intro hlo hB hag fuel q hq2
                have hm0 : msg.getD inpos 0 = inbuf.getD inpos 0 :=
                  hag inpos hlo (by omega)
                cases fuel with
                | zero => cases hq2
                | succ f =>
                  unfold ptr_chain at hq2
                  rw [hm0, if_neg h2, if_neg h4, if_neg h5, ← e1] at hq2
                  exact a3 (by omega) hB hag f q hq2

/-- C14, as amended. In every response to an accepted query the bytes after the
question are a list of records (the Answer records followed by the Authority
records) such that: every record is safe, that is, its owner is the two bytes
0xC0 0x0C and the names in its RDATA (the NS target, the SOA MNAME and RNAME)
are uncompressed, with every length octet between 1 and 63; the owner pointer
of each record, read at the offset of the record in the response, has the
target 12, below that offset; the QNAME of the copied question, walked from
offset 12, if it ends in a compression pointer, ends in one whose target is
below the offset of the pointer's first byte; and every compression pointer a
decoder meets when it reads the QNAME or the owner name of a record, following
each pointer to its target, up to and including the first pointer whose target
lies in the 12-byte header, lies at or after offset 12 and has its target below
the offset of its own first byte. -/
theorem compression_safe (opt : dns_opt_t) (time : Nat → Nat) (inbuf : List Nat)
    (out0 : Mem) (p : ParseRes) (h : accepted opt inbuf p) :
    ∀ resp, (dnshandle opt time inbuf out0).response = some resp →
      ∃ recs : List (List Nat),
        resp.drop (p.inpos + 4) = recs.flatten ∧
        (∀ r ∈ recs, SafeRec r) ∧
        (∀ (pre post : List (List Nat)) (r : List Nat), recs = pre ++ r :: post →
          resp.getD (p.inpos + 4 + pre.flatten.length) 0 = 0xC0 ∧
          resp.getD (p.inpos + 4 + pre.flatten.length + 1) 0 = 0x0C ∧
          ptr_target resp (p.inpos + 4 + pre.flatten.length) = 12 ∧
          12 < p.inpos + 4 + pre.flatten.length ∧
          ∀ fuel q, q ∈ ptr_chain resp 12 fuel (p.inpos + 4 + pre.flatten.length) →
            12 ≤ q ∧ ptr_target resp q < q) ∧
        (∀ fuel q, name_ptr_at resp fuel 12 = some q →
          12 ≤ q ∧ q + 2 = p.inpos ∧ ptr_target resp q < q) ∧
        (∀ fuel q, q ∈ ptr_chain resp 12 fuel 12 →
          12 ≤ q ∧ q + 2 ≤ p.inpos ∧ ptr_target resp q < q) := by
  intro resp hr
  obtain ⟨m2, s, s2, an, au, _, _, _, han, hau, _, _, _, _, _, hdrop, _⟩ :=
    accepted_layout opt time inbuf out0 p h resp hr
  have hsafe : ∀ r ∈ an ++ au, SafeRec r := by
    intro r hm
    rcases List.mem_append.mp hm with h1 | h1
    · rw [han] at h1
      exact safe_answer_recs _ _ _ _ _ _ _ r h1
    · rw [hau] at h1
      exact safe_authority_recs _ _ _ _ _ r h1
  have hf := (accepted_fields opt time inbuf out0 p h).2 resp hr
  have hag : ∀ j, 12 ≤ j → j < p.inpos → resp.getD j 0 = inbuf.getD j 0 :=
    fun j hj1 hj2 => hf.2.2.2.2.2.2.2.2.2.2 j hj1 (by omega)
  obtain ⟨h12, _, _, _, hp, hret, _, _⟩ := h
  have hq := question_ptr_backward inbuf resp (parse_fuel inbuf.length) 12 inbuf.length 256
    [] true p hp hret h12
  have hchain : ∀ fuel q, q ∈ ptr_chain resp 12 fuel 12 →
      12 ≤ q ∧ q + 2 ≤ p.inpos ∧ ptr_target resp q < q :=
    (chain_backward inbuf resp 12 p.inpos (parse_fuel inbuf.length) 12 inbuf.length 256
      [] true p hp hret h12).2.2 (Nat.le_refl _) (Nat.le_refl _) hag
  refine ⟨an ++ au, hdrop, hsafe, ?_, ?_, hchain⟩
  · intro pre post r hsplit
    have hr2 : SafeRec r := hsafe r (by rw [hsplit]; simp)
    obtain ⟨t, ht⟩ := take_two_eq hr2.1
    have hd2 : resp.drop (p.inpos + 4 + pre.flatten.length) = r ++ post.flatten := by
      have : (resp.drop (p.inpos + 4)).drop pre.flatten.length = r ++ post.flatten := by
        rw [hdrop, hsplit]
        simp
      rw [List.drop_drop] at this
      rw [← this]
    have g0 := getD_drop_add resp (p.inpos + 4 + pre.flatten.length) 0
    have g1 := getD_drop_add resp (p.inpos + 4 + pre.flatten.length) 1
    rw [hd2, ht] at g0 g1
    have v0 : resp.getD (p.inpos + 4 + pre.flatten.length) 0 = 0xC0 := g0.symm
    have v1 : resp.getD (p.inpos + 4 + pre.flatten.length + 1) 0 = 0x0C := g1.symm
    have htgt : ptr_target resp (p.inpos + 4 + pre.flatten.length) = 12 := by
      unfold ptr_target
      rw [v0, v1]
      rfl
    refine ⟨v0, v1, htgt, by omega, ?_⟩
    intro fuel q hin
    cases fuel with
    | zero => cases hin
    | succ f =>
      unfold ptr_chain at hin
      have hc : 12 ≤ ptr_target resp (p.inpos + 4 + pre.flatten.length) ∧
          ptr_target resp (p.inpos + 4 + pre.flatten.length)
            < p.inpos + 4 + pre.flatten.length := by
        rw [htgt]; omega
      rw [v0, if_neg (by decide), if_pos (by decide), if_pos hc, htgt] at hin
      rcases List.mem_cons.mp hin with rfl | hin2
      · exact ⟨by omega, by rw [htgt]; omega⟩
      · exact ⟨(hchain f q hin2).1, (hchain f q hin2).2.2⟩
  · intro fuel q hn
    exact hq.2 hag fuel q hn

set_option maxRecDepth 100000 in
/-- C14 at a query with a compressed QNAME: in the zone `x.io` the question is
the label `x` followed by a pointer to offset 6, where the datagram holds the
label `io` and a zero octet. The query is accepted, and in the response the
QNAME walked from offset 12 ends in the pointer at offset 14, whose target is
below 14. -/
theorem compression_safe_witness :
    accepted zone_io ptr_query ⟨0, 16, str "x.io" ++ [0]⟩ ∧
    (dnshandle zone_io clock0 ptr_query zero_mem).response = some ptr_response ∧
    name_ptr_at ptr_response 4 12 = some 14 ∧
    ptr_target ptr_response 14 < 14 := by
  have ha : accepted zone_io ptr_query ⟨0, 16, str "x.io" ++ [0]⟩ := by decide
  have hr : (dnshandle zone_io clock0 ptr_query zero_mem).response = some ptr_response := by
    decide
  have hn : name_ptr_at ptr_response 4 12 = some 14 := by decide
  obtain ⟨_, _, _, _, hq, _⟩ :=
    compression_safe zone_io clock0 ptr_query zero_mem _ ha ptr_response hr
  exact ⟨ha, hr, hn, (hq 4 14 hn).2.2⟩

set_option maxRecDepth 100000 in
/-- C14, the counterexample. In the zone `x.io` with five IPv4 addresses the
query `fwd_query` is accepted: its QNAME is a label of the two bytes 0xC0 0xFF,
the label `x`, and a pointer at offset 17 to offset 7, where the request holds
the label `io` and a zero octet, so the name read is in the zone. The response
copies the question and stores ANCOUNT = 5 at offset 7. A decoder of the QNAME
of the response meets the pointer at 17, goes on at offset 7, takes the 5 there
for a label length, and at offset 13 meets the bytes 0xC0 0xFF: a compression
pointer whose target 255 is not below 13. The same holds from the owner of the
first record at offset 23, and `parse_name` itself returns -1 on the QNAME of
the response. -/
theorem response_forward_pointer :
    accepted zone_io5 fwd_query ⟨0, 19, [192, 255, 46, 120, 46, 105, 111, 0]⟩ ∧
    (dnshandle zone_io5 clock0 fwd_query zero_mem).response.map (fun r => r.take 25)
      = some [0x12, 0x34, 0x85, 0, 0, 1, 0, 5, 0, 1, 0, 0,
          2, 0xC0, 0xFF, 1, 120, 0xC0, 7, 0, 1, 0, 1, 0xC0, 12] ∧
    (dnshandle zone_io5 clock0 fwd_query zero_mem).response.map
      (fun r => (ptr_chain r 0 8 12, ptr_chain r 0 8 23, ptr_target r 13))
      = some ([17, 13], [23, 17, 13], 255) ∧
    (dnshandle zone_io5 clock0 fwd_query zero_mem).response.map
      (fun r => (parse_name r 12 r.length 256).map ParseRes.ret) = some (some (-1)) := by
  decide

end DNS
